import Mathlib

/-!
Fill-poly: a shallow embedding of `public/script.js`

The script keeps a list of committed polygons, one polygon under construction and a
selection index, fills polygons with a scan-line algorithm and resolves clicks with a
ray-casting hit test.

Modelling conventions.

* Numbers are rationals (`ℚ`).  The code is given twice where it computes with fractions.
  The definitions `intersect`, `isPointInPolygon`, `edgeTableEntry`, `advance`, `scanLoop`
  and `fillPolygon` compute with exact arithmetic.  Their counterparts `intersectR`,
  `isPointInPolygonR`, `edgeTableEntryR`, `advanceR`, `scanLoopR` and `fillPolygonR` round
  the result of every arithmetic operation with a function `rnd`: with `rnd = roundDouble`
  (round to nearest, ties to even, 53 bit significand) they compute what JavaScript
  computes with its doubles as long as no overflow or underflow occurs, and with `rnd = id`
  they are the exact definitions again.  Whatever depends on the value of a fraction is
  stated for the rounded definitions; exact arithmetic is used where only integers,
  comparisons and exactly representable values are involved.
* Canvas calls are recorded as a list of `Cmd`.
* Reading a property of `undefined` throws a `TypeError`; code that can throw returns a
  `Run`, the commands issued before the throw together with a flag telling whether the
  code ran to completion.
-/

namespace FillPoly

/-! ## Data model -/

/-- A vertex `{ x, y }`. -/
structure Vertex where
  x : ℚ
  y : ℚ
deriving DecidableEq, Repr, Inhabited

/-- A polygon object `{ vertices, fillColor, edgeColor }`. -/
structure Polygon where
  vertices : List Vertex
  fillColor : String
  edgeColor : String
deriving DecidableEq, Repr, Inhabited

/-! ## Hit test (`isPointInPolygon`, `getPolygonUnderMouse`) -/

/-- The `intersect` flag computed in the body of the loop of `isPointInPolygon` for the
current vertex `vi = vertices[i]` and the previous one `vj = vertices[j]`, in exact
arithmetic (`intersectR` is the same flag with every operation rounded).  The `&&` of the
source short-circuits, so the division is only evaluated when `yi ≠ yj`. -/
def intersect (point vi vj : Vertex) : Bool :=
  (decide (vi.y > point.y) != decide (vj.y > point.y)) &&
    decide (point.x < (vj.x - vi.x) * (point.y - vi.y) / (vj.y - vi.y) + vi.x)

/-- One iteration of the loop of `isPointInPolygon`; the loop state is `(j, inside)` and the
step `j = i++` makes the current index the next `j`. -/
def isPointInPolygonStep (point : Vertex) (vertices : List Vertex)
    (st : Nat × Bool) (i : Nat) : Nat × Bool :=
  (i, if intersect point (vertices.getD i default) (vertices.getD st.1 default)
        then !st.2 else st.2)

/-- The function `isPointInPolygon(point, vertices)`: `i` runs over `0 .. length-1`, `j` starts at
`length - 1` (the loop body is not entered for the empty list). -/
def isPointInPolygon (point : Vertex) (vertices : List Vertex) : Bool :=
  ((List.range vertices.length).foldl (isPointInPolygonStep point vertices)
    (vertices.length - 1, false)).2

/-- The loop of `getPolygonUnderMouse` from index `i` on, over the polygons not yet
visited. -/
def getPolygonUnderMouseFrom (x y : ℚ) : List Polygon → Nat → Int
  | [], _ => -1
  | p :: ps, i =>
    if isPointInPolygon ⟨x, y⟩ p.vertices then (i : Int)
    else getPolygonUnderMouseFrom x y ps (i + 1)

/-- The function `getPolygonUnderMouse(x, y)` over the committed sequence `polygons`. -/
def getPolygonUnderMouse (polygons : List Polygon) (x y : ℚ) : Int :=
  getPolygonUnderMouseFrom x y polygons 0

/-! ## Canvas commands and runs -/

/-- A call on the 2D context `ctx` (or an assignment to one of its properties). -/
inductive Cmd where
  /-- The call `ctx.clearRect(0, 0, canvas.width, canvas.height)`. -/
  | clearRect
  /-- The call `ctx.beginPath()`. -/
  | beginPath
  /-- The call `ctx.moveTo(x, y)`. -/
  | moveTo (x y : ℚ)
  /-- The call `ctx.lineTo(x, y)`. -/
  | lineTo (x y : ℚ)
  /-- The call `ctx.closePath()`. -/
  | closePath
  /-- The assignment `ctx.strokeStyle = c`. -/
  | strokeStyle (c : String)
  /-- The assignment `ctx.lineWidth = w`. -/
  | lineWidth (w : Nat)
  /-- The call `ctx.stroke()`. -/
  | stroke
deriving DecidableEq, Repr

/-- The effect of running a piece of the script: the canvas commands issued, and `ok = false`
when a `TypeError` was thrown (the commands are then those issued before the throw). -/
structure Run where
  cmds : List Cmd
  ok : Bool
deriving DecidableEq, Repr

/-- Code that issues the commands `cs` and completes. -/
def Run.emit (cs : List Cmd) : Run := ⟨cs, true⟩

/-- Code that does nothing. -/
def Run.done : Run := ⟨[], true⟩

/-- Code that throws at once. -/
def Run.throw : Run := ⟨[], false⟩

/-- Sequencing `r; k`: the continuation `k` only runs when `r` completed. -/
def Run.seq (r k : Run) : Run :=
  if r.ok then ⟨r.cmds ++ k.cmds, k.ok⟩ else r

/-! ## Scan-line fill (`fillPolygon`) -/

/-- An edge table entry `{ ymin, ymax, x, slopeInverse }`. -/
structure Edge where
  ymin : ℚ
  ymax : ℚ
  x : ℚ
  slopeInverse : ℚ
deriving DecidableEq, Repr

/-- Body of the edge-table loop for the edge from `v1 = vertices[i]` to
`v2 = vertices[(i + 1) % length]`: the entries pushed (none for a horizontal edge). -/
def edgeTableEntry (v1 v2 : Vertex) : List Edge :=
  if v1.y ≠ v2.y then
    let ymin := if v1.y < v2.y then v1 else v2
    let ymax := if v1.y > v2.y then v1 else v2
    let slopeInverse := (ymax.x - ymin.x) / (ymax.y - ymin.y)
    [{ ymin := ymin.y, ymax := ymax.y, x := ymin.x, slopeInverse := slopeInverse }]
  else []

/-- The edge table before sorting. -/
def buildEdgeTable (vertices : List Vertex) : List Edge :=
  (List.range vertices.length).flatMap fun i =>
    edgeTableEntry (vertices.getD i default) (vertices.getD ((i + 1) % vertices.length) default)

/-- The call `edgeTable.sort((a, b) => a.ymin - b.ymin)` (the sort is stable). -/
def sortByYmin (es : List Edge) : List Edge :=
  es.insertionSort fun a b => a.ymin ≤ b.ymin

/-- The call `activeEdgeTable.sort((a, b) => a.x - b.x)` (the sort is stable). -/
def sortByX (es : List Edge) : List Edge :=
  es.insertionSort fun a b => a.x ≤ b.x

/-- The five canvas calls that draw one span on row `y`. -/
def spanCmds (y : ℚ) (startX endX : ℤ) (color : String) : List Cmd :=
  [Cmd.beginPath, Cmd.moveTo startX y, Cmd.lineTo endX y, Cmd.strokeStyle color, Cmd.stroke]

/-- The pairing loop `for (i = 0; i < activeEdgeTable.length; i += 2)` over the entries from
index `i` on.  With a single entry left, `activeEdgeTable[i + 1]` is `undefined` and reading
its `x` throws before anything is drawn for that entry. -/
def pairLoop (y : ℚ) (color : String) : List Edge → Run
  | [] => Run.done
  | [_] => Run.throw
  | a :: b :: rest =>
    (Run.emit (spanCmds y ⌊a.x⌋ ⌊b.x⌋ color)).seq (pairLoop y color rest)

/-- The active edge table at the moment the spans of row `y` are drawn, from the table
`aet` left by the previous row. -/
def activeAt (edgeTable : List Edge) (y : ℚ) (aet : List Edge) : List Edge :=
  sortByX (aet.filter (fun edge => decide (edge.ymax > y)) ++
    edgeTable.filter (fun edge => decide (edge.ymin = y)))

/-- The update `edge.x += edge.slopeInverse` of every active edge, in exact arithmetic
(`advanceR` is the same update with the sum rounded). -/
def advance (aet : List Edge) : List Edge :=
  aet.map fun edge => { edge with x := edge.x + edge.slopeInverse }

/-- The scan loop `for (let y = y_min; y <= y_max; y++)` from row `y` on with active edge
table `aet`; `fuel` bounds the number of rows still to visit. -/
def scanLoop (edgeTable : List Edge) (color : String) (y_max : ℚ) :
    Nat → ℚ → List Edge → Run
  | 0, _, _ => Run.done
  | fuel + 1, y, aet =>
    if y ≤ y_max then
      (pairLoop y color (activeAt edgeTable y aet)).seq
        (scanLoop edgeTable color y_max fuel (y + 1) (advance (activeAt edgeTable y aet)))
    else Run.done

/-- Number of rows `y_min, y_min + 1, ...` that are `≤ y_max`. -/
def rowCount (y_min y_max : ℚ) : Nat := (⌊y_max - y_min⌋ + 1).toNat

/-- The function `fillPolygon(polygon)`.  For an empty vertex list `Math.min()` is `Infinity` and
`Math.max()` is `-Infinity`, so the scan loop is not entered. -/
def fillPolygon (polygon : Polygon) : Run :=
  match polygon.vertices.map (fun v => v.y) with
  | [] => Run.done
  | y0 :: ys =>
    let y_min := ys.foldl min y0
    let y_max := ys.foldl max y0
    scanLoop (sortByYmin (buildEdgeTable polygon.vertices)) polygon.fillColor y_max
      (rowCount y_min y_max) y_min []

/-! ## Outlines -/

/-- The calls `ctx.lineTo(vertices[i].x, vertices[i].y)` of a path loop. -/
def lineTos (vs : List Vertex) : List Cmd := vs.map fun v => Cmd.lineTo v.x v.y

/-- The function `drawPolygonOutline(vertices, edgeColor)`; it draws nothing unless
`vertices.length > 1`. -/
def drawPolygonOutline (vertices : List Vertex) (edgeColor : String) : List Cmd :=
  match vertices with
  | v0 :: v1 :: rest =>
    [Cmd.beginPath, Cmd.moveTo v0.x v0.y] ++ lineTos (v1 :: rest) ++
      [Cmd.strokeStyle edgeColor, Cmd.stroke]
  | _ => []

/-- The function `highlightPolygon(polygon)`; the argument is `none` when the caller passed `undefined`.
`ctx.beginPath()` is called before `polygon.vertices[0].x` is read. -/
def highlightPolygon : Option Polygon → Run
  | none => ⟨[Cmd.beginPath], false⟩
  | some polygon =>
    match polygon.vertices with
    | [] => ⟨[Cmd.beginPath], false⟩
    | v0 :: rest =>
      Run.emit ([Cmd.beginPath, Cmd.moveTo v0.x v0.y] ++ lineTos rest ++
        [Cmd.closePath, Cmd.lineWidth 3, Cmd.strokeStyle "#FF0000", Cmd.stroke,
          Cmd.lineWidth 1])

/-! ## Application state and event handlers -/

/-- The mutable state of the script.

`colorPicker`, `edgeColorPicker` and `toggleEdges` are the `value`s of the two colour inputs
and the `checked` flag of the checkbox.

`shared` records aliasing: `{ ...currentPolygon }` copies the reference to the vertex array,
so a polygon pushed by `finishPolygon` shares its vertex array with `currentPolygon` until
`currentPolygon` is replaced by a fresh object.  `shared` is the number of polygons at the
end of `polygons` whose vertex array is the array of `currentPolygon`. -/
structure State where
  polygons : List Polygon
  currentPolygon : Polygon
  selectedPolygonIndex : Int
  colorPicker : String
  edgeColorPicker : String
  toggleEdges : Bool
  shared : Nat
deriving DecidableEq, Repr

/-- The array read `polygons[i]`: `none` stands for `undefined`. -/
def polygonAt (polygons : List Polygon) (i : Int) : Option Polygon :=
  if 0 ≤ i then polygons.get? i.toNat else none

/-- The loop of `drawAllPolygons` over the polygons not yet drawn. -/
def drawAllPolygons (toggleEdges : Bool) : List Polygon → Run
  | [] => Run.done
  | poly :: rest =>
    ((fillPolygon poly).seq
      (Run.emit (if toggleEdges then drawPolygonOutline poly.vertices poly.edgeColor else []))).seq
      (drawAllPolygons toggleEdges rest)

/-- The function `redrawCanvas()`. -/
def redrawCanvas (s : State) : Run :=
  (((Run.emit [Cmd.clearRect]).seq
    (drawAllPolygons s.toggleEdges s.polygons)).seq
    (Run.emit (if s.currentPolygon.vertices.length > 1 then
        if s.toggleEdges then
          drawPolygonOutline s.currentPolygon.vertices s.currentPolygon.edgeColor
        else []
      else []))).seq
    (if s.selectedPolygonIndex ≠ -1 then
      highlightPolygon (polygonAt s.polygons s.selectedPolygonIndex)
    else Run.done)

/-- The effect of `currentPolygon.vertices.push(v)` on the committed sequence: the last
`shared` polygons share the array and receive the vertex too. -/
def pushShared (polygons : List Polygon) (shared : Nat) (v : Vertex) : List Polygon :=
  polygons.take (polygons.length - shared) ++
    (polygons.drop (polygons.length - shared)).map fun p =>
      { p with vertices := p.vertices ++ [v] }

/-- The function `addVertex(x, y)`. -/
def addVertex (s : State) (x y : ℚ) : State × Run :=
  let s1 : State :=
    { s with
      currentPolygon :=
        { s.currentPolygon with vertices := s.currentPolygon.vertices ++ [⟨x, y⟩] }
      polygons := pushShared s.polygons s.shared ⟨x, y⟩ }
  (s1, redrawCanvas s1)

/-- The handler `handleClick(event)` with `x = event.clientX - rect.left`, `y = event.clientY - rect.top`. -/
def handleClick (s : State) (x y : ℚ) : State × Run :=
  let clickedPolygonIndex := getPolygonUnderMouse s.polygons x y
  if clickedPolygonIndex ≠ -1 then
    match polygonAt s.polygons clickedPolygonIndex with
    | some p =>
      let s1 : State :=
        { s with
          selectedPolygonIndex := clickedPolygonIndex
          colorPicker := p.fillColor
          edgeColorPicker := p.edgeColor }
      (s1, redrawCanvas s1)
    | none => ({ s with selectedPolygonIndex := clickedPolygonIndex }, Run.throw)
  else
    let (s1, r1) := addVertex s x y
    if r1.ok then
      let s2 : State := { s1 with selectedPolygonIndex := -1 }
      (s2, r1.seq (redrawCanvas s2))
    else (s1, r1)

/-- The object `{ vertices: [], fillColor: colorPicker.value, edgeColor: edgeColorPicker.value }`. -/
def freshPolygon (s : State) : Polygon :=
  { vertices := [], fillColor := s.colorPicker, edgeColor := s.edgeColorPicker }

/-- The handler `finishPolygon()`.  When `fillPolygon(currentPolygon)` throws, the copy has
already been pushed and `currentPolygon` is not replaced. -/
def finishPolygon (s : State) : State × Run :=
  if s.currentPolygon.vertices.length > 2 then
    let s1 : State :=
      { s with polygons := s.polygons ++ [s.currentPolygon], shared := s.shared + 1 }
    let r1 := (fillPolygon s.currentPolygon).seq
      (Run.emit (if s.toggleEdges then
        drawPolygonOutline s.currentPolygon.vertices s.currentPolygon.edgeColor else []))
    if r1.ok then
      let s2 : State := { s1 with currentPolygon := freshPolygon s1, shared := 0 }
      (s2, r1.seq (redrawCanvas s2))
    else (s1, r1)
  else (s, redrawCanvas s)

/-- The assignment `polygons[i].fillColor = value` for an existing index. -/
def setFillAt (polygons : List Polygon) (i : Nat) (value : String) : List Polygon :=
  polygons.modify (fun p => { p with fillColor := value }) i

/-- The assignment `polygons[i].edgeColor = value` for an existing index. -/
def setEdgeAt (polygons : List Polygon) (i : Nat) (value : String) : List Polygon :=
  polygons.modify (fun p => { p with edgeColor := value }) i

/-- The handler `updateFillColor(event)` with `value = event.target.value`. -/
def updateFillColor (s : State) (value : String) : State × Run :=
  if s.selectedPolygonIndex ≠ -1 then
    match polygonAt s.polygons s.selectedPolygonIndex with
    | some _ =>
      let s1 : State :=
        { s with polygons := setFillAt s.polygons s.selectedPolygonIndex.toNat value }
      (s1, redrawCanvas s1)
    | none => (s, Run.throw)
  else
    let s1 : State := { s with currentPolygon := { s.currentPolygon with fillColor := value } }
    (s1, redrawCanvas s1)

/-- The handler `updateEdgeColor(event)` with `value = event.target.value`. -/
def updateEdgeColor (s : State) (value : String) : State × Run :=
  if s.selectedPolygonIndex ≠ -1 then
    match polygonAt s.polygons s.selectedPolygonIndex with
    | some _ =>
      let s1 : State :=
        { s with polygons := setEdgeAt s.polygons s.selectedPolygonIndex.toNat value }
      (s1, redrawCanvas s1)
    | none => (s, Run.throw)
  else
    let s1 : State := { s with currentPolygon := { s.currentPolygon with edgeColor := value } }
    (s1, redrawCanvas s1)

/-- The handler `clearCanvas()`. -/
def clearCanvas (s : State) : State × Run :=
  let s1 : State :=
    { s with
      polygons := []
      currentPolygon := freshPolygon s
      selectedPolygonIndex := -1
      shared := 0 }
  (s1, (Run.emit [Cmd.clearRect]).seq (redrawCanvas s1))

/-! ## Specification-side notions for the hit test -/

/-- The edges of a polygon: consecutive vertex pairs, the last vertex being paired with the
first one (wrap-around edge). -/
def polygonEdges (vs : List Vertex) : List (Vertex × Vertex) :=
  vs.zip (vs.rotate 1)

/-- The edge from `a` to `b` straddles the horizontal line at height `y`: exactly one of the
two endpoints has its `y` strictly greater than `y`. -/
def straddles (a b : Vertex) (y : ℚ) : Bool :=
  xor (decide (a.y > y)) (decide (b.y > y))

/-- The `x` at which the line through `a` and `b` meets the horizontal line at height `y`. -/
def crossingX (a b : Vertex) (y : ℚ) : ℚ :=
  a.x + (y - a.y) * (b.x - a.x) / (b.y - a.y)

/-- Number of edges that straddle `p.y` and cross the horizontal line through `p` strictly
to the right of `p`. -/
def rayCrossings (p : Vertex) (vs : List Vertex) : Nat :=
  (polygonEdges vs).countP fun e =>
    straddles e.1 e.2 p.y && decide (p.x < crossingX e.1 e.2 p.y)

/-- The loop of `isPointInPolygon` seen as a walk along the vertex list, `prev` being the
vertex `vertices[j]` of the step to come. -/
def rayWalk (p : Vertex) : Vertex → List Vertex → Bool → Bool
  | _, [], inside => inside
  | prev, v :: vs, inside => rayWalk p v vs (if intersect p v prev then !inside else inside)

/-! ## Specification-side notions for convex polygons -/

/-- Twice the signed area of the triangle `a`, `b`, `v`: zero when `v` lies on the line through
`a` and `b`, and of opposite signs on the two sides of that line. -/
def cross (a b v : Vertex) : ℚ :=
  (b.x - a.x) * (v.y - a.y) - (b.y - a.y) * (v.x - a.x)

/-- A convex polygon: the vertices are pairwise distinct, they are not all on one line, and
every vertex lies on the same side of (or on) the line through every edge. -/
def ConvexPolygon (vs : List Vertex) : Prop :=
  vs.Nodup ∧ (∃ e ∈ polygonEdges vs, ∃ v ∈ vs, cross e.1 e.2 v ≠ 0) ∧
    ((∀ e ∈ polygonEdges vs, ∀ v ∈ vs, 0 ≤ cross e.1 e.2 v) ∨
      (∀ e ∈ polygonEdges vs, ∀ v ∈ vs, cross e.1 e.2 v ≤ 0))

instance (vs : List Vertex) : Decidable (ConvexPolygon vs) := by
  unfold ConvexPolygon
  infer_instance

/-- The `x` coordinates of the points of the boundary of the polygon (points of its edges,
endpoints included) that lie on the horizontal line at height `y`. -/
def boundaryRow (vs : List Vertex) (y : ℚ) : Set ℚ :=
  { x | ∃ e ∈ polygonEdges vs, ∃ t : ℚ, 0 ≤ t ∧ t ≤ 1 ∧
      x = e.1.x + t * (e.2.x - e.1.x) ∧ y = e.1.y + t * (e.2.y - e.1.y) }

/-- An active edge with its `x` taken back to the value it had in the edge table, `y` being
the row for which its `x` is the current one. -/
def baseEdge (y : ℚ) (a : Edge) : Edge :=
  { a with x := a.x - (y - a.ymin) * a.slopeInverse }

/-- Invariant of the active edge table at the moment the spans of row `y` are drawn: its
entries come from distinct entries of the edge table `ET`, each meeting the row. -/
def ActiveInv (ET : List Edge) (y : ℚ) (A : List Edge) : Prop :=
  (A.map (baseEdge y)).Nodup ∧ ∀ a ∈ A, baseEdge y a ∈ ET ∧ a.ymin ≤ y ∧ y < a.ymax

/-- Invariant of the active edge table when the scan loop reaches row `y`: its entries come
from distinct entries of the edge table `ET` that start strictly below the row. -/
def PendingInv (ET : List Edge) (y : ℚ) (aet : List Edge) : Prop :=
  (aet.map (baseEdge y)).Nodup ∧ ∀ a ∈ aet, baseEdge y a ∈ ET ∧ a.ymin < y

/-- The command list `cmds` consists of spans in colour `color` only, each of which
satisfies `Q row startX endX`. -/
def SpansSatisfy (color : String) (Q : ℚ → ℤ → ℤ → Prop) (cmds : List Cmd) : Prop :=
  ∃ spans : List (ℚ × ℤ × ℤ),
    cmds = spans.flatMap (fun t => spanCmds t.1 t.2.1 t.2.2 color) ∧
      ∀ t ∈ spans, Q t.1 t.2.1 t.2.2

/-- A span whose ends are within one pixel (by `floor` rounding) of the leftmost and the
rightmost boundary point of the polygon on its row. -/
def SpanWithinOne (vs : List Vertex) (y : ℚ) (startX endX : ℤ) : Prop :=
  ∃ L R : ℚ, IsLeast (boundaryRow vs y) L ∧ IsGreatest (boundaryRow vs y) R ∧
    L - 1 < startX ∧ (startX : ℚ) ≤ L ∧ R - 1 < endX ∧ (endX : ℚ) ≤ R

instance : IsTotal Edge (fun a b => a.x ≤ b.x) := ⟨fun a b => le_total a.x b.x⟩

instance : IsTrans Edge (fun a b => a.x ≤ b.x) := ⟨fun _ _ _ h1 h2 => le_trans h1 h2⟩

/-! ## Events -/

/-- The user actions the script listens to.  A colour action carries the new value of the
picker (`event.target.value`); the toggle action is a `change` of the checkbox. -/
inductive Action where
  | click (x y : ℚ)
  | finish
  | fillColor (value : String)
  | edgeColor (value : String)
  | toggleOutline
  | clear
deriving DecidableEq, Repr

/-- The state after the script has been loaded, for given initial widget values. -/
def initialState (colorPicker edgeColorPicker : String) (toggleEdges : Bool) : State :=
  { polygons := []
    currentPolygon := { vertices := [], fillColor := colorPicker, edgeColor := edgeColorPicker }
    selectedPolygonIndex := -1
    colorPicker := colorPicker
    edgeColorPicker := edgeColorPicker
    toggleEdges := toggleEdges
    shared := 0 }

/-- One event: the browser updates the widget that fired it, then the listener registered
for it runs. -/
def step (s : State) : Action → State × Run
  | Action.click x y => handleClick s x y
  | Action.finish => finishPolygon s
  | Action.fillColor value => updateFillColor { s with colorPicker := value } value
  | Action.edgeColor value => updateEdgeColor { s with edgeColorPicker := value } value
  | Action.toggleOutline =>
    ({ s with toggleEdges := !s.toggleEdges }, redrawCanvas { s with toggleEdges := !s.toggleEdges })
  | Action.clear => clearCanvas s

/-- The state after a sequence of events. -/
def runActions (s : State) (as : List Action) : State :=
  as.foldl (fun st a => (step st a).1) s

/-! ## Specification-side description of a redraw -/

/-- The command sequence of a redraw as the specification words it: a clear; for each
committed polygon its fill spans, then its outline when outlines are visible; the fill and
the outline of the in-progress polygon when it has at least 2 vertices; the highlight of the
selected polygon when there is one. -/
def redrawAsSpecified (s : State) : List Cmd :=
  [Cmd.clearRect] ++
    s.polygons.flatMap (fun p =>
      (fillPolygon p).cmds ++
        (if s.toggleEdges then drawPolygonOutline p.vertices p.edgeColor else [])) ++
    (if s.currentPolygon.vertices.length ≥ 2 then
      (fillPolygon s.currentPolygon).cmds ++
        drawPolygonOutline s.currentPolygon.vertices s.currentPolygon.edgeColor
    else []) ++
    (if s.selectedPolygonIndex ≠ -1 then
      (highlightPolygon (polygonAt s.polygons s.selectedPolygonIndex)).cmds
    else [])

/-- The commands of a highlighted outline of a polygon whose first vertex is `v0`: a closed
path through the vertices, stroked 3 wide in the highlight colour, the width being reset
to 1 afterwards. -/
def highlightCmds (v0 : Vertex) (rest : List Vertex) : List Cmd :=
  [Cmd.beginPath, Cmd.moveTo v0.x v0.y] ++ lineTos rest ++
    [Cmd.closePath, Cmd.lineWidth 3, Cmd.strokeStyle "#FF0000", Cmd.stroke, Cmd.lineWidth 1]

/-! ## Concrete inputs -/

/-- A state with one committed 2 by 2 square, which is selected, an in-progress polygon with
two vertices, and outlines visible. -/
def selectedSquareState : State :=
  { polygons := [⟨[⟨0, 0⟩, ⟨2, 0⟩, ⟨2, 2⟩, ⟨0, 2⟩], "#00ff00", "#000000"⟩]
    currentPolygon := ⟨[⟨5, 5⟩, ⟨7, 7⟩], "#0000ff", "#111111"⟩
    selectedPolygonIndex := 0
    colorPicker := "#00ff00"
    edgeColorPicker := "#000000"
    toggleEdges := true
    shared := 0 }

/-- The state reached from the freshly loaded page by clicking at `(0,0)`, `(10,0.5)` and
`(5,5)`: the in-progress polygon is `oddTriangle`. -/
def threeClicksState : State :=
  runActions (initialState "#00ff00" "#000000" false)
    [Action.click 0 0, Action.click 10 (1 / 2), Action.click 5 5]

/-- The state reached from `threeClicksState` by the finish button and a click at `(5,2)`,
a point inside the triangle. -/
def selectedTriangleState : State :=
  runActions threeClicksState [Action.finish, Action.click 5 2]

/-- The triangle `(0,0), (4,0), (1,3)`, a convex polygon. -/
def smallTriangle : Polygon := ⟨[⟨0, 0⟩, ⟨4, 0⟩, ⟨1, 3⟩], "#00ff00", "#000000"⟩

/-- The triangle `(0,0), (10,0.5), (5,5)`; the edge starting at `y = 0.5` never enters the
active edge table. -/
def oddTriangle : List Vertex := [⟨0, 0⟩, ⟨10, 1 / 2⟩, ⟨5, 5⟩]

/-! ## Specification-side notions for the winding number -/

/-- Contribution of the directed edge from `a` to `b` to the winding number around `p`:
`+1` for an upward edge that passes strictly to the right of `p` on the row of `p`
(`p` strictly to its left), `-1` for a downward one, `0` otherwise. -/
def windingEdge (a b p : Vertex) : ℤ :=
  if a.y ≤ p.y ∧ p.y < b.y ∧ 0 < cross a b p then 1
  else if b.y ≤ p.y ∧ p.y < a.y ∧ cross a b p < 0 then -1
  else 0

/-- The winding number of the closed polygon `vs` around `p`, summed edge by edge. -/
def windingNumber (p : Vertex) (vs : List Vertex) : ℤ :=
  ((polygonEdges vs).map fun e => windingEdge e.1 e.2 p).sum

/-- The point `z` lies on the closed segment from `a` to `b`. -/
def OnSegment (a b z : Vertex) : Prop :=
  ∃ t : ℚ, 0 ≤ t ∧ t ≤ 1 ∧ z.x = a.x + t * (b.x - a.x) ∧ z.y = a.y + t * (b.y - a.y)

/-- A simple (non-self-intersecting) polygon: at least 3 pairwise distinct vertices, and two
distinct edges have no common point except that an edge meets the next one at the vertex
they share. -/
def SimplePolygon (vs : List Vertex) : Prop :=
  3 ≤ vs.length ∧ vs.Nodup ∧
    ∀ e ∈ polygonEdges vs, ∀ f ∈ polygonEdges vs, e ≠ f →
      ∀ z, OnSegment e.1 e.2 z → OnSegment f.1 f.2 z →
        (e.2 = f.1 ∧ z = e.2) ∨ (f.2 = e.1 ∧ z = f.2)

/-- Indicator of the region strictly to the right of the upward segment from `p` to `q`,
between the rows of `p` (excluded) and of `q` (included). -/
def chi (p q z : Vertex) : ℤ :=
  if p.y < z.y ∧ z.y ≤ q.y ∧ cross p q z < 0 then 1 else 0

/-- Signed version of `chi` for a segment given in any direction. -/
def chiSigned (p q z : Vertex) : ℤ :=
  if p.y < q.y then chi p q z else if q.y < p.y then -chi q p z else 0

/-- Defect of the edge from `a` to `b` along the segment from `p` to `q`. -/
def tau (a b p q : Vertex) : ℤ :=
  windingEdge a b p - windingEdge a b q - chiSigned p q b + chiSigned p q a

/-- The point of the line through `a` and `b` at parameter `t` (`a` at 0, `b` at 1). -/
def pointAt (a b : Vertex) (t : ℚ) : Vertex :=
  ⟨a.x + t * (b.x - a.x), a.y + t * (b.y - a.y)⟩

/-- Side index of a directed edge: `1` for an edge going up and for a horizontal edge going
left, `0` for an edge going down and for a horizontal edge going right. -/
def kappa (a b : Vertex) : ℤ :=
  if a.y < b.y ∨ (a.y = b.y ∧ b.x < a.x) then 1 else 0

/-- A right triangle with legs of length 4 on the coordinate axes. -/
def rightTriangle : List Vertex := [⟨0, 0⟩, ⟨4, 0⟩, ⟨0, 4⟩]

/-- The active edge table at the moment the spans of row `y + k` are drawn, for a scan loop
that reaches row `y` with the table `aet` left by the row before, the rows `y, ..., y + k - 1`
being completed: the same recursion as `scanLoop`. -/
def activeAtRow (edgeTable : List Edge) : ℚ → List Edge → Nat → List Edge
  | y, aet, 0 => activeAt edgeTable y aet
  | y, aet, k + 1 => activeAtRow edgeTable (y + 1) (advance (activeAt edgeTable y aet)) k

/-- The corners of the axis-aligned rectangle with opposite corners `(x0, y0)` and
`(x1, y1)`, listed in order around it starting from `(x0, y0)`. -/
def rectangleVertices (x0 y0 x1 y1 : ℚ) : List Vertex :=
  [⟨x0, y0⟩, ⟨x1, y0⟩, ⟨x1, y1⟩, ⟨x0, y1⟩]

/-- The endpoint of an edge with the smaller `y` (the first one for a horizontal edge). -/
def lowerEnd (e : Vertex × Vertex) : Vertex := if e.1.y ≤ e.2.y then e.1 else e.2

/-- The endpoint of an edge with the larger `y` (the second one for a horizontal edge). -/
def upperEnd (e : Vertex × Vertex) : Vertex := if e.1.y ≤ e.2.y then e.2 else e.1

/-- The edge table as the specification words it: the polygon edges are taken in order, an
edge whose endpoints share the same `y` is skipped, and any other edge gives the record of
the lower endpoint's `y`, the upper endpoint's `y`, the lower endpoint's `x` and the
quotient `(x_upper - x_lower) / (y_upper - y_lower)`. -/
def edgeTableAsSpecified (vs : List Vertex) : List Edge :=
  (polygonEdges vs).filterMap fun e =>
    if e.1.y = e.2.y then none
    else some
      { ymin := (lowerEnd e).y
        ymax := (upperEnd e).y
        x := (lowerEnd e).x
        slopeInverse := ((upperEnd e).x - (lowerEnd e).x) / ((upperEnd e).y - (lowerEnd e).y) }

instance : IsTotal Edge (fun a b => a.ymin ≤ b.ymin) := ⟨fun a b => le_total a.ymin b.ymin⟩

instance : IsTrans Edge (fun a b => a.ymin ≤ b.ymin) := ⟨fun _ _ _ h1 h2 => le_trans h1 h2⟩

/-- The value `y_min` of `fillPolygon`, the least `y` of the vertices (for the empty vertex
list, where `fillPolygon` visits no row, `0` stands in for `Infinity`). -/
def yMin (vs : List Vertex) : ℚ :=
  match vs.map (fun v => v.y) with
  | [] => 0
  | y0 :: ys => ys.foldl min y0

/-- The value `y_max` of `fillPolygon`, the greatest `y` of the vertices (for the empty vertex
list, where `fillPolygon` visits no row, `0` stands in for `-Infinity`). -/
def yMax (vs : List Vertex) : ℚ :=
  match vs.map (fun v => v.y) with
  | [] => 0
  | y0 :: ys => ys.foldl max y0

/-- An edge table entry with its `x` moved to row `y`: `x_lower + (y - ymin) * slopeInverse`,
the `x` at which the edge meets the row. -/
def edgeAtRow (y : ℚ) (e : Edge) : Edge :=
  { e with x := e.x + (y - e.ymin) * e.slopeInverse }

/-- The active edge set of row `y` as the specification words it: the entries of the edge
table with `ymin ≤ y < ymax` (half-open at the top), each with its `x` at row `y`. -/
def activeAsSpecified (edgeTable : List Edge) (y : ℚ) : List Edge :=
  (edgeTable.filter fun e => decide (e.ymin ≤ y ∧ y < e.ymax)).map (edgeAtRow y)

/-- All vertices have an integer `y` coordinate. -/
def IntegerRows (vs : List Vertex) : Prop := ∀ v ∈ vs, (⌊v.y⌋ : ℚ) = v.y

instance (vs : List Vertex) : Decidable (IntegerRows vs) := by
  unfold IntegerRows
  infer_instance

/-- The quadrilateral `(0,0), (10,-0.5), (20,0), (10,10)`: its lowest vertex has a
non-integer `y`, so the rows visited are `-0.5, 0.5, 1.5, ...`. -/
def kite : List Vertex := [⟨0, 0⟩, ⟨10, -1 / 2⟩, ⟨20, 0⟩, ⟨10, 10⟩]

/-- A self-intersecting quadrilateral (a bow tie) with integer coordinates. -/
def bowTie : Polygon := ⟨[⟨0, 0⟩, ⟨4, 4⟩, ⟨4, 0⟩, ⟨0, 4⟩], "#00ff00", "#000000"⟩

/-- All vertices lie on one line `a * x + b * y = c`. -/
def CollinearVertices (vs : List Vertex) : Prop :=
  ∃ a b c : ℚ, (a ≠ 0 ∨ b ≠ 0) ∧ ∀ v ∈ vs, a * v.x + b * v.y = c

/-- The triangle `(0,0), (4,0), (2,2)`: its base is horizontal, so it has 2 non-horizontal
edges. -/
def baseTriangle : Polygon := ⟨[⟨0, 0⟩, ⟨4, 0⟩, ⟨2, 2⟩], "#00ff00", "#000000"⟩

/-- Three points of the line `x = 2 * y` with integer `y`. -/
def slantedLine : Polygon := ⟨[⟨0, 0⟩, ⟨2, 1⟩, ⟨4, 2⟩], "#00ff00", "#000000"⟩

/-- Three points of the line `x = 4 * y`, the middle one with a non-integer `y`. -/
def brokenLine : Polygon := ⟨[⟨0, 0⟩, ⟨2, 1 / 2⟩, ⟨8, 2⟩], "#00ff00", "#000000"⟩

/-! ## Double-precision arithmetic -/

/-- The power `2 ^ e` for an integer exponent. -/
def pow2 (e : ℤ) : ℚ :=
  if 0 ≤ e then ((2 ^ e.toNat : ℕ) : ℚ) else 1 / ((2 ^ (-e).toNat : ℕ) : ℚ)

/-- The number of binary digits of `n` (`0` for `n = 0`), by halving at most `fuel` times. -/
def bitLength : Nat → Nat → Nat
  | 0, _ => 0
  | fuel + 1, n => if n = 0 then 0 else bitLength fuel (n / 2) + 1

/-- The binary exponent of a non-zero number `x`: the integer `e` with
`2 ^ e ≤ |x| < 2 ^ (e + 1)`, found from the lengths of the numerator and the denominator. -/
def binaryExponent (x : ℚ) : ℤ :=
  if pow2 ((bitLength x.num.natAbs x.num.natAbs : ℤ) - (bitLength x.den x.den : ℤ)) ≤ |x| then
    (bitLength x.num.natAbs x.num.natAbs : ℤ) - (bitLength x.den x.den : ℤ)
  else (bitLength x.num.natAbs x.num.natAbs : ℤ) - (bitLength x.den x.den : ℤ) - 1

/-- Rounding to the nearest integer, a tie going to the even one. -/
def roundHalfEven (q : ℚ) : ℤ :=
  if q - ⌊q⌋ < 1 / 2 then ⌊q⌋
  else if 1 / 2 < q - ⌊q⌋ then ⌊q⌋ + 1
  else if ⌊q⌋ % 2 = 0 then ⌊q⌋ else ⌊q⌋ + 1

/-- Rounding of the exact result of an arithmetic operation to a double: the nearest
number with a 53 bit significand, a tie going to the even significand (the default rounding
of JavaScript numbers).  The exponent range is not bounded: the value is the one JavaScript
computes whenever no overflow and no underflow occurs. -/
def roundDouble (x : ℚ) : ℚ :=
  if x = 0 then 0
  else (roundHalfEven (x / pow2 (binaryExponent x - 52)) : ℚ) * pow2 (binaryExponent x - 52)

/-! ## Hit test with rounded arithmetic -/

/-- The `intersect` flag of the loop of `isPointInPolygon`, the result of each arithmetic
operation being rounded by `rnd`: `roundDouble` for the arithmetic of JavaScript, `id` for
exact arithmetic. -/
def intersectR (rnd : ℚ → ℚ) (point vi vj : Vertex) : Bool :=
  (decide (vi.y > point.y) != decide (vj.y > point.y)) &&
    decide (point.x <
      rnd (rnd (rnd (rnd (vj.x - vi.x) * rnd (point.y - vi.y)) / rnd (vj.y - vi.y)) + vi.x))

/-- One iteration of the loop of `isPointInPolygon` with rounded arithmetic. -/
def isPointInPolygonStepR (rnd : ℚ → ℚ) (point : Vertex) (vertices : List Vertex)
    (st : Nat × Bool) (i : Nat) : Nat × Bool :=
  (i, if intersectR rnd point (vertices.getD i default) (vertices.getD st.1 default)
        then !st.2 else st.2)

/-- The function `isPointInPolygon(point, vertices)` with rounded arithmetic. -/
def isPointInPolygonR (rnd : ℚ → ℚ) (point : Vertex) (vertices : List Vertex) : Bool :=
  ((List.range vertices.length).foldl (isPointInPolygonStepR rnd point vertices)
    (vertices.length - 1, false)).2

/-- The crossing `x` of the edge from `a` to `b` with the horizontal line through `p` as the
loop of `isPointInPolygon` computes it, `b` being the current vertex `vertices[i]` and `a`
the previous one `vertices[j]`. -/
def computedCrossingX (rnd : ℚ → ℚ) (a b p : Vertex) : ℚ :=
  rnd (rnd (rnd (rnd (a.x - b.x) * rnd (p.y - b.y)) / rnd (a.y - b.y)) + b.x)

/-- Number of edges that straddle `p.y` and whose computed crossing `x` is strictly greater
than `p.x`. -/
def computedCrossings (rnd : ℚ → ℚ) (p : Vertex) (vs : List Vertex) : Nat :=
  (polygonEdges vs).countP fun e =>
    straddles e.1 e.2 p.y && decide (p.x < computedCrossingX rnd e.1 e.2 p)

/-- The triangle `(0,0), (7,1), (2,9)`. -/
def slimTriangle : List Vertex := [⟨0, 0⟩, ⟨7, 1⟩, ⟨2, 9⟩]

/-- The point whose coordinates are the doubles nearest to `2.1` and `0.3`; it lies within
rounding error of the edge from `(0,0)` to `(7,1)`. -/
def nearEdgePoint : Vertex := ⟨roundDouble (21 / 10), roundDouble (3 / 10)⟩

/-- The loop of a hit test seen as a walk along the vertex list, for any test `I vi vj` on
the current vertex `vi` and the previous vertex `vj`. -/
def hitWalk (I : Vertex → Vertex → Bool) : Vertex → List Vertex → Bool → Bool
  | _, [], inside => inside
  | prev, v :: vs, inside => hitWalk I v vs (if I v prev then !inside else inside)

/-! ## Scan-line fill with rounded arithmetic -/

/-- Body of the edge-table loop as `edgeTableEntry`, each arithmetic operation of
`(ymax.x - ymin.x) / (ymax.y - ymin.y)` rounded by `rnd`. -/
def edgeTableEntryR (rnd : ℚ → ℚ) (v1 v2 : Vertex) : List Edge :=
  if v1.y ≠ v2.y then
    let ymin := if v1.y < v2.y then v1 else v2
    let ymax := if v1.y > v2.y then v1 else v2
    let slopeInverse := rnd (rnd (ymax.x - ymin.x) / rnd (ymax.y - ymin.y))
    [{ ymin := ymin.y, ymax := ymax.y, x := ymin.x, slopeInverse := slopeInverse }]
  else []

/-- The edge table before sorting, with rounded arithmetic. -/
def buildEdgeTableR (rnd : ℚ → ℚ) (vertices : List Vertex) : List Edge :=
  (List.range vertices.length).flatMap fun i =>
    edgeTableEntryR rnd (vertices.getD i default)
      (vertices.getD ((i + 1) % vertices.length) default)

/-- The update `edge.x += edge.slopeInverse` of every active edge, the sum rounded by
`rnd`. -/
def advanceR (rnd : ℚ → ℚ) (aet : List Edge) : List Edge :=
  aet.map fun edge => { edge with x := rnd (edge.x + edge.slopeInverse) }

/-- The scan loop as `scanLoop`, with the sums of `edge.x += edge.slopeInverse` and of `y++`
rounded by `rnd`.  The comparisons and the two sorts need no arithmetic but the differences
`a.ymin - b.ymin` and `a.x - b.x`, whose sign is not changed by rounding. -/
def scanLoopR (rnd : ℚ → ℚ) (edgeTable : List Edge) (color : String) (y_max : ℚ) :
    Nat → ℚ → List Edge → Run
  | 0, _, _ => Run.done
  | fuel + 1, y, aet =>
    if y ≤ y_max then
      (pairLoop y color (activeAt edgeTable y aet)).seq
        (scanLoopR rnd edgeTable color y_max fuel (rnd (y + 1))
          (advanceR rnd (activeAt edgeTable y aet)))
    else Run.done

/-- The function `fillPolygon(polygon)` with arithmetic rounded by `rnd`.  The loop is given
one row more than `rowCount`, since a rounded `y + 1` can fall short of the exact sum. -/
def fillPolygonR (rnd : ℚ → ℚ) (polygon : Polygon) : Run :=
  match polygon.vertices.map (fun v => v.y) with
  | [] => Run.done
  | y0 :: ys =>
    let y_min := ys.foldl min y0
    let y_max := ys.foldl max y0
    scanLoopR rnd (sortByYmin (buildEdgeTableR rnd polygon.vertices)) polygon.fillColor y_max
      (rowCount y_min y_max + 1) y_min []

/-- A span whose ends are within one pixel, the bound included, of the leftmost and the
rightmost boundary point of the polygon on its row. -/
def SpanWithinOneClosed (vs : List Vertex) (y : ℚ) (startX endX : ℤ) : Prop :=
  ∃ L R : ℚ, IsLeast (boundaryRow vs y) L ∧ IsGreatest (boundaryRow vs y) R ∧
    L - 1 ≤ startX ∧ (startX : ℚ) ≤ L ∧ R - 1 ≤ endX ∧ (endX : ℚ) ≤ R

/-- Vertices at pixel positions: integer coordinates of magnitude at most `32768`. -/
def PixelVertices (vs : List Vertex) : Prop :=
  ∀ v ∈ vs, (⌊v.x⌋ : ℚ) = v.x ∧ (⌊v.y⌋ : ℚ) = v.y ∧ |v.x| ≤ 32768 ∧ |v.y| ≤ 32768

instance (vs : List Vertex) : Decidable (PixelVertices vs) := by
  unfold PixelVertices
  infer_instance

/-- The triangle with the vertices `(11.9, 0)`, `(8.9, 9)`, `(8.9, 10)`, the `x` being the
doubles nearest to these decimals (clicks at the pixels `12, 9, 9` on a canvas whose left
border is at `0.1`). -/
def offsetTriangle : Polygon :=
  { vertices := [⟨roundDouble (119 / 10), 0⟩, ⟨roundDouble (89 / 10), 9⟩,
      ⟨roundDouble (89 / 10), 10⟩]
    fillColor := "#00ff00"
    edgeColor := "#000000" }

/-- The triangle `(0,0), (2,20), (10,10)`. -/
def tallTriangle : Polygon :=
  { vertices := [⟨0, 0⟩, ⟨2, 20⟩, ⟨10, 10⟩], fillColor := "#00ff00", edgeColor := "#000000" }

/-- Relation between an entry `r` of the edge table built with rounded arithmetic and the
entry `a` the exact arithmetic gives for the same edge: only the slope is rounded. -/
def ShadowEntry (rnd : ℚ → ℚ) (r a : Edge) : Prop :=
  r.ymin = a.ymin ∧ r.ymax = a.ymax ∧ r.x = a.x ∧ r.slopeInverse = rnd a.slopeInverse

/-- Relation at row `y` between an active edge `r` of the run with rounded arithmetic and
the same edge `a` in exact arithmetic: each of the `y - ymin` additions made so far has moved
`x` away from the exact value by at most `2 ^ (-35)`. -/
def Shadow (rnd : ℚ → ℚ) (y : ℚ) (r a : Edge) : Prop :=
  r.ymin = a.ymin ∧ r.ymax = a.ymax ∧ r.slopeInverse = rnd a.slopeInverse ∧
    |r.x - a.x| ≤ (y - a.ymin) / 2 ^ 35

/-- Three points of the line `y = 6 * x` with integer coordinates. -/
def steepLine : Polygon := ⟨[⟨0, 0⟩, ⟨1, 6⟩, ⟨2, 12⟩], "#00ff00", "#000000"⟩

/-- Two edge table entries for the same rows. -/
def SameRows (r a : Edge) : Prop := r.ymin = a.ymin ∧ r.ymax = a.ymax

/-- A point or vertex at a pixel position: integer coordinates of magnitude at most
`32768`. -/
def PixelVertex (v : Vertex) : Prop :=
  (⌊v.x⌋ : ℚ) = v.x ∧ (⌊v.y⌋ : ℚ) = v.y ∧ |v.x| ≤ 32768 ∧ |v.y| ≤ 32768

instance (v : Vertex) : Decidable (PixelVertex v) := by
  unfold PixelVertex
  infer_instance

/-! # Theorems -/

/-! ## Hit test: `getPolygonUnderMouse` -/

theorem getPolygonUnderMouseFrom_eq_neg_one (x y : ℚ) (ps : List Polygon) (i : Nat) :
    getPolygonUnderMouseFrom x y ps i = -1 ↔
      ∀ p ∈ ps, isPointInPolygon ⟨x, y⟩ p.vertices = false := by
  induction ps generalizing i with
  | nil => simp [getPolygonUnderMouseFrom]
  | cons p ps ih =>
    by_cases h : isPointInPolygon ⟨x, y⟩ p.vertices = true
    · simp only [getPolygonUnderMouseFrom, h, if_true, List.mem_cons, forall_eq_or_imp]
      constructor
      · intro hi; omega
      · intro hc; simp at hc
    · simp only [Bool.not_eq_true] at h
      simp [getPolygonUnderMouseFrom, h, ih]

theorem getPolygonUnderMouseFrom_eq_index (x y : ℚ) (ps : List Polygon) (i k : Nat) :
    getPolygonUnderMouseFrom x y ps i = ((i + k : Nat) : Int) ↔
      (∃ p, ps.get? k = some p ∧ isPointInPolygon ⟨x, y⟩ p.vertices = true) ∧
        ∀ j < k, ∀ q, ps.get? j = some q → isPointInPolygon ⟨x, y⟩ q.vertices = false := by
  induction ps generalizing i k with
  | nil =>
    simp only [getPolygonUnderMouseFrom, List.get?_nil]
    constructor
    · intro h; omega
    · rintro ⟨⟨p, hp, -⟩, -⟩; simp at hp
  | cons p ps ih =>
    by_cases h : isPointInPolygon ⟨x, y⟩ p.vertices = true
    · simp only [getPolygonUnderMouseFrom, h, if_true]
      cases k with
      | zero => simp [h]
      | succ k =>
        constructor
        · intro hi; omega
        · rintro ⟨-, hlow⟩
          have := hlow 0 (Nat.succ_pos k) p (by simp)
          simp [h] at this
    · simp only [Bool.not_eq_true] at h
      simp only [getPolygonUnderMouseFrom, h, Bool.false_eq_true, if_false]
      cases k with
      | zero =>
        simp only [Nat.add_zero, List.get?_cons_zero, Option.some.injEq, exists_eq_left', h]
        constructor
        · intro hi
          exfalso
          have key : ∀ (qs : List Polygon) (m : Nat),
              (i : Int) < m → getPolygonUnderMouseFrom x y qs m ≠ (i : Int) := by
            intro qs
            induction qs with
            | nil => intro m _; simp [getPolygonUnderMouseFrom]
            | cons q qs ihq =>
              intro m hm
              simp only [getPolygonUnderMouseFrom]
              split
              · omega
              · exact ihq (m + 1) (by push_cast; omega)
          exact key ps (i + 1) (by push_cast; omega) hi
        · rintro ⟨hc, -⟩; simp at hc
      | succ k =>
        have e : ((i + (k + 1) : Nat) : Int) = ((i + 1 + k : Nat) : Int) := by push_cast; ring
        rw [e, ih (i + 1) k]
        constructor
        · rintro ⟨hex, hlow⟩
          refine ⟨by simpa using hex, ?_⟩
          intro j hj q hq
          cases j with
          | zero => simp at hq; subst hq; exact h
          | succ j => exact hlow j (by omega) q (by simpa using hq)
        · rintro ⟨hex, hlow⟩
          refine ⟨by simpa using hex, ?_⟩
          intro j hj q hq
          exact hlow (j + 1) (by omega) q (by simpa using hq)

/-- C1: `getPolygonUnderMouse(x, y)` returns the index `i` exactly when polygon `i` is the
first (lowest-index) committed polygon containing the point, returns `-1` exactly when no
committed polygon contains the point, and returns `-1` on the empty sequence. -/
theorem getPolygonUnderMouse_lowest_index (polygons : List Polygon) (x y : ℚ) :
    (∀ i : Nat, getPolygonUnderMouse polygons x y = (i : Int) ↔
      (∃ p, polygons.get? i = some p ∧ isPointInPolygon ⟨x, y⟩ p.vertices = true) ∧
        ∀ j < i, ∀ q, polygons.get? j = some q →
          isPointInPolygon ⟨x, y⟩ q.vertices = false) ∧
    (getPolygonUnderMouse polygons x y = -1 ↔
      ∀ p ∈ polygons, isPointInPolygon ⟨x, y⟩ p.vertices = false) ∧
    getPolygonUnderMouse [] x y = -1 := by
  refine ⟨fun i => ?_, getPolygonUnderMouseFrom_eq_neg_one x y polygons 0, rfl⟩
  have := getPolygonUnderMouseFrom_eq_index x y polygons 0 i
  simpa [getPolygonUnderMouse] using this

/-! ## Hit test: `isPointInPolygon` -/

theorem intersect_eq_crossing (p a b : Vertex) :
    intersect p b a = (straddles a b p.y && decide (p.x < crossingX a b p.y)) := by
  unfold intersect straddles crossingX
  by_cases ha : a.y > p.y <;> by_cases hb : b.y > p.y <;> simp [ha, hb]
  · have hne : a.y - b.y ≠ 0 := by
      intro h; simp only [not_lt] at hb; linarith
    have hne2 : b.y - a.y ≠ 0 := fun h => hne (by linarith)
    have e : (a.x - b.x) * (p.y - b.y) / (a.y - b.y) + b.x
        = a.x + (p.y - a.y) * (b.x - a.x) / (b.y - a.y) := by
      field_simp; ring
    rw [e]
  · have hne : a.y - b.y ≠ 0 := by
      intro h; simp only [not_lt] at ha; linarith
    have hne2 : b.y - a.y ≠ 0 := fun h => hne (by linarith)
    have e : (a.x - b.x) * (p.y - b.y) / (a.y - b.y) + b.x
        = a.x + (p.y - a.y) * (b.x - a.x) / (b.y - a.y) := by
      field_simp; ring
    rw [e]

theorem foldl_step_eq_rayWalk (p : Vertex) (vs : List Vertex) :
    ∀ (suf pre : List Vertex) (j : Nat) (inside : Bool), vs = pre ++ suf →
      ((List.range' pre.length suf.length).foldl (isPointInPolygonStep p vs) (j, inside)).2
        = rayWalk p (vs.getD j default) suf inside := by
  intro suf
  induction suf with
  | nil => intro pre j inside _; simp [rayWalk]
  | cons v suf ih =>
    intro pre j inside h
    have hv : vs.getD pre.length default = v := by
      subst h
      rw [List.getD_append_right _ _ _ _ (le_refl _)]
      simp
    have h2 : vs = (pre ++ [v]) ++ suf := by simp [h]
    have := ih (pre ++ [v]) pre.length
      (if intersect p v (vs.getD j default) then !inside else inside) h2
    simp only [List.length_append, List.length_singleton] at this
    simp only [List.length_cons, List.range'_succ, List.foldl_cons, rayWalk]
    rw [← hv] at this ⊢
    simpa [isPointInPolygonStep] using this

theorem rayWalk_parity (p : Vertex) (vs : List Vertex) (prev : Vertex) (inside : Bool) :
    rayWalk p prev vs inside =
      xor inside (decide (((prev :: vs).zip vs).countP
        (fun e => straddles e.1 e.2 p.y && decide (p.x < crossingX e.1 e.2 p.y)) % 2 = 1)) := by
  induction vs generalizing prev inside with
  | nil => simp [rayWalk]
  | cons v vs ih =>
    rw [rayWalk, ih, List.zip_cons_cons, List.countP_cons, intersect_eq_crossing]
    simp only []
    by_cases hc : (straddles prev v p.y && decide (p.x < crossingX prev v p.y)) = true
    · simp only [hc, if_true]
      have key : ∀ n : Nat, decide ((n + 1) % 2 = 1) = !decide (n % 2 = 1) := by
        intro n
        rcases Nat.mod_two_eq_zero_or_one n with h0 | h1
        · have : (n + 1) % 2 = 1 := by omega
          simp [h0, this]
        · have : (n + 1) % 2 = 0 := by omega
          simp [h1, this]
      rw [key]
      cases inside <;> simp
    · simp only [Bool.not_eq_true] at hc
      simp [hc]

theorem zip_snoc_of_length (l t : List Vertex) (x d : Vertex) (h : l.length = t.length + 1) :
    l.zip (t ++ [x]) = l.zip t ++ [(l.getD t.length d, x)] := by
  induction t generalizing l with
  | nil =>
    match l, h with
    | [a], _ => simp
  | cons b t ih =>
    match l, h with
    | a :: l, h =>
      simp only [List.length_cons, add_left_inj] at h
      simp [ih l h]

theorem isPointInPolygon_eq_odd (p : Vertex) (vs : List Vertex) :
    isPointInPolygon p vs = decide (rayCrossings p vs % 2 = 1) := by
  cases vs with
  | nil => simp [isPointInPolygon, rayCrossings, polygonEdges]
  | cons v t =>
    have h := foldl_step_eq_rayWalk p (v :: t) (v :: t) [] (t.length) false (by simp)
    simp only [List.length_nil] at h
    unfold isPointInPolygon
    rw [List.range_eq_range']
    simp only [List.length_cons, Nat.add_sub_cancel]
    simp only [List.length_cons] at h
    rw [h, rayWalk_parity]
    simp only [Bool.false_xor, rayCrossings, polygonEdges]
    have hrot : (v :: t).rotate 1 = t ++ [v] := by simp [List.rotate_cons_succ]
    congr 2
    rw [hrot, zip_snoc_of_length (v :: t) t v default (by simp)]
    rw [List.zip_cons_cons, List.countP_cons, List.countP_append]
    simp only [List.countP_cons, List.countP_nil, zero_add]

/-- In exact arithmetic `isPointInPolygon(p, vertices)` is true exactly when the number of
polygon edges (consecutive vertex pairs, wrap-around edge included) that straddle `p.y` and
cross the horizontal line through `p` at an `x` strictly greater than `p.x` is odd; it is
false for the empty vertex list. -/
theorem isPointInPolygon_iff_odd_crossings (p : Vertex) (vertices : List Vertex) :
    (isPointInPolygon p vertices = true ↔ Odd (rayCrossings p vertices)) ∧
      isPointInPolygon p [] = false := by
  refine ⟨?_, rfl⟩
  rw [isPointInPolygon_eq_odd, Nat.odd_iff]
  simp

/-! ## Scan-line fill of an axis-aligned rectangle -/

theorem Run.seq_emit_cmds (cs : List Cmd) (r : Run) :
    (Run.emit cs).seq r = ⟨cs ++ r.cmds, r.ok⟩ := by
  simp [Run.seq, Run.emit]

theorem Run.done_seq (r : Run) : Run.done.seq r = r := by
  simp [Run.seq, Run.done]

theorem scanLoop_of_gt (edgeTable : List Edge) (color : String) (y_max : ℚ) (fuel : Nat)
    (y : ℚ) (aet : List Edge) (h : y_max < y) :
    scanLoop edgeTable color y_max fuel y aet = Run.done := by
  cases fuel with
  | zero => rfl
  | succ n => simp [scanLoop, not_le.mpr h]

theorem spans_shift (y : ℚ) (x0 x1 : ℤ) (color : String) (m : Nat) :
    spanCmds y x0 x1 color ++ (List.range m).flatMap (fun k => spanCmds (y + 1 + k) x0 x1 color)
      = (List.range (m + 1)).flatMap (fun k => spanCmds (y + k) x0 x1 color) := by
  rw [List.range_succ_eq_map, List.flatMap_cons]
  simp only [List.flatMap_map, Nat.cast_zero, add_zero]
  congr 1
  congr 1
  funext k
  simp only [Function.comp, Nat.cast_succ]
  congr 1
  ring

theorem scanLoop_rect_rows (x0 x1 y0 y1 : ℤ) (color : String) (hx : x0 < x1) :
    ∀ (m extra : Nat) (y : ℚ), y = (y1 : ℚ) - m → (y0 : ℚ) < y →
      scanLoop [⟨y0, y1, x1, 0⟩, ⟨y0, y1, x0, 0⟩] color y1 (m + 1 + extra) y
          [⟨y0, y1, x0, 0⟩, ⟨y0, y1, x1, 0⟩]
        = ⟨(List.range m).flatMap (fun k => spanCmds (y + k) x0 x1 color), true⟩ := by
  intro m
  induction m with
  | zero =>
    intro extra y hy hy0
    simp only [Nat.cast_zero, sub_zero] at hy
    subst hy
    have hne : ¬ ((y0 : ℚ) = y1) := ne_of_lt hy0
    rw [show 0 + 1 + extra = extra + 1 by omega, scanLoop]
    simp [activeAt, sortByX, pairLoop, Run.done_seq, hne, scanLoop_of_gt]
    rfl
  | succ m ih =>
    intro extra y hy hy0
    have hlt : y < y1 := by
      rw [hy]; push_cast
      have : (0 : ℚ) ≤ m := Nat.cast_nonneg m
      linarith
    have hne : ¬ ((y0 : ℚ) = y) := ne_of_lt hy0
    have hxq : ¬ ((x1 : ℚ) ≤ x0) := by
      rw [not_le]; exact_mod_cast hx
    have hxq2 : (x0 : ℚ) ≤ x1 := by exact_mod_cast le_of_lt hx
    have hact : activeAt [⟨y0, y1, x1, 0⟩, ⟨y0, y1, x0, 0⟩] y
        [⟨y0, y1, x0, 0⟩, ⟨y0, y1, x1, 0⟩] = [⟨y0, y1, x0, 0⟩, ⟨y0, y1, x1, 0⟩] := by
      simp [activeAt, sortByX, hlt, hne, hxq2]
    have hadv : advance [(⟨y0, y1, x0, 0⟩ : Edge), ⟨y0, y1, x1, 0⟩]
        = [⟨y0, y1, x0, 0⟩, ⟨y0, y1, x1, 0⟩] := by
      simp [advance]
    rw [show m + 1 + 1 + extra = (m + 1 + extra) + 1 by omega, scanLoop]
    rw [if_pos (le_of_lt hlt), hact, hadv, pairLoop, pairLoop, Run.seq_emit_cmds]
    rw [ih extra (y + 1) (by rw [hy]; push_cast; ring) (by linarith)]
    simp only [Run.seq, Run.emit, Run.done, if_true, List.append_nil, Int.floor_intCast,
      Run.mk.injEq, and_true]
    exact spans_shift y x0 x1 color m

theorem rowCount_int (y0 y1 : ℤ) (h : y0 ≤ y1) :
    rowCount y0 y1 = (y1 - y0).toNat + 1 := by
  unfold rowCount
  have : ⌊(y1 : ℚ) - y0⌋ = y1 - y0 := by
    rw [← Int.cast_sub, Int.floor_intCast]
  rw [this]
  omega

/-- C4: for an axis-aligned rectangle with integer corners `(x0,y0), (x1,y0), (x1,y1),
(x0,y1)`, `x0 < x1` and `y0 < y1`, `fillPolygon` completes and draws exactly one span per
row `y0 + k` with `0 ≤ k < y1 - y0`, from `x0` to `x1`, in the fill colour, in row order,
and nothing else. -/
theorem fillPolygon_rectangle (x0 x1 y0 y1 : ℤ) (fillColor edgeColor : String)
    (hx : x0 < x1) (hy : y0 < y1) :
    fillPolygon ⟨[⟨x0, y0⟩, ⟨x1, y0⟩, ⟨x1, y1⟩, ⟨x0, y1⟩], fillColor, edgeColor⟩
      = ⟨(List.range (y1 - y0).toNat).flatMap
          (fun k => spanCmds ((y0 : ℚ) + k) x0 x1 fillColor), true⟩ := by
  have hyq : (y0 : ℚ) < y1 := by exact_mod_cast hy
  have hxq : ¬ ((x1 : ℚ) ≤ x0) := by rw [not_le]; exact_mod_cast hx
  have hne : ¬ ((y0 : ℚ) = y1) := ne_of_lt hyq
  have hne2 : ¬ ((y1 : ℚ) = y0) := fun h => hne h.symm
  have hET : sortByYmin (buildEdgeTable [⟨x0, y0⟩, ⟨x1, y0⟩, ⟨x1, y1⟩, ⟨x0, y1⟩])
      = [⟨y0, y1, x1, 0⟩, ⟨y0, y1, x0, 0⟩] := by
    simp [sortByYmin, buildEdgeTable, edgeTableEntry, List.range_succ, hne, hne2, hyq,
      not_lt.mpr (le_of_lt hyq)]
  have hmin : min (min (min (y0 : ℚ) y0) y1) y1 = y0 := by
    simp [le_of_lt hyq]
  have hmax : max (max (max (y0 : ℚ) y0) y1) y1 = y1 := by
    simp [le_of_lt hyq]
  obtain ⟨n, hn⟩ : ∃ n : Nat, (y1 - y0).toNat = n + 1 := ⟨(y1 - y0).toNat - 1, by omega⟩
  have hy1 : (y1 : ℚ) = y0 + (n + 1) := by
    have : y1 = y0 + ((n + 1 : Nat) : ℤ) := by omega
    rw [this]; push_cast; ring
  unfold fillPolygon
  simp only [List.map_cons, List.map_nil, List.foldl_cons, List.foldl_nil, hmin, hmax, hET]
  rw [rowCount_int y0 y1 (le_of_lt hy), hn, scanLoop, if_pos (le_of_lt hyq)]
  have hact : activeAt [⟨y0, y1, x1, 0⟩, ⟨y0, y1, x0, 0⟩] y0 []
      = [⟨y0, y1, x0, 0⟩, ⟨y0, y1, x1, 0⟩] := by
    simp [activeAt, sortByX, hxq]
  have hadv : advance [(⟨y0, y1, x0, 0⟩ : Edge), ⟨y0, y1, x1, 0⟩]
      = [⟨y0, y1, x0, 0⟩, ⟨y0, y1, x1, 0⟩] := by
    simp [advance]
  rw [hact, hadv, pairLoop, pairLoop, Run.seq_emit_cmds]
  rw [show n + 1 = n + 1 + 0 by rfl,
    scanLoop_rect_rows x0 x1 y0 y1 fillColor hx n 0 ((y0 : ℚ) + 1) (by rw [hy1]; ring)
      (by linarith)]
  simp only [Run.seq, Run.emit, Run.done, if_true, List.append_nil, Int.floor_intCast,
    Run.mk.injEq, and_true]
  exact spans_shift y0 x0 x1 fillColor n

/-- Witness for C4 on the square `(0,0), (10,0), (10,10), (0,10)`: one span from 0 to 10 on
each of the rows 0, ..., 9. -/
theorem fillPolygon_rectangle_witness :
    (0 : ℤ) < 10 ∧
      fillPolygon ⟨[⟨(0 : ℤ), (0 : ℤ)⟩, ⟨(10 : ℤ), (0 : ℤ)⟩, ⟨(10 : ℤ), (10 : ℤ)⟩,
          ⟨(0 : ℤ), (10 : ℤ)⟩], "#00ff00", "#000000"⟩
        = ⟨(List.range ((10 : ℤ) - 0).toNat).flatMap
            (fun k => spanCmds (((0 : ℤ) : ℚ) + k) 0 10 "#00ff00"), true⟩ :=
  ⟨by decide, fillPolygon_rectangle 0 10 0 10 "#00ff00" "#000000" (by decide) (by decide)⟩

/-! ## Redraw -/

theorem drawAllPolygons_of_ok (toggleEdges : Bool) (ps : List Polygon)
    (h : ∀ p ∈ ps, (fillPolygon p).ok = true) :
    drawAllPolygons toggleEdges ps =
      ⟨ps.flatMap (fun p => (fillPolygon p).cmds ++
        (if toggleEdges then drawPolygonOutline p.vertices p.edgeColor else [])), true⟩ := by
  induction ps with
  | nil => rfl
  | cons p ps ih =>
    have hp := h p (List.mem_cons_self _ _)
    have ih2 := ih (fun q hq => h q (List.mem_cons_of_mem _ hq))
    simp [drawAllPolygons, ih2, Run.seq, Run.emit, hp]

theorem polygonAt_natCast (ps : List Polygon) (i : Nat) : polygonAt ps (i : Int) = ps[i]? := by
  simp [polygonAt]

theorem redrawCanvas_empty (fresh : Polygon) (hv : fresh.vertices = []) (cp ep : String)
    (t : Bool) (n : Nat) :
    redrawCanvas ⟨[], fresh, -1, cp, ep, t, n⟩ = ⟨[Cmd.clearRect], true⟩ := by
  simp [redrawCanvas, drawAllPolygons, Run.seq, Run.emit, Run.done, hv]

/-- C9: from every state, `clearCanvas` leaves the committed sequence empty, the current
polygon without vertices and nothing selected, and a redraw in the resulting state, with
outlines visible or not, issues the clear command and nothing else. -/
theorem clearCanvas_then_redraw (s : State) (outline : Bool) :
    (clearCanvas s).1.polygons = [] ∧
      (clearCanvas s).1.currentPolygon.vertices = [] ∧
      (clearCanvas s).1.selectedPolygonIndex = -1 ∧
      redrawCanvas { (clearCanvas s).1 with toggleEdges := outline } = ⟨[Cmd.clearRect], true⟩ := by
  refine ⟨rfl, rfl, rfl, ?_⟩
  exact redrawCanvas_empty (freshPolygon s) rfl _ _ _ _

/-- C10 as stated fails: with no committed polygon, nothing selected, outlines visible and the
in-progress triangle `(0,0), (4,0), (0,4)`, the redraw issues the clear and the outline of
the triangle only; the fill spans of the in-progress polygon that the specified sequence
contains are not issued. -/
theorem redrawCanvas_no_fill_of_current :
    (redrawCanvas ⟨[], ⟨[⟨0, 0⟩, ⟨4, 0⟩, ⟨0, 4⟩], "#00ff00", "#000000"⟩, -1,
        "#00ff00", "#000000", true, 0⟩).cmds
      = [Cmd.clearRect] ++ drawPolygonOutline [⟨0, 0⟩, ⟨4, 0⟩, ⟨0, 4⟩] "#000000" ∧
    (redrawCanvas ⟨[], ⟨[⟨0, 0⟩, ⟨4, 0⟩, ⟨0, 4⟩], "#00ff00", "#000000"⟩, -1,
        "#00ff00", "#000000", true, 0⟩).cmds
      ≠ redrawAsSpecified ⟨[], ⟨[⟨0, 0⟩, ⟨4, 0⟩, ⟨0, 4⟩], "#00ff00", "#000000"⟩, -1,
        "#00ff00", "#000000", true, 0⟩ := by
  constructor
  · decide!
  · decide!

/-- C10 (amended): when the fill of every committed polygon completes and the selection is
either `-1` or the index of a committed polygon that has a first vertex, `redrawCanvas`
completes and issues, in this order: one clear; for each committed polygon in sequence order
its fill spans followed, exactly when outlines are visible, by its outline; exactly when
outlines are visible and the in-progress polygon has at least 2 vertices, the outline of the
in-progress polygon (never its fill); exactly when a polygon is selected, the highlighted
outline of the selected polygon. -/
theorem redrawCanvas_sequence (s : State)
    (hfill : ∀ p ∈ s.polygons, (fillPolygon p).ok = true)
    (hsel : s.selectedPolygonIndex = -1 ∨
      ∃ p v0 rest, polygonAt s.polygons s.selectedPolygonIndex = some p ∧
        p.vertices = v0 :: rest) :
    redrawCanvas s =
      ⟨[Cmd.clearRect] ++
        s.polygons.flatMap (fun p => (fillPolygon p).cmds ++
          (if s.toggleEdges then drawPolygonOutline p.vertices p.edgeColor else [])) ++
        (if s.toggleEdges = true ∧ s.currentPolygon.vertices.length ≥ 2 then
          drawPolygonOutline s.currentPolygon.vertices s.currentPolygon.edgeColor else []) ++
        (if s.selectedPolygonIndex = -1 then []
         else match polygonAt s.polygons s.selectedPolygonIndex with
          | some ⟨v0 :: rest, _, _⟩ => highlightCmds v0 rest
          | _ => []), true⟩ := by
  have hcur : (if s.currentPolygon.vertices.length > 1 then
        if s.toggleEdges then
          drawPolygonOutline s.currentPolygon.vertices s.currentPolygon.edgeColor
        else []
      else [])
      = (if s.toggleEdges = true ∧ s.currentPolygon.vertices.length ≥ 2 then
          drawPolygonOutline s.currentPolygon.vertices s.currentPolygon.edgeColor else []) := by
    by_cases h2 : s.toggleEdges = true
    · by_cases h1 : s.currentPolygon.vertices.length > 1
      · rw [if_pos h1, if_pos h2, if_pos ⟨h2, h1⟩]
      · rw [if_neg h1, if_neg (fun h => h1 h.2)]
    · by_cases h1 : s.currentPolygon.vertices.length > 1
      · rw [if_pos h1, if_neg h2, if_neg (fun h => h2 h.1)]
      · rw [if_neg h1, if_neg (fun h => h1 h.2)]
  unfold redrawCanvas
  rw [drawAllPolygons_of_ok _ _ hfill, hcur]
  rcases hsel with h | ⟨p, v0, rest, hp, hv⟩
  · simp [h, Run.seq, Run.emit, Run.done]
  · have hne : s.selectedPolygonIndex ≠ -1 := by
      intro h
      rw [h] at hp
      simp [polygonAt] at hp
    obtain ⟨vs, fc, ec⟩ := p
    simp only at hv
    subst hv
    simp [hne, hp, Run.seq, Run.emit, highlightPolygon, highlightCmds]

/-- Witness for the amended C10: one committed square that is selected, outlines visible and
an in-progress polygon with two vertices. -/
theorem redrawCanvas_sequence_witness :
    redrawCanvas selectedSquareState
      = ⟨[Cmd.clearRect] ++
          (spanCmds 0 0 2 "#00ff00" ++ spanCmds 1 0 2 "#00ff00" ++
            [Cmd.beginPath, Cmd.moveTo 0 0, Cmd.lineTo 2 0, Cmd.lineTo 2 2, Cmd.lineTo 0 2,
              Cmd.strokeStyle "#000000", Cmd.stroke]) ++
          [Cmd.beginPath, Cmd.moveTo 5 5, Cmd.lineTo 7 7, Cmd.strokeStyle "#111111",
            Cmd.stroke] ++
          [Cmd.beginPath, Cmd.moveTo 0 0, Cmd.lineTo 2 0, Cmd.lineTo 2 2, Cmd.lineTo 0 2,
            Cmd.closePath, Cmd.lineWidth 3, Cmd.strokeStyle "#FF0000", Cmd.stroke,
            Cmd.lineWidth 1], true⟩ := by
  have h := redrawCanvas_sequence selectedSquareState (by decide!)
    (Or.inr ⟨⟨[⟨0, 0⟩, ⟨2, 0⟩, ⟨2, 2⟩, ⟨0, 2⟩], "#00ff00", "#000000"⟩, ⟨0, 0⟩,
      [⟨2, 0⟩, ⟨2, 2⟩, ⟨0, 2⟩], by decide!, rfl⟩)
  rw [h]
  decide!

/-! ## Event handlers -/

/-- When the in-progress polygon has more than 2 vertices and its fill completes,
`finishPolygon` appends a copy of it to the committed sequence and replaces it by a polygon
without vertices whose colours are the picker values. -/
theorem finishPolygon_commit (s : State) (h : s.currentPolygon.vertices.length > 2)
    (hok : (fillPolygon s.currentPolygon).ok = true) :
    (finishPolygon s).1.polygons = s.polygons ++ [s.currentPolygon] ∧
      (finishPolygon s).1.currentPolygon = ⟨[], s.colorPicker, s.edgeColorPicker⟩ := by
  simp [finishPolygon, h, hok, Run.seq, Run.emit, freshPolygon]

/-- When the in-progress polygon has 2 vertices or fewer, `finishPolygon` leaves the
state unchanged. -/
theorem finishPolygon_noop (s : State) (h : s.currentPolygon.vertices.length ≤ 2) :
    (finishPolygon s).1 = s := by
  simp [finishPolygon, not_lt.mpr h]

/-- C6 at a failing input: after clicks at `(0,0)`, `(10,0.5)` and `(5,5)` the in-progress
polygon has 3 vertices; `finishPolygon` pushes the copy, then `fillPolygon` throws and the
in-progress polygon is not reset: it still has its 3 vertices. -/
theorem finishPolygon_throw_keeps_current :
    threeClicksState.polygons = [] ∧
      threeClicksState.currentPolygon = ⟨oddTriangle, "#00ff00", "#000000"⟩ ∧
      (fillPolygon threeClicksState.currentPolygon).ok = false ∧
      (finishPolygon threeClicksState).2.ok = false ∧
      (finishPolygon threeClicksState).1.polygons = [⟨oddTriangle, "#00ff00", "#000000"⟩] ∧
      (finishPolygon threeClicksState).1.currentPolygon
        = ⟨oddTriangle, "#00ff00", "#000000"⟩ := by
  decide!

theorem getPolygonUnderMouse_range (ps : List Polygon) (x y : ℚ) :
    getPolygonUnderMouse ps x y = -1 ∨
      ∃ i : Nat, getPolygonUnderMouse ps x y = (i : Int) ∧ i < ps.length := by
  have key : ∀ (qs : List Polygon) (m : Nat), getPolygonUnderMouseFrom x y qs m = -1 ∨
      ∃ i : Nat, getPolygonUnderMouseFrom x y qs m = ((m + i : Nat) : Int) ∧ i < qs.length := by
    intro qs
    induction qs with
    | nil => intro m; left; rfl
    | cons q qs ih =>
      intro m
      simp only [getPolygonUnderMouseFrom]
      split
      · right; exact ⟨0, by simp, by simp⟩
      · rcases ih (m + 1) with h | ⟨i, hi, hlt⟩
        · left; exact h
        · right
          refine ⟨i + 1, ?_, by simpa using hlt⟩
          rw [hi]; push_cast; ring
  rcases key ps 0 with h | ⟨i, hi, hlt⟩
  · left; exact h
  · right; exact ⟨i, by simpa [getPolygonUnderMouse] using hi, hlt⟩

/-- A click inside some committed polygon: the selection becomes the hit-test index, the two
pickers take the colours of that polygon, and the in-progress polygon and the committed
sequence are unchanged. -/
theorem handleClick_inside (s : State) (x y : ℚ)
    (h : getPolygonUnderMouse s.polygons x y ≠ -1) :
    ∃ (i : Nat) (p : Polygon), getPolygonUnderMouse s.polygons x y = (i : Int) ∧
      s.polygons[i]? = some p ∧
      (handleClick s x y).1 =
        { s with selectedPolygonIndex := (i : Int), colorPicker := p.fillColor,
                 edgeColorPicker := p.edgeColor } := by
  rcases getPolygonUnderMouse_range s.polygons x y with h1 | ⟨i, hi, hlt⟩
  · exact absurd h1 h
  · refine ⟨i, s.polygons[i], hi, by simp [hlt], ?_⟩
    have hp : polygonAt s.polygons (i : Int) = some s.polygons[i] := by
      rw [polygonAt_natCast]; simp [hlt]
    unfold handleClick
    simp only [hi, hp]
    rw [if_pos (by omega)]

/-- A click outside every committed polygon: the point is appended to the in-progress
polygon; when the redraw made by `addVertex` completes, the selection is cleared. -/
theorem handleClick_outside (s : State) (x y : ℚ)
    (h : getPolygonUnderMouse s.polygons x y = -1) :
    (handleClick s x y).1.currentPolygon.vertices = s.currentPolygon.vertices ++ [⟨x, y⟩] ∧
      ((addVertex s x y).2.ok = true → (handleClick s x y).1.selectedPolygonIndex = -1) := by
  unfold handleClick
  simp only [h, ne_eq, not_true_eq_false, if_false]
  by_cases hok : (addVertex s x y).2.ok = true
  · simp only [addVertex] at hok ⊢
    rw [if_pos hok]
    exact ⟨rfl, fun _ => rfl⟩
  · simp only [addVertex] at hok ⊢
    rw [if_neg hok]
    exact ⟨rfl, fun h => absurd h hok⟩

/-- C8 at a failing input: in the state reached by clicks at `(0,0)`, `(10,0.5)`, `(5,5)`,
the finish button and a click at `(5,2)`, polygon 0 is selected; a click at `(100,100)`
lies outside every committed polygon and is appended to the in-progress polygon, but the
redraw made by `addVertex` throws in `fillPolygon` and the selection is not cleared. -/
theorem handleClick_throw_keeps_selection :
    selectedTriangleState.selectedPolygonIndex = 0 ∧
      (∀ p ∈ selectedTriangleState.polygons,
        isPointInPolygon ⟨100, 100⟩ p.vertices = false) ∧
      (handleClick selectedTriangleState 100 100).1.currentPolygon.vertices
        = oddTriangle ++ [⟨100, 100⟩] ∧
      (handleClick selectedTriangleState 100 100).2.ok = false ∧
      (handleClick selectedTriangleState 100 100).1.selectedPolygonIndex = 0 := by
  decide!

theorem map_modify_of_comm {β : Type} (g : Polygon → β) (f : Polygon → Polygon)
    (hg : ∀ p, g (f p) = g p) (i : Nat) (ps : List Polygon) :
    (ps.modify f i).map g = ps.map g := by
  induction ps generalizing i with
  | nil => cases i <;> rfl
  | cons p ps ih =>
    cases i with
    | zero => simp [hg]
    | succ i => simp [ih]

/-- C7: with committed polygon `i` selected, `updateFillColor(c)` (resp. `updateEdgeColor(c)`)
sets the fill (resp. edge) colour of polygon `i` to `c` and changes nothing else: the
in-progress polygon, the other committed polygons, all vertex lists and the other colour
field are unchanged.  With nothing selected, it sets the fill (resp. edge) colour of the
in-progress polygon to `c`, keeps its vertices and other colour, and leaves the committed
sequence unchanged. -/
theorem updateColor_frame (s : State) (c : String) :
    (∀ i : Nat, s.selectedPolygonIndex = (i : Int) → i < s.polygons.length →
      ((updateFillColor s c).1.currentPolygon = s.currentPolygon ∧
        (∀ j, (updateFillColor s c).1.polygons[j]? =
          (s.polygons[j]?).map (fun p => if j = i then { p with fillColor := c } else p)) ∧
        (updateFillColor s c).1.polygons.map (fun p => p.vertices)
          = s.polygons.map (fun p => p.vertices) ∧
        (updateFillColor s c).1.polygons.map (fun p => p.edgeColor)
          = s.polygons.map (fun p => p.edgeColor)) ∧
      ((updateEdgeColor s c).1.currentPolygon = s.currentPolygon ∧
        (∀ j, (updateEdgeColor s c).1.polygons[j]? =
          (s.polygons[j]?).map (fun p => if j = i then { p with edgeColor := c } else p)) ∧
        (updateEdgeColor s c).1.polygons.map (fun p => p.vertices)
          = s.polygons.map (fun p => p.vertices) ∧
        (updateEdgeColor s c).1.polygons.map (fun p => p.fillColor)
          = s.polygons.map (fun p => p.fillColor))) ∧
    (s.selectedPolygonIndex = -1 →
      ((updateFillColor s c).1.polygons = s.polygons ∧
        (updateFillColor s c).1.currentPolygon = { s.currentPolygon with fillColor := c }) ∧
      ((updateEdgeColor s c).1.polygons = s.polygons ∧
        (updateEdgeColor s c).1.currentPolygon = { s.currentPolygon with edgeColor := c })) := by
  constructor
  · intro i hi hlt
    have hne : s.selectedPolygonIndex ≠ -1 := by omega
    have hp : polygonAt s.polygons s.selectedPolygonIndex = some s.polygons[i] := by
      rw [hi, polygonAt_natCast]; simp [hlt]
    have hnat : s.selectedPolygonIndex.toNat = i := by omega
    constructor
    · have e : (updateFillColor s c).1 =
          { s with polygons := s.polygons.modify (fun p => { p with fillColor := c }) i } := by
        simp only [updateFillColor, if_pos hne, hp, hnat, setFillAt]
      rw [e]
      refine ⟨rfl, ?_, ?_, ?_⟩
      · intro j
        show (s.polygons.modify (fun p => { p with fillColor := c }) i)[j]? = _
        rw [List.getElem?_modify]
        simp only [Option.map_eq_map, eq_comm]
      · show List.map (fun p => p.vertices) (s.polygons.modify _ i) = _
        apply map_modify_of_comm
        intro p
        rfl
      · show List.map (fun p => p.edgeColor) (s.polygons.modify _ i) = _
        apply map_modify_of_comm
        intro p
        rfl
    · have e : (updateEdgeColor s c).1 =
          { s with polygons := s.polygons.modify (fun p => { p with edgeColor := c }) i } := by
        simp only [updateEdgeColor, if_pos hne, hp, hnat, setEdgeAt]
      rw [e]
      refine ⟨rfl, ?_, ?_, ?_⟩
      · intro j
        show (s.polygons.modify (fun p => { p with edgeColor := c }) i)[j]? = _
        rw [List.getElem?_modify]
        simp only [Option.map_eq_map, eq_comm]
      · show List.map (fun p => p.vertices) (s.polygons.modify _ i) = _
        apply map_modify_of_comm
        intro p
        rfl
      · show List.map (fun p => p.fillColor) (s.polygons.modify _ i) = _
        apply map_modify_of_comm
        intro p
        rfl
  · intro h
    simp [updateFillColor, updateEdgeColor, h]

/-- Witness for C7: in `selectedSquareState` polygon 0 is selected; in the freshly loaded
page nothing is selected. -/
theorem updateColor_frame_witness :
    (updateFillColor selectedSquareState "#abcdef").1.currentPolygon
        = selectedSquareState.currentPolygon ∧
      (updateFillColor (initialState "#00ff00" "#000000" true) "#abcdef").1.currentPolygon
        = ⟨[], "#abcdef", "#000000"⟩ :=
  ⟨(((updateColor_frame selectedSquareState "#abcdef").1 0 rfl (by decide)).1).1,
    (((updateColor_frame (initialState "#00ff00" "#000000" true) "#abcdef").2 rfl).1).2⟩

/-! ## Edges of a polygon -/

theorem polygonEdges_map_fst (vs : List Vertex) : (polygonEdges vs).map Prod.fst = vs :=
  List.map_fst_zip _ _ (by simp)

theorem polygonEdges_map_snd (vs : List Vertex) :
    (polygonEdges vs).map Prod.snd = vs.rotate 1 :=
  List.map_snd_zip _ _ (by simp)

theorem polygonEdges_eq_map_range (vs : List Vertex) :
    polygonEdges vs = (List.range vs.length).map fun i =>
      (vs.getD i default, vs.getD ((i + 1) % vs.length) default) := by
  apply List.ext_getElem
  · simp [polygonEdges]
  · intro i h1 h2
    have hi : i < vs.length := by simpa [polygonEdges] using h1
    have hm : (i + 1) % vs.length < vs.length := Nat.mod_lt _ (by omega)
    simp only [polygonEdges, List.getElem_zip, List.getElem_rotate, List.getElem_map,
      List.getElem_range]
    rw [List.getD_eq_getElem _ _ hi, List.getD_eq_getElem _ _ hm]

theorem mem_polygonEdges_iff (vs : List Vertex) (e : Vertex × Vertex) :
    e ∈ polygonEdges vs ↔ ∃ i, i < vs.length ∧
      e = (vs.getD i default, vs.getD ((i + 1) % vs.length) default) := by
  rw [polygonEdges_eq_map_range]
  simp only [List.mem_map, List.mem_range]
  constructor
  · rintro ⟨i, hi, rfl⟩; exact ⟨i, hi, rfl⟩
  · rintro ⟨i, hi, rfl⟩; exact ⟨i, hi, rfl⟩

theorem polygonEdges_mem_left {vs : List Vertex} {e : Vertex × Vertex}
    (h : e ∈ polygonEdges vs) : e.1 ∈ vs := by
  rw [← polygonEdges_map_fst vs]
  exact List.mem_map_of_mem _ h

theorem polygonEdges_mem_right {vs : List Vertex} {e : Vertex × Vertex}
    (h : e ∈ polygonEdges vs) : e.2 ∈ vs := by
  have : e.2 ∈ vs.rotate 1 := by
    rw [← polygonEdges_map_snd vs]
    exact List.mem_map_of_mem _ h
  exact List.mem_rotate.mp this

theorem polygonEdges_fst_inj {vs : List Vertex} (hnd : vs.Nodup) {e f : Vertex × Vertex}
    (he : e ∈ polygonEdges vs) (hf : f ∈ polygonEdges vs) (h : e.1 = f.1) : e = f :=
  List.inj_on_of_nodup_map (by rw [polygonEdges_map_fst]; exact hnd) he hf h

theorem polygonEdges_snd_inj {vs : List Vertex} (hnd : vs.Nodup) {e f : Vertex × Vertex}
    (he : e ∈ polygonEdges vs) (hf : f ∈ polygonEdges vs) (h : e.2 = f.2) : e = f :=
  List.inj_on_of_nodup_map
    (by rw [polygonEdges_map_snd]; exact List.nodup_rotate.mpr hnd) he hf h

theorem polygonEdges_exists_succ {vs : List Vertex} {m : Vertex} (hm : m ∈ vs) :
    ∃ q, (m, q) ∈ polygonEdges vs := by
  rw [← polygonEdges_map_fst vs] at hm
  obtain ⟨e, he, rfl⟩ := List.mem_map.mp hm
  exact ⟨e.2, he⟩

theorem polygonEdges_ne {vs : List Vertex} (hnd : vs.Nodup) (hlen : 2 ≤ vs.length)
    {e : Vertex × Vertex} (he : e ∈ polygonEdges vs) : e.1 ≠ e.2 := by
  obtain ⟨i, hi, rfl⟩ := (mem_polygonEdges_iff vs e).mp he
  have hm : (i + 1) % vs.length < vs.length := Nat.mod_lt _ (by omega)
  simp only [List.getD_eq_getElem _ _ hi, List.getD_eq_getElem _ _ hm]
  intro h
  have := (hnd.getElem_inj_iff).mp h
  rcases Nat.lt_or_ge (i + 1) vs.length with h1 | h1
  · rw [Nat.mod_eq_of_lt h1] at this; omega
  · have h2 : i + 1 = vs.length := by omega
    rw [h2, Nat.mod_self] at this
    omega

/-! ## Convex polygons -/

theorem cross_self_left (a b : Vertex) : cross a b a = 0 := by simp [cross]
theorem cross_self_right (a b : Vertex) : cross a b b = 0 := by simp [cross]; ring

theorem cross_affine (a b u v : Vertex) (t x y : ℚ) (hx : x = u.x + t * (v.x - u.x))
    (hy : y = u.y + t * (v.y - u.y)) :
    cross a b ⟨x, y⟩ = (1 - t) * cross a b u + t * cross a b v := by
  subst hx hy
  simp only [cross]
  ring

theorem cross_row (a b : Vertex) (x1 x2 y : ℚ) :
    cross a b ⟨x1, y⟩ - cross a b ⟨x2, y⟩ = -((b.y - a.y) * (x1 - x2)) := by
  simp only [cross]
  ring

theorem cross_collinear (p q a b c : Vertex) (hpq : p ≠ q) (ha : cross p q a = 0)
    (hb : cross p q b = 0) (hc : cross p q c = 0) : cross a b c = 0 := by
  have h1 : (q.y - p.y) * cross a b c = 0 := by
    have : (q.y - p.y) * cross a b c
        = -(c.y - a.y) * (cross p q b - cross p q a)
          + (b.y - a.y) * (cross p q c - cross p q a) := by
      simp only [cross]; ring
    rw [this, ha, hb, hc]; ring
  have h2 : (q.x - p.x) * cross a b c = 0 := by
    have : (q.x - p.x) * cross a b c
        = -(c.x - a.x) * (cross p q b - cross p q a)
          + (b.x - a.x) * (cross p q c - cross p q a) := by
      simp only [cross]; ring
    rw [this, ha, hb, hc]; ring
  by_contra hne
  have hy : q.y - p.y = 0 := by
    rcases mul_eq_zero.mp h1 with h | h
    · exact h
    · exact absurd h hne
  have hx : q.x - p.x = 0 := by
    rcases mul_eq_zero.mp h2 with h | h
    · exact h
    · exact absurd h hne
  apply hpq
  cases p; cases q
  simp only [Vertex.mk.injEq]
  simp only at hx hy
  constructor <;> linarith

/-- Two points of a non-horizontal line at the same height are equal. -/
theorem eq_of_on_line_same_y (p q u v : Vertex) (hpq : p.y ≠ q.y) (hu : cross p q u = 0)
    (hv : cross p q v = 0) (hy : u.y = v.y) : u = v := by
  have h : (q.y - p.y) * (u.x - v.x) = 0 := by
    have : (q.y - p.y) * (u.x - v.x)
        = (cross p q v - cross p q u) + (q.x - p.x) * (u.y - v.y) := by
      simp only [cross]; ring
    rw [this, hu, hv, hy]; ring
  have hx : u.x - v.x = 0 := by
    rcases mul_eq_zero.mp h with h' | h'
    · exact absurd (by linarith) hpq
    · exact h'
  cases u; cases v
  simp only [Vertex.mk.injEq]
  simp only at hx hy
  exact ⟨by linarith, hy⟩

theorem convex_length {vs : List Vertex} (hc : ConvexPolygon vs) : 2 ≤ vs.length := by
  obtain ⟨-, ⟨e, he, v, hv, hne⟩, -⟩ := hc
  match vs, he, hv with
  | [], he, _ => simp [polygonEdges] at he
  | [a], he, hv =>
    simp [polygonEdges] at he hv
    subst he hv
    exact absurd (cross_self_left _ _) hne
  | _ :: _ :: _, _, _ => simp

theorem convex_off_line {vs : List Vertex} (hc : ConvexPolygon vs) {e : Vertex × Vertex}
    (he : e ∈ polygonEdges vs) : ∃ w ∈ vs, cross e.1 e.2 w ≠ 0 := by
  by_contra hall
  push_neg at hall
  have hne := polygonEdges_ne hc.1 (convex_length hc) he
  obtain ⟨-, ⟨e0, he0, v0, hv0, hne0⟩, -⟩ := hc
  exact hne0 (cross_collinear e.1 e.2 e0.1 e0.2 v0 hne
    (hall _ (polygonEdges_mem_left he0)) (hall _ (polygonEdges_mem_right he0)) (hall _ hv0))

theorem convex_oriented {vs : List Vertex} (hc : ConvexPolygon vs) :
    ∃ s : ℚ, (s = 1 ∨ s = -1) ∧ ∀ e ∈ polygonEdges vs, ∀ v ∈ vs, 0 ≤ s * cross e.1 e.2 v := by
  rcases hc.2.2 with h | h
  · exact ⟨1, Or.inl rfl, fun e he v hv => by simpa using h e he v hv⟩
  · exact ⟨-1, Or.inr rfl, fun e he v hv => by
      have := h e he v hv
      linarith⟩

theorem cross_via_line (p0 q0 m m' v : Vertex) :
    (q0.y - p0.y) * cross m m' v
      = -(cross p0 q0 m' - cross p0 q0 m) * (v.y - m.y)
        + (m'.y - m.y) * (cross p0 q0 v - cross p0 q0 m) := by
  simp only [cross]
  ring

theorem nonneg_of_mul_pos_right {a b : ℚ} (h : 0 ≤ a * b) (hb : 0 < b) : 0 ≤ a := by
  by_contra hneg
  push_neg at hneg
  have := mul_neg_of_neg_of_pos hneg hb
  linarith

theorem sign_mul_eq_zero {s c : ℚ} (hs : s = 1 ∨ s = -1) (h : s * c = 0) : c = 0 := by
  rcases hs with rfl | rfl <;> linarith

/-- In a convex polygon no vertex lies strictly inside a non-horizontal edge. -/
theorem no_vertex_inside_edge {vs : List Vertex} (hc : ConvexPolygon vs)
    {e0 : Vertex × Vertex} (he0 : e0 ∈ polygonEdges vs) {m0 : Vertex} (hm0 : m0 ∈ vs)
    (hon : cross e0.1 e0.2 m0 = 0) (d : ℚ) (hdir : 0 < d * (e0.2.y - e0.1.y)) :
    ¬ (d * e0.1.y < d * m0.y ∧ d * m0.y < d * e0.2.y) := by
  classical
  intro hbtw
  obtain ⟨s, hs, H⟩ := convex_oriented hc
  obtain ⟨w, hw, hwne⟩ := convex_off_line hc he0
  have hy0 : e0.1.y ≠ e0.2.y := by
    intro h
    rw [h] at hdir
    simp at hdir
  have hsw : 0 < s * cross e0.1 e0.2 w := by
    rcases lt_or_eq_of_le (H e0 he0 w hw) with h | h
    · exact h
    · exact absurd (sign_mul_eq_zero hs h.symm) hwne
  let Bad : Vertex → Prop := fun m =>
    cross e0.1 e0.2 m = 0 ∧ ∃ e ∈ polygonEdges vs, cross e0.1 e0.2 e.1 = 0 ∧
      cross e0.1 e0.2 e.2 = 0 ∧ d * e.1.y < d * m.y ∧ d * m.y < d * e.2.y
  have hS : (vs.toFinset.filter Bad).Nonempty :=
    ⟨m0, by
      simp only [Finset.mem_filter, List.mem_toFinset]
      exact ⟨hm0, hon, e0, he0, cross_self_left _ _, cross_self_right _ _, hbtw.1, hbtw.2⟩⟩
  obtain ⟨m, hmS, hmax⟩ := Finset.exists_max_image _ (fun v : Vertex => d * v.y) hS
  simp only [Finset.mem_filter, List.mem_toFinset] at hmS hmax
  obtain ⟨hm, hCm, e, he, hC1, hC2, hlt1, hlt2⟩ := hmS
  obtain ⟨m', hsucc⟩ := polygonEdges_exists_succ hm
  have hm' : m' ∈ vs := polygonEdges_mem_right hsucc
  -- the successor of `m` lies on the line
  have hCm' : cross e0.1 e0.2 m' = 0 := by
    have kp := cross_via_line e0.1 e0.2 m m' e.1
    have kq := cross_via_line e0.1 e0.2 m m' e.2
    rw [hCm, hC1] at kp
    rw [hCm, hC2] at kq
    have e1 : (s * cross e0.1 e0.2 m') * (d * m.y - d * e.1.y)
        = (d * (e0.2.y - e0.1.y)) * (s * cross m m' e.1) := by
      linear_combination (-(d * s)) * kp
    have e2 : (-(s * cross e0.1 e0.2 m')) * (d * e.2.y - d * m.y)
        = (d * (e0.2.y - e0.1.y)) * (s * cross m m' e.2) := by
      linear_combination (-(d * s)) * kq
    have h1 : 0 ≤ s * cross e0.1 e0.2 m' :=
      nonneg_of_mul_pos_right
        (by rw [e1]; exact mul_nonneg (le_of_lt hdir)
              (H _ hsucc _ (polygonEdges_mem_left he)))
        (by linarith)
    have h2 : 0 ≤ -(s * cross e0.1 e0.2 m') :=
      nonneg_of_mul_pos_right
        (by rw [e2]; exact mul_nonneg (le_of_lt hdir)
              (H _ hsucc _ (polygonEdges_mem_right he)))
        (by linarith)
    exact sign_mul_eq_zero hs (by linarith)
  -- it lies further along the line
  have hne : m ≠ m' := polygonEdges_ne hc.1 (convex_length hc) hsucc
  have hadv : d * m.y < d * m'.y := by
    have kw := cross_via_line e0.1 e0.2 m m' w
    rw [hCm, hCm'] at kw
    have e3 : (d * m'.y - d * m.y) * (s * cross e0.1 e0.2 w)
        = (d * (e0.2.y - e0.1.y)) * (s * cross m m' w) := by
      linear_combination (-(d * s)) * kw
    have h3 : 0 ≤ d * m'.y - d * m.y :=
      nonneg_of_mul_pos_right
        (by rw [e3]; exact mul_nonneg (le_of_lt hdir) (H _ hsucc _ hw)) hsw
    rcases lt_or_eq_of_le h3 with h | h
    · linarith
    · exfalso
      have hd0 : d ≠ 0 := by
        intro h0; rw [h0] at hdir; simp at hdir
      have hyy : m.y = m'.y := by
        have : d * (m'.y - m.y) = 0 := by linarith
        rcases mul_eq_zero.mp this with h' | h'
        · exact absurd h' hd0
        · linarith
      exact hne (eq_of_on_line_same_y e0.1 e0.2 m m' hy0 hCm hCm' hyy)
  have hneq : m' ≠ e.2 := by
    intro h
    have := polygonEdges_snd_inj hc.1 hsucc he h
    rw [← this] at hlt1
    simp at hlt1
  have hd0 : d ≠ 0 := by
    intro h0; rw [h0] at hdir; simp at hdir
  have hneqy : d * m'.y ≠ d * e.2.y := by
    intro h
    have hyy : m'.y = e.2.y := mul_left_cancel₀ hd0 h
    exact hneq (eq_of_on_line_same_y e0.1 e0.2 m' e.2 hy0 hCm' hC2 hyy)
  rcases lt_or_gt_of_ne hneqy with h | h
  · have := hmax m' ⟨hm', hCm', e, he, hC1, hC2, by linarith, h⟩
    linarith
  · have := hmax e.2 ⟨polygonEdges_mem_right he, hC2, (m, m'), hsucc, hCm, hCm', hlt2, h⟩
    linarith

theorem cross_pair_identity (a b c d : Vertex) (y : ℚ) :
    ((d.y - y) * cross a b c + (y - c.y) * cross a b d)
      + ((b.y - y) * cross c d a + (y - a.y) * cross c d b) = 0 := by
  simp only [cross]
  ring

/-- Two upward edges of a convex polygon that meet the same row: the lower endpoint of the
second lies on the line of the first. -/
theorem on_line_up {vs : List Vertex} {s : ℚ}
    (H : ∀ e ∈ polygonEdges vs, ∀ v ∈ vs, 0 ≤ s * cross e.1 e.2 v) (hs : s = 1 ∨ s = -1)
    {e f : Vertex × Vertex} (he : e ∈ polygonEdges vs) (hf : f ∈ polygonEdges vs) (y : ℚ)
    (he1 : e.1.y ≤ y) (he2 : y < e.2.y) (hf1 : f.1.y ≤ y) (hf2 : y < f.2.y) :
    cross e.1 e.2 f.1 = 0 := by
  have hid := cross_pair_identity e.1 e.2 f.1 f.2 y
  have a1 := H e he f.1 (polygonEdges_mem_left hf)
  have a2 := H e he f.2 (polygonEdges_mem_right hf)
  have b1 := H f hf e.1 (polygonEdges_mem_left he)
  have b2 := H f hf e.2 (polygonEdges_mem_right he)
  have t1 : 0 ≤ (f.2.y - y) * (s * cross e.1 e.2 f.1) := mul_nonneg (by linarith) a1
  have t2 : 0 ≤ (y - f.1.y) * (s * cross e.1 e.2 f.2) := mul_nonneg (by linarith) a2
  have t3 : 0 ≤ (e.2.y - y) * (s * cross f.1 f.2 e.1) := mul_nonneg (by linarith) b1
  have t4 : 0 ≤ (y - e.1.y) * (s * cross f.1 f.2 e.2) := mul_nonneg (by linarith) b2
  have hsum : (f.2.y - y) * (s * cross e.1 e.2 f.1) + (y - f.1.y) * (s * cross e.1 e.2 f.2)
      + ((e.2.y - y) * (s * cross f.1 f.2 e.1) + (y - e.1.y) * (s * cross f.1 f.2 e.2)) = 0 := by
    linear_combination s * hid
  have h0 : (f.2.y - y) * (s * cross e.1 e.2 f.1) = 0 := by linarith
  rcases mul_eq_zero.mp h0 with h | h
  · linarith
  · exact sign_mul_eq_zero hs h

/-- Two downward edges of a convex polygon that meet the same row: the lower endpoint of the
second lies on the line of the first. -/
theorem on_line_down {vs : List Vertex} {s : ℚ}
    (H : ∀ e ∈ polygonEdges vs, ∀ v ∈ vs, 0 ≤ s * cross e.1 e.2 v) (hs : s = 1 ∨ s = -1)
    {e f : Vertex × Vertex} (he : e ∈ polygonEdges vs) (hf : f ∈ polygonEdges vs) (y : ℚ)
    (he1 : e.2.y ≤ y) (he2 : y < e.1.y) (hf1 : f.2.y ≤ y) (hf2 : y < f.1.y) :
    cross e.1 e.2 f.2 = 0 := by
  have hid := cross_pair_identity e.1 e.2 f.1 f.2 y
  have a1 := H e he f.1 (polygonEdges_mem_left hf)
  have a2 := H e he f.2 (polygonEdges_mem_right hf)
  have b1 := H f hf e.1 (polygonEdges_mem_left he)
  have b2 := H f hf e.2 (polygonEdges_mem_right he)
  have t1 : 0 ≤ (y - f.2.y) * (s * cross e.1 e.2 f.1) := mul_nonneg (by linarith) a1
  have t2 : 0 ≤ (f.1.y - y) * (s * cross e.1 e.2 f.2) := mul_nonneg (by linarith) a2
  have t3 : 0 ≤ (y - e.2.y) * (s * cross f.1 f.2 e.1) := mul_nonneg (by linarith) b1
  have t4 : 0 ≤ (e.1.y - y) * (s * cross f.1 f.2 e.2) := mul_nonneg (by linarith) b2
  have hsum : (y - f.2.y) * (s * cross e.1 e.2 f.1) + (f.1.y - y) * (s * cross e.1 e.2 f.2)
      + ((y - e.2.y) * (s * cross f.1 f.2 e.1) + (e.1.y - y) * (s * cross f.1 f.2 e.2)) = 0 := by
    linear_combination (-s) * hid
  have h0 : (f.1.y - y) * (s * cross e.1 e.2 f.2) = 0 := by linarith
  rcases mul_eq_zero.mp h0 with h | h
  · linarith
  · exact sign_mul_eq_zero hs h

/-- In a convex polygon at most one upward edge meets a given row (half-open at the top). -/
theorem upward_edge_unique {vs : List Vertex} (hc : ConvexPolygon vs)
    {e f : Vertex × Vertex} (he : e ∈ polygonEdges vs) (hf : f ∈ polygonEdges vs) (y : ℚ)
    (he1 : e.1.y ≤ y) (he2 : y < e.2.y) (hf1 : f.1.y ≤ y) (hf2 : y < f.2.y) : e = f := by
  obtain ⟨s, hs, H⟩ := convex_oriented hc
  have h1 := on_line_up H hs he hf y he1 he2 hf1 hf2
  have h2 := on_line_up H hs hf he y hf1 hf2 he1 he2
  rcases lt_trichotomy e.1.y f.1.y with h | h | h
  · exfalso
    exact no_vertex_inside_edge hc he (polygonEdges_mem_left hf) h1 1 (by linarith)
      ⟨by linarith, by linarith⟩
  · apply polygonEdges_fst_inj hc.1 he hf
    exact eq_of_on_line_same_y e.1 e.2 e.1 f.1 (by linarith) (cross_self_left _ _) h1 h
  · exfalso
    exact no_vertex_inside_edge hc hf (polygonEdges_mem_left he) h2 1 (by linarith)
      ⟨by linarith, by linarith⟩

/-- In a convex polygon at most one downward edge meets a given row (half-open at the
top). -/
theorem downward_edge_unique {vs : List Vertex} (hc : ConvexPolygon vs)
    {e f : Vertex × Vertex} (he : e ∈ polygonEdges vs) (hf : f ∈ polygonEdges vs) (y : ℚ)
    (he1 : e.2.y ≤ y) (he2 : y < e.1.y) (hf1 : f.2.y ≤ y) (hf2 : y < f.1.y) : e = f := by
  obtain ⟨s, hs, H⟩ := convex_oriented hc
  have h1 := on_line_down H hs he hf y he1 he2 hf1 hf2
  have h2 := on_line_down H hs hf he y hf1 hf2 he1 he2
  rcases lt_trichotomy e.2.y f.2.y with h | h | h
  · exfalso
    exact no_vertex_inside_edge hc he (polygonEdges_mem_right hf) h1 (-1) (by linarith)
      ⟨by linarith, by linarith⟩
  · apply polygonEdges_snd_inj hc.1 he hf
    exact eq_of_on_line_same_y e.1 e.2 e.2 f.2 (by linarith) (cross_self_right _ _) h1 h
  · exfalso
    exact no_vertex_inside_edge hc hf (polygonEdges_mem_right he) h2 (-1) (by linarith)
      ⟨by linarith, by linarith⟩

/-! ## Edge table entries -/

theorem mem_edgeTableEntry (a b : Vertex) (r : Edge) :
    r ∈ edgeTableEntry a b ↔
      (a.y < b.y ∧ r = ⟨a.y, b.y, a.x, (b.x - a.x) / (b.y - a.y)⟩) ∨
      (b.y < a.y ∧ r = ⟨b.y, a.y, b.x, (a.x - b.x) / (a.y - b.y)⟩) := by
  unfold edgeTableEntry
  rcases lt_trichotomy a.y b.y with h | h | h
  · simp [ne_of_lt h, h, not_lt.mpr (le_of_lt h)]
  · simp [h]
  · simp [ne_of_gt h, h, not_lt.mpr (le_of_lt h)]

theorem buildEdgeTable_eq_flatMap (vs : List Vertex) :
    buildEdgeTable vs = (polygonEdges vs).flatMap fun e => edgeTableEntry e.1 e.2 := by
  rw [polygonEdges_eq_map_range, buildEdgeTable, List.flatMap_map]

theorem mem_sortByYmin (vs : List Vertex) (r : Edge) :
    r ∈ sortByYmin (buildEdgeTable vs) ↔
      ∃ e ∈ polygonEdges vs, r ∈ edgeTableEntry e.1 e.2 := by
  unfold sortByYmin
  rw [(List.perm_insertionSort _ _).mem_iff, buildEdgeTable_eq_flatMap, List.mem_flatMap]

/-- The point where an edge table entry meets row `y` lies on the polygon edge it was
built from, and on the line through that edge. -/
theorem entry_point (a b : Vertex) (r : Edge) (hr : r ∈ edgeTableEntry a b) (y : ℚ)
    (h1 : r.ymin ≤ y) (h2 : y < r.ymax) :
    cross a b ⟨r.x + (y - r.ymin) * r.slopeInverse, y⟩ = 0 ∧
      ∃ t : ℚ, 0 ≤ t ∧ t ≤ 1 ∧
        r.x + (y - r.ymin) * r.slopeInverse = a.x + t * (b.x - a.x) ∧
        y = a.y + t * (b.y - a.y) := by
  rcases (mem_edgeTableEntry a b r).mp hr with ⟨h, rfl⟩ | ⟨h, rfl⟩
  · simp only at h1 h2
    have hne : b.y - a.y ≠ 0 := by linarith
    have hpos : 0 < b.y - a.y := by linarith
    refine ⟨?_, (y - a.y) / (b.y - a.y), div_nonneg (by linarith) (le_of_lt hpos),
      (div_le_one hpos).mpr (by linarith), ?_, ?_⟩
    · simp only [cross]; field_simp; ring
    · field_simp
    · field_simp
  · simp only at h1 h2
    have hne : a.y - b.y ≠ 0 := by linarith
    have hpos : 0 < a.y - b.y := by linarith
    refine ⟨?_, (a.y - y) / (a.y - b.y), div_nonneg (by linarith) (le_of_lt hpos),
      (div_le_one hpos).mpr (by linarith), ?_, ?_⟩
    · simp only [cross]; field_simp; ring
    · field_simp; ring
    · field_simp; ring

/-- Every boundary point of a row lies on the inner side of every edge line. -/
theorem boundary_side {vs : List Vertex} {s : ℚ}
    (H : ∀ e ∈ polygonEdges vs, ∀ v ∈ vs, 0 ≤ s * cross e.1 e.2 v)
    {e : Vertex × Vertex} (he : e ∈ polygonEdges vs) {y q : ℚ} (hq : q ∈ boundaryRow vs y) :
    0 ≤ s * cross e.1 e.2 ⟨q, y⟩ := by
  obtain ⟨f, hf, t, ht0, ht1, hx, hy⟩ := hq
  rw [cross_affine e.1 e.2 f.1 f.2 t q y hx hy]
  have a1 := H e he f.1 (polygonEdges_mem_left hf)
  have a2 := H e he f.2 (polygonEdges_mem_right hf)
  have : s * ((1 - t) * cross e.1 e.2 f.1 + t * cross e.1 e.2 f.2)
      = (1 - t) * (s * cross e.1 e.2 f.1) + t * (s * cross e.1 e.2 f.2) := by ring
  rw [this]
  exact add_nonneg (mul_nonneg (by linarith) a1) (mul_nonneg ht0 a2)

theorem edgeTableEntry_unique (a b : Vertex) (r r' : Edge) (hr : r ∈ edgeTableEntry a b)
    (hr' : r' ∈ edgeTableEntry a b) : r = r' := by
  rcases (mem_edgeTableEntry a b r).mp hr with ⟨h, rfl⟩ | ⟨h, rfl⟩ <;>
    rcases (mem_edgeTableEntry a b r').mp hr' with ⟨h', rfl⟩ | ⟨h', rfl⟩
  · rfl
  · exact absurd h (not_lt.mpr (le_of_lt h'))
  · exact absurd h (not_lt.mpr (le_of_lt h'))
  · rfl

theorem baseEdge_x (y : ℚ) (a : Edge) :
    a.x = (baseEdge y a).x + (y - (baseEdge y a).ymin) * (baseEdge y a).slopeInverse := by
  simp [baseEdge]

/-- An active edge at row `y` comes from an upward or from a downward polygon edge that
meets the row; its `x` is a boundary point of the row, extreme on the side fixed by the
direction of the edge and the orientation `s` of the polygon. -/
theorem active_extreme {vs : List Vertex} {s : ℚ}
    (H : ∀ e ∈ polygonEdges vs, ∀ v ∈ vs, 0 ≤ s * cross e.1 e.2 v)
    (y : ℚ) (a : Edge) (hmem : baseEdge y a ∈ sortByYmin (buildEdgeTable vs))
    (h1 : a.ymin ≤ y) (h2 : y < a.ymax) :
    a.x ∈ boundaryRow vs y ∧
      ((∃ e ∈ polygonEdges vs, e.1.y ≤ y ∧ y < e.2.y ∧
          baseEdge y a ∈ edgeTableEntry e.1 e.2) ∧
        (∀ q ∈ boundaryRow vs y, 0 ≤ s * (a.x - q)) ∨
       (∃ e ∈ polygonEdges vs, e.2.y ≤ y ∧ y < e.1.y ∧
          baseEdge y a ∈ edgeTableEntry e.1 e.2) ∧
        (∀ q ∈ boundaryRow vs y, 0 ≤ s * (q - a.x))) := by
  obtain ⟨e, he, hr⟩ := (mem_sortByYmin vs _).mp hmem
  have hb1 : (baseEdge y a).ymin ≤ y := h1
  have hb2 : y < (baseEdge y a).ymax := h2
  obtain ⟨hcross, t, ht0, ht1, hx, hy⟩ := entry_point e.1 e.2 _ hr y hb1 hb2
  rw [← baseEdge_x] at hcross hx
  refine ⟨⟨e, he, t, ht0, ht1, hx, hy⟩, ?_⟩
  have hside : ∀ q ∈ boundaryRow vs y, 0 ≤ (s * (a.x - q)) * (e.2.y - e.1.y) := by
    intro q hq
    have := boundary_side H he hq
    have hrow := cross_row e.1 e.2 q a.x y
    rw [hcross] at hrow
    have : s * cross e.1 e.2 ⟨q, y⟩ = (s * (a.x - q)) * (e.2.y - e.1.y) := by
      linear_combination s * hrow
    linarith
  rcases (mem_edgeTableEntry e.1 e.2 _).mp hr with ⟨h, hrec⟩ | ⟨h, hrec⟩
  · left
    have hy1 : e.1.y ≤ y := by rw [hrec] at hb1; exact hb1
    have hy2 : y < e.2.y := by rw [hrec] at hb2; exact hb2
    exact ⟨⟨e, he, hy1, hy2, hr⟩, fun q hq =>
      nonneg_of_mul_pos_right (hside q hq) (by linarith)⟩
  · right
    have hy1 : e.2.y ≤ y := by rw [hrec] at hb1; exact hb1
    have hy2 : y < e.1.y := by rw [hrec] at hb2; exact hb2
    refine ⟨⟨e, he, hy1, hy2, hr⟩, fun q hq => ?_⟩
    have h3 := hside q hq
    have : 0 ≤ (s * (q - a.x)) * (e.1.y - e.2.y) := by linarith
    exact nonneg_of_mul_pos_right this (by linarith)

theorem up_base_eq {vs : List Vertex} (hc : ConvexPolygon vs) (y : ℚ) (r r' : Edge)
    (h : ∃ e ∈ polygonEdges vs, e.1.y ≤ y ∧ y < e.2.y ∧ r ∈ edgeTableEntry e.1 e.2)
    (h' : ∃ e ∈ polygonEdges vs, e.1.y ≤ y ∧ y < e.2.y ∧ r' ∈ edgeTableEntry e.1 e.2) :
    r = r' := by
  obtain ⟨e, he, h1, h2, hr⟩ := h
  obtain ⟨f, hf, h1', h2', hr'⟩ := h'
  have := upward_edge_unique hc he hf y h1 h2 h1' h2'
  subst this
  exact edgeTableEntry_unique _ _ _ _ hr hr'

theorem down_base_eq {vs : List Vertex} (hc : ConvexPolygon vs) (y : ℚ) (r r' : Edge)
    (h : ∃ e ∈ polygonEdges vs, e.2.y ≤ y ∧ y < e.1.y ∧ r ∈ edgeTableEntry e.1 e.2)
    (h' : ∃ e ∈ polygonEdges vs, e.2.y ≤ y ∧ y < e.1.y ∧ r' ∈ edgeTableEntry e.1 e.2) :
    r = r' := by
  obtain ⟨e, he, h1, h2, hr⟩ := h
  obtain ⟨f, hf, h1', h2', hr'⟩ := h'
  have := downward_edge_unique hc he hf y h1 h2 h1' h2'
  subst this
  exact edgeTableEntry_unique _ _ _ _ hr hr'

/-- The edge table of a convex polygon has no repeated entry. -/
theorem edgeTable_nodup {vs : List Vertex} (hc : ConvexPolygon vs) :
    (sortByYmin (buildEdgeTable vs)).Nodup := by
  unfold sortByYmin
  rw [(List.perm_insertionSort _ _).nodup_iff, buildEdgeTable_eq_flatMap, List.nodup_flatMap]
  constructor
  · intro e _
    unfold edgeTableEntry
    split <;> simp
  · have hnd : (polygonEdges vs).Nodup :=
      List.Nodup.of_map Prod.fst (by rw [polygonEdges_map_fst]; exact hc.1)
    refine List.Pairwise.imp_of_mem ?_ hnd
    intro e f he hf hne
    show List.Disjoint (edgeTableEntry e.1 e.2) (edgeTableEntry f.1 f.2)
    intro r hr hr'
    apply hne
    rcases (mem_edgeTableEntry e.1 e.2 r).mp hr with ⟨h, hrec⟩ | ⟨h, hrec⟩ <;>
      rcases (mem_edgeTableEntry f.1 f.2 r).mp hr' with ⟨h', hrec'⟩ | ⟨h', hrec'⟩
    · rw [hrec] at hrec'
      simp only [Edge.mk.injEq] at hrec'
      apply polygonEdges_fst_inj hc.1 he hf
      cases he1 : e.1; cases hf1 : f.1
      simp only [he1, hf1] at hrec'
      simp only [Vertex.mk.injEq]
      exact ⟨hrec'.2.2.1, hrec'.1⟩
    · exfalso
      rw [hrec] at hrec'
      simp only [Edge.mk.injEq] at hrec'
      obtain ⟨h1, h2, h3, h4⟩ := hrec'
      have hx : e.2.x = f.1.x := by
        rw [h1, h2, h3] at h4
        have hne' : f.1.y - f.2.y ≠ 0 := by linarith
        field_simp at h4
        linarith
      obtain ⟨s, hs, H⟩ := convex_oriented hc
      obtain ⟨w, hw, hwne⟩ := convex_off_line hc he
      have a1 := H e he w hw
      have a2 := H f hf w hw
      have : cross f.1 f.2 w = -cross e.1 e.2 w := by
        simp only [cross, ← h1, ← h2, ← h3, ← hx]; ring
      rw [this] at a2
      exact hwne (sign_mul_eq_zero hs (by linarith))
    · exfalso
      rw [hrec] at hrec'
      simp only [Edge.mk.injEq] at hrec'
      obtain ⟨h1, h2, h3, h4⟩ := hrec'
      have hx : e.1.x = f.2.x := by
        rw [h1, h2, h3] at h4
        have hne' : f.2.y - f.1.y ≠ 0 := by linarith
        field_simp at h4
        linarith
      obtain ⟨s, hs, H⟩ := convex_oriented hc
      obtain ⟨w, hw, hwne⟩ := convex_off_line hc he
      have a1 := H e he w hw
      have a2 := H f hf w hw
      have : cross f.1 f.2 w = -cross e.1 e.2 w := by
        simp only [cross, ← h1, ← h2, ← h3, ← hx]; ring
      rw [this] at a2
      exact hwne (sign_mul_eq_zero hs (by linarith))
    · rw [hrec] at hrec'
      simp only [Edge.mk.injEq] at hrec'
      apply polygonEdges_snd_inj hc.1 he hf
      cases he1 : e.2; cases hf1 : f.2
      simp only [he1, hf1] at hrec'
      simp only [Vertex.mk.injEq]
      exact ⟨hrec'.2.2.1, hrec'.1⟩

/-! ## Invariants of the scan loop -/

theorem baseEdge_of_ymin (y : ℚ) (e : Edge) (h : e.ymin = y) : baseEdge y e = e := by
  cases e
  simp only at h
  simp [baseEdge, h]

theorem baseEdge_ymin (y : ℚ) (e : Edge) : (baseEdge y e).ymin = e.ymin := rfl

theorem activeAt_perm (ET : List Edge) (y : ℚ) (aet : List Edge) :
    (activeAt ET y aet).Perm
      (aet.filter (fun edge => decide (edge.ymax > y)) ++
        ET.filter (fun edge => decide (edge.ymin = y))) :=
  List.perm_insertionSort _ _

theorem activeAt_sorted (ET : List Edge) (y : ℚ) (aet : List Edge) :
    (activeAt ET y aet).Sorted (fun a b => a.x ≤ b.x) :=
  List.sorted_insertionSort _ _

theorem activeAt_inv {ET : List Edge} (hnd : ET.Nodup) (hwf : ∀ e ∈ ET, e.ymin < e.ymax)
    {y : ℚ} {aet : List Edge} (h : PendingInv ET y aet) : ActiveInv ET y (activeAt ET y aet) := by
  have hp := activeAt_perm ET y aet
  constructor
  · rw [(hp.map (baseEdge y)).nodup_iff, List.map_append]
    have hmap : (ET.filter (fun edge => decide (edge.ymin = y))).map (baseEdge y)
        = ET.filter (fun edge => decide (edge.ymin = y)) := by
      conv_rhs => rw [← List.map_id (ET.filter (fun edge => decide (edge.ymin = y)))]
      apply List.map_congr_left
      intro e he
      have := (List.mem_filter.mp he).2
      simp only [decide_eq_true_eq] at this
      simp [baseEdge_of_ymin y e this]
    rw [hmap]
    refine List.Nodup.append ?_ (hnd.filter _) ?_
    · exact h.1.sublist ((List.filter_sublist _).map _)
    · intro r hr1 hr2
      obtain ⟨a, ha, rfl⟩ := List.mem_map.mp hr1
      have ha' := (h.2 a (List.mem_filter.mp ha).1).2
      have := (List.mem_filter.mp hr2).2
      simp only [decide_eq_true_eq, baseEdge_ymin] at this
      linarith
  · intro a ha
    rcases List.mem_append.mp (hp.mem_iff.mp ha) with h1 | h1
    · obtain ⟨hmem, hy⟩ := List.mem_filter.mp h1
      simp only [decide_eq_true_eq] at hy
      exact ⟨(h.2 a hmem).1, le_of_lt (h.2 a hmem).2, hy⟩
    · obtain ⟨hmem, hy⟩ := List.mem_filter.mp h1
      simp only [decide_eq_true_eq] at hy
      refine ⟨by rw [baseEdge_of_ymin y a hy]; exact hmem, le_of_eq hy, ?_⟩
      have := hwf a hmem
      linarith

theorem advance_inv {ET : List Edge} {y : ℚ} {A : List Edge} (h : ActiveInv ET y A) :
    PendingInv ET (y + 1) (advance A) := by
  have hb : ∀ a : Edge,
      baseEdge (y + 1) { a with x := a.x + a.slopeInverse } = baseEdge y a := by
    intro a
    simp only [baseEdge, Edge.mk.injEq, true_and, and_true]
    ring
  have hmap : (advance A).map (baseEdge (y + 1)) = A.map (baseEdge y) := by
    simp only [advance, List.map_map]
    apply List.map_congr_left
    intro a _
    exact hb a
  constructor
  · rw [hmap]; exact h.1
  · intro a' ha'
    obtain ⟨a, ha, rfl⟩ := List.mem_map.mp ha'
    rw [hb a]
    refine ⟨(h.2 a ha).1, ?_⟩
    have := (h.2 a ha).2.1
    show a.ymin < y + 1
    linarith

theorem SpansSatisfy.nil (color : String) (Q : ℚ → ℤ → ℤ → Prop) :
    SpansSatisfy color Q [] :=
  ⟨[], rfl, fun _ h => absurd h (List.not_mem_nil _)⟩

theorem SpansSatisfy.append {color : String} {Q : ℚ → ℤ → ℤ → Prop} {c1 c2 : List Cmd}
    (h1 : SpansSatisfy color Q c1) (h2 : SpansSatisfy color Q c2) :
    SpansSatisfy color Q (c1 ++ c2) := by
  obtain ⟨s1, rfl, q1⟩ := h1
  obtain ⟨s2, rfl, q2⟩ := h2
  refine ⟨s1 ++ s2, by rw [List.flatMap_append], ?_⟩
  intro t ht
  rcases List.mem_append.mp ht with h | h
  · exact q1 t h
  · exact q2 t h

theorem SpansSatisfy.seq {color : String} {Q : ℚ → ℤ → ℤ → Prop} {r k : Run}
    (h1 : SpansSatisfy color Q r.cmds) (h2 : SpansSatisfy color Q k.cmds) :
    SpansSatisfy color Q (r.seq k).cmds := by
  unfold Run.seq
  split
  · exact h1.append h2
  · exact h1

theorem scanLoop_spans {ET : List Edge} (hnd : ET.Nodup) (hwf : ∀ e ∈ ET, e.ymin < e.ymax)
    (color : String) (y_max : ℚ) (Q : ℚ → ℤ → ℤ → Prop)
    (hrow : ∀ y A, ActiveInv ET y A → A.Sorted (fun a b => a.x ≤ b.x) →
      SpansSatisfy color Q (pairLoop y color A).cmds) :
    ∀ (fuel : Nat) (y : ℚ) (aet : List Edge), PendingInv ET y aet →
      SpansSatisfy color Q (scanLoop ET color y_max fuel y aet).cmds := by
  intro fuel
  induction fuel with
  | zero => intro y aet _; exact SpansSatisfy.nil _ _
  | succ n ih =>
    intro y aet h
    rw [scanLoop]
    split
    · have hA := activeAt_inv hnd hwf h
      exact SpansSatisfy.seq (hrow _ _ hA (activeAt_sorted _ _ _)) (ih _ _ (advance_inv hA))
    · exact SpansSatisfy.nil _ _

theorem least_greatest_of_sorted {S : Set ℚ} {X Y : ℚ} (hX : X ∈ S) (hY : Y ∈ S)
    (hXY : X ≤ Y)
    (h : ((∀ q ∈ S, X ≤ q) ∧ (∀ q ∈ S, q ≤ Y)) ∨ ((∀ q ∈ S, q ≤ X) ∧ (∀ q ∈ S, Y ≤ q))) :
    IsLeast S X ∧ IsGreatest S Y := by
  rcases h with ⟨h1, h2⟩ | ⟨h1, h2⟩
  · exact ⟨⟨hX, h1⟩, ⟨hY, h2⟩⟩
  · have hYX : Y ≤ X := h2 X hX
    have hEq : X = Y := le_antisymm hXY hYX
    subst hEq
    exact ⟨⟨hX, h2⟩, ⟨hX, h1⟩⟩

/-- The spans drawn for one row of a convex polygon. -/
theorem row_spans {vs : List Vertex} (hc : ConvexPolygon vs) (color : String) (y : ℚ)
    (A : List Edge) (hA : ActiveInv (sortByYmin (buildEdgeTable vs)) y A)
    (hsorted : A.Sorted (fun a b => a.x ≤ b.x)) :
    SpansSatisfy color (SpanWithinOne vs) (pairLoop y color A).cmds := by
  obtain ⟨s, hs, H⟩ := convex_oriented hc
  have hext : ∀ a ∈ A, _ := fun a ha =>
    active_extreme H y a (hA.2 a ha).1 (hA.2 a ha).2.1 (hA.2 a ha).2.2
  match A, hA, hsorted, hext with
  | [], _, _, _ => exact SpansSatisfy.nil _ _
  | [_], _, _, _ => exact SpansSatisfy.nil _ _
  | [a, b], hA, hsorted, hext =>
    have hab : a.x ≤ b.x := by
      simpa [List.Sorted] using hsorted
    have hne : baseEdge y a ≠ baseEdge y b := by
      have := hA.1
      simp only [List.map_cons, List.map_nil, List.nodup_cons, List.mem_singleton,
        List.not_mem_nil, not_false_eq_true, List.nodup_nil, and_true] at this
      exact this
    obtain ⟨hain, hakind⟩ := hext a (by simp)
    obtain ⟨hbin, hbkind⟩ := hext b (by simp)
    have hLR : IsLeast (boundaryRow vs y) a.x ∧ IsGreatest (boundaryRow vs y) b.x := by
      apply least_greatest_of_sorted hain hbin hab
      rcases hakind with ⟨hau, haq⟩ | ⟨had, haq⟩ <;>
        rcases hbkind with ⟨hbu, hbq⟩ | ⟨hbd, hbq⟩
      · exact absurd (up_base_eq hc y _ _ hau hbu) hne
      · rcases hs with rfl | rfl
        · right
          exact ⟨fun q hq => by have := haq q hq; linarith,
            fun q hq => by have := hbq q hq; linarith⟩
        · left
          exact ⟨fun q hq => by have := haq q hq; linarith,
            fun q hq => by have := hbq q hq; linarith⟩
      · rcases hs with rfl | rfl
        · left
          exact ⟨fun q hq => by have := haq q hq; linarith,
            fun q hq => by have := hbq q hq; linarith⟩
        · right
          exact ⟨fun q hq => by have := haq q hq; linarith,
            fun q hq => by have := hbq q hq; linarith⟩
      · exact absurd (down_base_eq hc y _ _ had hbd) hne
    refine ⟨[(y, ⌊a.x⌋, ⌊b.x⌋)], ?_, ?_⟩
    · simp [pairLoop, Run.seq, Run.emit, Run.done]
    · intro t ht
      simp only [List.mem_singleton] at ht
      subst ht
      exact ⟨a.x, b.x, hLR.1, hLR.2, Int.sub_one_lt_floor _, Int.floor_le _,
        Int.sub_one_lt_floor _, Int.floor_le _⟩
  | a :: b :: c :: rest, hA, _, hext =>
    exfalso
    have hnd := hA.1
    simp only [List.map_cons, List.nodup_cons, List.mem_cons, not_or] at hnd
    obtain ⟨⟨hab, hac, -⟩, ⟨hbc, -⟩, -⟩ := hnd
    obtain ⟨-, hakind⟩ := hext a (by simp)
    obtain ⟨-, hbkind⟩ := hext b (by simp)
    obtain ⟨-, hckind⟩ := hext c (by simp)
    rcases hakind with ⟨hau, -⟩ | ⟨had, -⟩ <;>
      rcases hbkind with ⟨hbu, -⟩ | ⟨hbd, -⟩ <;>
      rcases hckind with ⟨hcu, -⟩ | ⟨hcd, -⟩
    · exact hab (up_base_eq hc y _ _ hau hbu)
    · exact hab (up_base_eq hc y _ _ hau hbu)
    · exact hac (up_base_eq hc y _ _ hau hcu)
    · exact hbc (down_base_eq hc y _ _ hbd hcd)
    · exact hbc (up_base_eq hc y _ _ hbu hcu)
    · exact hac (down_base_eq hc y _ _ had hcd)
    · exact hab (down_base_eq hc y _ _ had hbd)
    · exact hab (down_base_eq hc y _ _ had hbd)

theorem edgeTable_wf (vs : List Vertex) :
    ∀ e ∈ sortByYmin (buildEdgeTable vs), e.ymin < e.ymax := by
  intro r hr
  obtain ⟨e, -, hre⟩ := (mem_sortByYmin vs r).mp hr
  rcases (mem_edgeTableEntry e.1 e.2 r).mp hre with ⟨h, rfl⟩ | ⟨h, rfl⟩ <;> exact h

/-- In exact arithmetic, for a convex polygon, everything `fillPolygon` draws is a sequence
of spans in the fill colour, and each span `(y, startX, endX)` has `startX` within one pixel
of the leftmost and `endX` within one pixel of the rightmost boundary point of the polygon
on row `y` (`L - 1 < startX ≤ L` and `R - 1 < endX ≤ R`). -/
theorem fillPolygon_convex_spans (polygon : Polygon) (hc : ConvexPolygon polygon.vertices) :
    SpansSatisfy polygon.fillColor (SpanWithinOne polygon.vertices)
      (fillPolygon polygon).cmds := by
  unfold fillPolygon
  split
  · exact SpansSatisfy.nil _ _
  · exact scanLoop_spans (edgeTable_nodup hc) (edgeTable_wf _) _ _ _
      (fun y A hA hs => row_spans hc _ y A hA hs) _ _ _
      ⟨by simp, fun a ha => absurd ha (List.not_mem_nil _)⟩

/-! ## The winding number of a simple polygon -/

theorem cross_swap (a b p : Vertex) : cross b a p = -cross a b p := by
  simp only [cross]; ring

theorem windingEdge_swap (a b p : Vertex) : windingEdge b a p = -windingEdge a b p := by
  unfold windingEdge
  rw [cross_swap a b p]
  by_cases h1 : a.y ≤ p.y ∧ p.y < b.y ∧ 0 < cross a b p
  · have h2 : ¬ (b.y ≤ p.y ∧ p.y < a.y ∧ 0 < -cross a b p) := by
      rintro ⟨h, h', -⟩; linarith [h1.1, h1.2.1]
    have h3 : b.y ≤ p.y ∧ p.y < a.y ∧ cross a b p < 0 ↔ False := by
      constructor
      · rintro ⟨h, h', -⟩; linarith [h1.1, h1.2.1]
      · exact False.elim
    have h4 : a.y ≤ p.y ∧ p.y < b.y ∧ -cross a b p < 0 := ⟨h1.1, h1.2.1, by linarith [h1.2.2]⟩
    rw [if_neg h2, if_pos h4, if_pos h1]
  · by_cases h2 : b.y ≤ p.y ∧ p.y < a.y ∧ cross a b p < 0
    · have h3 : b.y ≤ p.y ∧ p.y < a.y ∧ 0 < -cross a b p := ⟨h2.1, h2.2.1, by linarith [h2.2.2]⟩
      rw [if_pos h3, if_neg h1, if_pos h2]; rfl
    · have h3 : ¬ (b.y ≤ p.y ∧ p.y < a.y ∧ 0 < -cross a b p) := by
        rintro ⟨h, h', hq⟩; exact h2 ⟨h, h', by linarith⟩
      have h4 : ¬ (a.y ≤ p.y ∧ p.y < b.y ∧ -cross a b p < 0) := by
        rintro ⟨h, h', hq⟩; exact h1 ⟨h, h', by linarith⟩
      rw [if_neg h3, if_neg h4, if_neg h1, if_neg h2]; rfl

theorem list_sum_map_sub {α : Type} (l : List α) (f g : α → ℤ) :
    (l.map fun x => f x - g x).sum = (l.map f).sum - (l.map g).sum := by
  induction l with
  | nil => simp
  | cons a l ih => simp only [List.map_cons, List.sum_cons, ih]; ring

/-- Telescoping along a closed polygon. -/
theorem sum_edges_telescope (vs : List Vertex) (f : Vertex → ℤ) :
    ((polygonEdges vs).map fun e => f e.2 - f e.1).sum = 0 := by
  have h1 : ((polygonEdges vs).map fun e => f e.2 - f e.1).sum
      = (((polygonEdges vs).map Prod.snd).map f).sum
        - (((polygonEdges vs).map Prod.fst).map f).sum := by
    rw [List.map_map, List.map_map]
    exact list_sum_map_sub _ _ _
  rw [h1, polygonEdges_map_fst, polygonEdges_map_snd]
  have : ((vs.rotate 1).map f).sum = (vs.map f).sum :=
    List.Perm.sum_eq ((List.rotate_perm vs 1).map f)
  rw [this]; ring

theorem windingNumber_sub (vs : List Vertex) (p q : Vertex) :
    windingNumber p vs - windingNumber q vs
      = ((polygonEdges vs).map fun e => tau e.1 e.2 p q).sum := by
  have ht := sum_edges_telescope vs (chiSigned p q)
  unfold windingNumber
  have : ((polygonEdges vs).map fun e => tau e.1 e.2 p q).sum
      = ((polygonEdges vs).map fun e => windingEdge e.1 e.2 p).sum
        - ((polygonEdges vs).map fun e => windingEdge e.1 e.2 q).sum
        - ((polygonEdges vs).map fun e => chiSigned p q e.2 - chiSigned p q e.1).sum := by
    rw [← list_sum_map_sub, ← list_sum_map_sub]
    congr 1
    apply List.map_congr_left
    intro e _
    simp only [tau]; ring
  rw [this, ht]; ring

/-! ## Segments that meet -/

theorem onSegment_iff (a b z : Vertex) :
    OnSegment a b z ↔ ∃ t : ℚ, 0 ≤ t ∧ t ≤ 1 ∧ z = pointAt a b t := by
  constructor
  · rintro ⟨t, h0, h1, hx, hy⟩
    refine ⟨t, h0, h1, ?_⟩
    cases z
    simp only [pointAt, Vertex.mk.injEq]
    exact ⟨hx, hy⟩
  · rintro ⟨t, h0, h1, rfl⟩
    exact ⟨t, h0, h1, rfl, rfl⟩

theorem onSegment_symm {a b z : Vertex} (h : OnSegment a b z) : OnSegment b a z := by
  obtain ⟨t, h0, h1, hx, hy⟩ := h
  exact ⟨1 - t, by linarith, by linarith, by rw [hx]; ring, by rw [hy]; ring⟩

theorem cross_pointAt (p q a b : Vertex) (t : ℚ) :
    cross p q (pointAt a b t) = (1 - t) * cross p q a + t * cross p q b := by
  simp only [cross, pointAt]; ring

theorem onSegment_of_cross_zero {p q z : Vertex} (hpq : p.y < q.y) (hz : cross p q z = 0)
    (h1 : p.y ≤ z.y) (h2 : z.y ≤ q.y) : OnSegment p q z := by
  have hpos : 0 < q.y - p.y := by linarith
  refine ⟨(z.y - p.y) / (q.y - p.y), div_nonneg (by linarith) (le_of_lt hpos),
    (div_le_one hpos).mpr (by linarith), ?_, ?_⟩
  · have hne : q.y - p.y ≠ 0 := ne_of_gt hpos
    simp only [cross] at hz
    field_simp
    linarith
  · field_simp

/-- Intermediate value on a segment: if two points of the segment from `a` to `b`, both at
heights within the rows of `p` and `q`, lie on different sides of the line through `p` and
`q` (or on it), the two segments meet. -/
theorem segments_meet {a b p q : Vertex} (hpq : p.y < q.y) {t1 t2 : ℚ}
    (h1 : 0 ≤ t1 ∧ t1 ≤ 1) (h2 : 0 ≤ t2 ∧ t2 ≤ 1)
    (hy1 : p.y ≤ (pointAt a b t1).y ∧ (pointAt a b t1).y ≤ q.y)
    (hy2 : p.y ≤ (pointAt a b t2).y ∧ (pointAt a b t2).y ≤ q.y)
    (hs1 : cross p q (pointAt a b t1) ≤ 0) (hs2 : 0 ≤ cross p q (pointAt a b t2)) :
    ∃ z, OnSegment a b z ∧ OnSegment p q z := by
  rcases eq_or_lt_of_le hs1 with h0 | hneg
  · exact ⟨pointAt a b t1, (onSegment_iff _ _ _).mpr ⟨t1, h1.1, h1.2, rfl⟩,
      onSegment_of_cross_zero hpq h0 hy1.1 hy1.2⟩
  · set s1 := cross p q (pointAt a b t1) with hs1d
    set s2 := cross p q (pointAt a b t2) with hs2d
    have hd : 0 < s2 - s1 := by linarith
    have hdne : s2 - s1 ≠ 0 := ne_of_gt hd
    set l := -s1 / (s2 - s1) with hl
    have hl0 : 0 ≤ l := div_nonneg (by linarith) (le_of_lt hd)
    have hl1 : l ≤ 1 := (div_le_one hd).mpr (by linarith)
    have hmul : l * (s2 - s1) = -s1 := by rw [hl]; field_simp
    refine ⟨pointAt a b (t1 + l * (t2 - t1)), (onSegment_iff _ _ _).mpr
      ⟨t1 + l * (t2 - t1), ?_, ?_, rfl⟩, ?_⟩
    · nlinarith [h1.1, h2.1, mul_nonneg hl0 h2.1, mul_nonneg (sub_nonneg.mpr hl1) h1.1]
    · nlinarith [h1.2, h2.2, mul_nonneg hl0 (sub_nonneg.mpr h2.2),
        mul_nonneg (sub_nonneg.mpr hl1) (sub_nonneg.mpr h1.2)]
    · apply onSegment_of_cross_zero hpq
      · have e1 := cross_pointAt p q a b t1
        have e2 := cross_pointAt p q a b t2
        rw [cross_pointAt]
        rw [← hs1d] at e1
        rw [← hs2d] at e2
        have : (1 - (t1 + l * (t2 - t1))) * cross p q a + (t1 + l * (t2 - t1)) * cross p q b
            = s1 + l * (s2 - s1) := by
          rw [e1, e2]; ring
        rw [this, hmul]; ring
      · have e : (pointAt a b (t1 + l * (t2 - t1))).y
            = (1 - l) * (pointAt a b t1).y + l * (pointAt a b t2).y := by
          simp only [pointAt]; ring
        rw [e]
        nlinarith [hy1.1, hy2.1, mul_nonneg hl0 (sub_nonneg.mpr hy2.1),
          mul_nonneg (sub_nonneg.mpr hl1) (sub_nonneg.mpr hy1.1)]
      · have e : (pointAt a b (t1 + l * (t2 - t1))).y
            = (1 - l) * (pointAt a b t1).y + l * (pointAt a b t2).y := by
          simp only [pointAt]; ring
        rw [e]
        nlinarith [hy1.2, hy2.2, mul_nonneg hl0 (sub_nonneg.mpr hy2.2),
          mul_nonneg (sub_nonneg.mpr hl1) (sub_nonneg.mpr hy1.2)]

/-- The same with the two points in the other order. -/
theorem segments_meet_either {a b p q : Vertex} (hpq : p.y < q.y) (t1 t2 : ℚ)
    (h1 : 0 ≤ t1 ∧ t1 ≤ 1) (h2 : 0 ≤ t2 ∧ t2 ≤ 1)
    (hy1 : p.y ≤ (pointAt a b t1).y ∧ (pointAt a b t1).y ≤ q.y)
    (hy2 : p.y ≤ (pointAt a b t2).y ∧ (pointAt a b t2).y ≤ q.y)
    (hs : (cross p q (pointAt a b t1) ≤ 0 ∧ 0 ≤ cross p q (pointAt a b t2)) ∨
      (0 ≤ cross p q (pointAt a b t1) ∧ cross p q (pointAt a b t2) ≤ 0)) :
    ∃ z, OnSegment a b z ∧ OnSegment p q z := by
  rcases hs with ⟨hs1, hs2⟩ | ⟨hs1, hs2⟩
  · exact segments_meet hpq h1 h2 hy1 hy2 hs1 hs2
  · exact segments_meet hpq h2 h1 hy2 hy1 hs2 hs1

theorem pointAt_zero (a b : Vertex) : pointAt a b 0 = a := by
  cases a; simp [pointAt]

theorem pointAt_one (a b : Vertex) : pointAt a b 1 = b := by
  cases a; cases b; simp [pointAt]

theorem side_midmid {a b p q : Vertex} (hpq : p.y < q.y)
    (hno : ∀ z, OnSegment a b z → OnSegment p q z → False)
    (ha1 : p.y < a.y) (ha2 : a.y ≤ q.y) (hb1 : p.y < b.y) (hb2 : b.y ≤ q.y) :
    cross p q a < 0 ↔ cross p q b < 0 := by
  by_contra hcon
  have hs : (cross p q (pointAt a b 0) ≤ 0 ∧ 0 ≤ cross p q (pointAt a b 1)) ∨
      (0 ≤ cross p q (pointAt a b 0) ∧ cross p q (pointAt a b 1) ≤ 0) := by
    rw [pointAt_zero, pointAt_one]
    by_cases h : cross p q a < 0
    · left
      refine ⟨le_of_lt h, ?_⟩
      by_contra h'
      exact hcon ⟨fun _ => lt_of_not_ge h', fun _ => h⟩
    · right
      refine ⟨not_lt.mp h, ?_⟩
      by_contra h'
      push_neg at h'
      exact hcon ⟨fun hq => absurd hq h, fun hq => by linarith⟩
  obtain ⟨z, hz1, hz2⟩ := segments_meet_either hpq 0 1 ⟨le_refl _, by norm_num⟩
    ⟨by norm_num, le_refl _⟩
    (by rw [pointAt_zero]; exact ⟨le_of_lt ha1, ha2⟩)
    (by rw [pointAt_one]; exact ⟨le_of_lt hb1, hb2⟩) hs
  exact hno z hz1 hz2

theorem side_lowhigh {a b p q : Vertex} (hpq : p.y < q.y)
    (hno : ∀ z, OnSegment a b z → OnSegment p q z → False)
    (ha : a.y ≤ p.y) (hb : q.y < b.y) :
    0 < cross a b p ↔ 0 < cross a b q := by
  by_contra hcon
  have hab : a.y < b.y := by linarith
  have hs : (cross a b (pointAt p q 0) ≤ 0 ∧ 0 ≤ cross a b (pointAt p q 1)) ∨
      (0 ≤ cross a b (pointAt p q 0) ∧ cross a b (pointAt p q 1) ≤ 0) := by
    rw [pointAt_zero, pointAt_one]
    by_cases h : 0 < cross a b p
    · right
      refine ⟨le_of_lt h, ?_⟩
      by_contra h'
      push_neg at h'
      exact hcon ⟨fun _ => h', fun _ => h⟩
    · left
      refine ⟨not_lt.mp h, ?_⟩
      by_contra h'
      push_neg at h'
      exact hcon ⟨fun hq => absurd hq h, fun hq => by linarith⟩
  obtain ⟨z, hz1, hz2⟩ := segments_meet_either hab 0 1 ⟨le_refl _, by norm_num⟩
    ⟨by norm_num, le_refl _⟩
    (by rw [pointAt_zero]; exact ⟨ha, by linarith⟩)
    (by rw [pointAt_one]; exact ⟨by linarith, le_of_lt hb⟩) hs
  exact hno z hz2 hz1

theorem side_lowmid {a b p q : Vertex} (hpq : p.y < q.y)
    (hno : ∀ z, OnSegment a b z → OnSegment p q z → False)
    (ha : a.y ≤ p.y) (hb1 : p.y < b.y) (hb2 : b.y ≤ q.y) :
    0 < cross a b p ↔ cross p q b < 0 := by
  have hab : 0 < b.y - a.y := by linarith
  have habne : b.y - a.y ≠ 0 := ne_of_gt hab
  set tc := (p.y - a.y) / (b.y - a.y) with htc
  have htc0 : 0 ≤ tc := div_nonneg (by linarith) (le_of_lt hab)
  have htc1 : tc ≤ 1 := (div_le_one hab).mpr (by linarith)
  have hcy : (pointAt a b tc).y = p.y := by
    simp only [pointAt, htc]; field_simp
  have hrel : (b.y - a.y) * cross p q (pointAt a b tc) = -(q.y - p.y) * cross a b p := by
    simp only [cross, pointAt, htc]; field_simp; ring
  have hsign : 0 < cross a b p ↔ cross p q (pointAt a b tc) < 0 := by
    constructor
    · intro h
      by_contra h'
      push_neg at h'
      have := mul_nonneg (le_of_lt hab) h'
      have := mul_pos (by linarith : 0 < q.y - p.y) h
      linarith
    · intro h
      by_contra h'
      push_neg at h'
      have := mul_neg_of_pos_of_neg hab h
      have := mul_nonneg (by linarith : 0 ≤ q.y - p.y) (neg_nonneg.mpr h')
      linarith
  rw [hsign]
  by_contra hcon
  have hs : (cross p q (pointAt a b tc) ≤ 0 ∧ 0 ≤ cross p q (pointAt a b 1)) ∨
      (0 ≤ cross p q (pointAt a b tc) ∧ cross p q (pointAt a b 1) ≤ 0) := by
    rw [pointAt_one]
    by_cases h : cross p q (pointAt a b tc) < 0
    · left
      refine ⟨le_of_lt h, ?_⟩
      by_contra h'
      exact hcon ⟨fun _ => lt_of_not_ge h', fun _ => h⟩
    · right
      refine ⟨not_lt.mp h, ?_⟩
      by_contra h'
      push_neg at h'
      exact hcon ⟨fun hq => absurd hq h, fun hq => by linarith⟩
  obtain ⟨z, hz1, hz2⟩ := segments_meet_either hpq tc 1 ⟨htc0, htc1⟩
    ⟨by norm_num, le_refl _⟩
    (by rw [hcy]; exact ⟨le_refl _, le_of_lt hpq⟩)
    (by rw [pointAt_one]; exact ⟨le_of_lt hb1, hb2⟩) hs
  exact hno z hz1 hz2

theorem side_midhigh {a b p q : Vertex} (hpq : p.y < q.y)
    (hno : ∀ z, OnSegment a b z → OnSegment p q z → False)
    (ha1 : p.y < a.y) (ha2 : a.y ≤ q.y) (hb : q.y < b.y) :
    0 < cross a b q ↔ cross p q a < 0 := by
  have hab : 0 < b.y - a.y := by linarith
  have habne : b.y - a.y ≠ 0 := ne_of_gt hab
  set tc := (q.y - a.y) / (b.y - a.y) with htc
  have htc0 : 0 ≤ tc := div_nonneg (by linarith) (le_of_lt hab)
  have htc1 : tc ≤ 1 := (div_le_one hab).mpr (by linarith)
  have hcy : (pointAt a b tc).y = q.y := by
    simp only [pointAt, htc]; field_simp
  have hrel : (b.y - a.y) * cross p q (pointAt a b tc) = -(q.y - p.y) * cross a b q := by
    simp only [cross, pointAt, htc]; field_simp; ring
  have hsign : 0 < cross a b q ↔ cross p q (pointAt a b tc) < 0 := by
    constructor
    · intro h
      by_contra h'
      push_neg at h'
      have := mul_nonneg (le_of_lt hab) h'
      have := mul_pos (by linarith : 0 < q.y - p.y) h
      linarith
    · intro h
      by_contra h'
      push_neg at h'
      have := mul_neg_of_pos_of_neg hab h
      have := mul_nonneg (by linarith : 0 ≤ q.y - p.y) (neg_nonneg.mpr h')
      linarith
  rw [hsign]
  by_contra hcon
  have hs : (cross p q (pointAt a b 0) ≤ 0 ∧ 0 ≤ cross p q (pointAt a b tc)) ∨
      (0 ≤ cross p q (pointAt a b 0) ∧ cross p q (pointAt a b tc) ≤ 0) := by
    rw [pointAt_zero]
    by_cases h : cross p q (pointAt a b tc) < 0
    · right
      refine ⟨?_, le_of_lt h⟩
      by_contra h'
      push_neg at h'
      exact hcon ⟨fun _ => h', fun _ => h⟩
    · left
      refine ⟨?_, not_lt.mp h⟩
      by_contra h'
      push_neg at h'
      exact hcon ⟨fun hq => absurd hq h, fun hq => by linarith⟩
  obtain ⟨z, hz1, hz2⟩ := segments_meet_either hpq 0 tc ⟨le_refl _, by norm_num⟩
    ⟨htc0, htc1⟩
    (by rw [pointAt_zero]; exact ⟨le_of_lt ha1, ha2⟩)
    (by rw [hcy]; exact ⟨le_of_lt hpq, le_refl _⟩) hs
  exact hno z hz1 hz2

theorem windingEdge_up {a b : Vertex} (hab : a.y ≤ b.y) (z : Vertex) :
    windingEdge a b z = if a.y ≤ z.y ∧ z.y < b.y ∧ 0 < cross a b z then 1 else 0 := by
  unfold windingEdge
  have : ¬ (b.y ≤ z.y ∧ z.y < a.y ∧ cross a b z < 0) := by
    rintro ⟨h1, h2, -⟩; linarith
  rw [if_neg this]

theorem ite_int_eq_iff {P Q : Prop} [Decidable P] [Decidable Q] (h : P ↔ Q) :
    (if P then (1 : ℤ) else 0) = if Q then 1 else 0 := by
  by_cases hp : P
  · rw [if_pos hp, if_pos (h.mp hp)]
  · rw [if_neg hp, if_neg (fun hq => hp (h.mpr hq))]

/-- An upward or horizontal edge that does not meet the upward segment from `p` to `q`
crosses the row of `p` to the right of `p` and the row of `q` to the right of `q` as often
as it enters the region to the right of the segment. -/
theorem windingEdge_sub_up {a b p q : Vertex} (hab : a.y ≤ b.y) (hpq : p.y < q.y)
    (hno : ∀ z, OnSegment a b z → OnSegment p q z → False) :
    windingEdge a b p - windingEdge a b q = chi p q b - chi p q a := by
  rw [windingEdge_up hab, windingEdge_up hab]
  unfold chi
  rcases le_or_lt a.y p.y with ha | ha
  · have hca : ¬ (p.y < a.y ∧ a.y ≤ q.y ∧ cross p q a < 0) := fun h => by linarith [h.1]
    rw [if_neg hca]
    rcases le_or_lt b.y p.y with hb | hb
    · rw [if_neg (fun h => by linarith [h.2.1]), if_neg (fun h => by linarith [h.2.1]),
        if_neg (fun h => by linarith [h.1])]
    · rcases le_or_lt b.y q.y with hb2 | hb2
      · rw [if_neg (fun h : a.y ≤ q.y ∧ q.y < b.y ∧ 0 < cross a b q => by linarith [h.2.1])]
        have hk := side_lowmid hpq hno ha hb hb2
        have : (if a.y ≤ p.y ∧ p.y < b.y ∧ 0 < cross a b p then (1 : ℤ) else 0)
            = if p.y < b.y ∧ b.y ≤ q.y ∧ cross p q b < 0 then 1 else 0 :=
          ite_int_eq_iff ⟨fun h => ⟨hb, hb2, hk.mp h.2.2⟩, fun h => ⟨ha, hb, hk.mpr h.2.2⟩⟩
        rw [this]
      · rw [if_neg (fun h : p.y < b.y ∧ b.y ≤ q.y ∧ cross p q b < 0 => by linarith [h.2.1])]
        have hk := side_lowhigh hpq hno ha hb2
        have : (if a.y ≤ p.y ∧ p.y < b.y ∧ 0 < cross a b p then (1 : ℤ) else 0)
            = if a.y ≤ q.y ∧ q.y < b.y ∧ 0 < cross a b q then 1 else 0 :=
          ite_int_eq_iff ⟨fun h => ⟨by linarith, hb2, hk.mp h.2.2⟩,
            fun h => ⟨ha, hb, hk.mpr h.2.2⟩⟩
        rw [this]; ring
  · rw [if_neg (fun h : a.y ≤ p.y ∧ p.y < b.y ∧ 0 < cross a b p => by linarith [h.1])]
    rcases le_or_lt a.y q.y with ha2 | ha2
    · rcases le_or_lt b.y q.y with hb2 | hb2
      · rw [if_neg (fun h : a.y ≤ q.y ∧ q.y < b.y ∧ 0 < cross a b q => by linarith [h.2.1])]
        have hk := side_midmid hpq hno ha ha2 (by linarith) hb2
        have : (if p.y < a.y ∧ a.y ≤ q.y ∧ cross p q a < 0 then (1 : ℤ) else 0)
            = if p.y < b.y ∧ b.y ≤ q.y ∧ cross p q b < 0 then 1 else 0 :=
          ite_int_eq_iff ⟨fun h => ⟨by linarith, hb2, hk.mp h.2.2⟩,
            fun h => ⟨ha, ha2, hk.mpr h.2.2⟩⟩
        rw [this]; ring
      · rw [if_neg (fun h : p.y < b.y ∧ b.y ≤ q.y ∧ cross p q b < 0 => by linarith [h.2.1])]
        have hk := side_midhigh hpq hno ha ha2 hb2
        have : (if a.y ≤ q.y ∧ q.y < b.y ∧ 0 < cross a b q then (1 : ℤ) else 0)
            = if p.y < a.y ∧ a.y ≤ q.y ∧ cross p q a < 0 then 1 else 0 :=
          ite_int_eq_iff ⟨fun h => ⟨ha, ha2, hk.mp h.2.2⟩,
            fun h => ⟨ha2, hb2, hk.mpr h.2.2⟩⟩
        rw [this]
    · rw [if_neg (fun h : a.y ≤ q.y ∧ q.y < b.y ∧ 0 < cross a b q => by linarith [h.1]),
        if_neg (fun h : p.y < b.y ∧ b.y ≤ q.y ∧ cross p q b < 0 => by linarith [h.2.1]),
        if_neg (fun h : p.y < a.y ∧ a.y ≤ q.y ∧ cross p q a < 0 => by linarith [h.2.1])]

/-- Any edge that does not meet the upward segment from `p` to `q`. -/
theorem windingEdge_sub {a b p q : Vertex} (hpq : p.y < q.y)
    (hno : ∀ z, OnSegment a b z → OnSegment p q z → False) :
    windingEdge a b p - windingEdge a b q = chi p q b - chi p q a := by
  rcases le_total a.y b.y with hab | hab
  · exact windingEdge_sub_up hab hpq hno
  · have := windingEdge_sub_up hab hpq (fun z h1 h2 => hno z (onSegment_symm h1) h2)
    rw [windingEdge_swap a b p, windingEdge_swap a b q] at this
    linarith

/-- An edge that does not meet the horizontal segment from `p` to `q` crosses their row
on the same side of both. -/
theorem windingEdge_eq_of_row {a b p q : Vertex} (hy : p.y = q.y)
    (hno : ∀ z, OnSegment a b z → OnSegment p q z → False) :
    windingEdge a b p = windingEdge a b q := by
  have key : ∀ a b : Vertex, a.y ≤ b.y →
      (∀ z, OnSegment a b z → OnSegment p q z → False) →
      windingEdge a b p = windingEdge a b q := by
    intro a b hab hno
    rw [windingEdge_up hab, windingEdge_up hab]
    apply ite_int_eq_iff
    have hside : a.y ≤ p.y → p.y < b.y → (0 < cross a b p ↔ 0 < cross a b q) := by
      intro h1 h2
      by_contra hcon
      have hab' : a.y < b.y := by linarith
      have hs : (cross a b (pointAt p q 0) ≤ 0 ∧ 0 ≤ cross a b (pointAt p q 1)) ∨
          (0 ≤ cross a b (pointAt p q 0) ∧ cross a b (pointAt p q 1) ≤ 0) := by
        rw [pointAt_zero, pointAt_one]
        by_cases h : 0 < cross a b p
        · right
          refine ⟨le_of_lt h, ?_⟩
          by_contra h'
          push_neg at h'
          exact hcon ⟨fun _ => h', fun _ => h⟩
        · left
          refine ⟨not_lt.mp h, ?_⟩
          by_contra h'
          push_neg at h'
          exact hcon ⟨fun hq => absurd hq h, fun hq => by linarith⟩
      obtain ⟨z, hz1, hz2⟩ := segments_meet_either hab' 0 1
        ⟨le_refl _, by norm_num⟩ ⟨by norm_num, le_refl _⟩
        (by rw [pointAt_zero]; exact ⟨h1, le_of_lt h2⟩)
        (by rw [pointAt_one, ← hy]; exact ⟨h1, le_of_lt h2⟩) hs
      exact hno z hz2 hz1
    constructor
    · rintro ⟨h1, h2, h3⟩
      exact ⟨by rw [← hy]; exact h1, by rw [← hy]; exact h2, (hside h1 h2).mp h3⟩
    · rintro ⟨h1, h2, h3⟩
      rw [← hy] at h1 h2
      exact ⟨h1, h2, (hside h1 h2).mpr h3⟩
  rcases le_total a.y b.y with hab | hab
  · exact key a b hab hno
  · have := key b a hab (fun z h1 h2 => hno z (onSegment_symm h1) h2)
    rw [windingEdge_swap a b p, windingEdge_swap a b q] at this
    linarith

/-- An edge that does not meet the segment from `p` to `q` has no defect along it. -/
theorem tau_eq_zero {a b p q : Vertex}
    (hno : ∀ z, OnSegment a b z → OnSegment p q z → False) : tau a b p q = 0 := by
  unfold tau chiSigned
  rcases lt_trichotomy p.y q.y with h | h | h
  · simp only [if_pos h]
    have := windingEdge_sub h hno
    linarith
  · have h1 : ¬ p.y < q.y := by linarith
    have h2 : ¬ q.y < p.y := by linarith
    simp only [if_neg h1, if_neg h2]
    have := windingEdge_eq_of_row h hno
    linarith
  · have h1 : ¬ p.y < q.y := by linarith
    simp only [if_neg h1, if_pos h]
    have := windingEdge_sub h (fun z h1 h2 => hno z h1 (onSegment_symm h2))
    linarith

theorem cross_pointAt_self (a b : Vertex) (t : ℚ) : cross a b (pointAt a b t) = 0 := by
  simp only [cross, pointAt]; ring

theorem windingEdge_pointAt_self (a b : Vertex) (t : ℚ) :
    windingEdge a b (pointAt a b t) = 0 := by
  unfold windingEdge
  rw [cross_pointAt_self]
  simp

theorem chi_collinear (a b : Vertex) (t1 t2 t : ℚ) :
    chi (pointAt a b t1) (pointAt a b t2) (pointAt a b t) = 0 := by
  unfold chi
  have : cross (pointAt a b t1) (pointAt a b t2) (pointAt a b t) = 0 := by
    simp only [cross, pointAt]; ring
  rw [this]
  simp

theorem chiSigned_collinear (a b : Vertex) (t1 t2 t : ℚ) :
    chiSigned (pointAt a b t1) (pointAt a b t2) (pointAt a b t) = 0 := by
  unfold chiSigned
  simp only [chi_collinear]
  simp

/-- An edge has no defect along a segment of itself. -/
theorem tau_self (a b : Vertex) (t1 t2 : ℚ) :
    tau a b (pointAt a b t1) (pointAt a b t2) = 0 := by
  unfold tau
  have ha := chiSigned_collinear a b t1 t2 0
  have hb := chiSigned_collinear a b t1 t2 1
  rw [pointAt_zero] at ha
  rw [pointAt_one] at hb
  rw [windingEdge_pointAt_self, windingEdge_pointAt_self, ha, hb]
  ring

theorem list_sum_eq_single {α : Type} [DecidableEq α] {l : List α} (hl : l.Nodup) (F : α → ℤ)
    {e : α} (he : e ∈ l) (h0 : ∀ g ∈ l, g ≠ e → F g = 0) : (l.map F).sum = F e := by
  rw [← List.sum_toFinset F hl]
  exact Finset.sum_eq_single_of_mem e (List.mem_toFinset.mpr he)
    (fun g hg hne => h0 g (List.mem_toFinset.mp hg) hne)

theorem list_sum_eq_two {α : Type} [DecidableEq α] {l : List α} (hl : l.Nodup) (F : α → ℤ)
    {e1 e2 : α} (he1 : e1 ∈ l) (he2 : e2 ∈ l) (hne : e1 ≠ e2)
    (h0 : ∀ g ∈ l, g ≠ e1 → g ≠ e2 → F g = 0) : (l.map F).sum = F e1 + F e2 := by
  rw [← List.sum_toFinset F hl]
  exact Finset.sum_eq_add_of_mem e1 e2 (List.mem_toFinset.mpr he1) (List.mem_toFinset.mpr he2)
    hne (fun g hg hne' => h0 g (List.mem_toFinset.mp hg) hne'.1 hne'.2)

theorem polygonEdges_nodup {vs : List Vertex} (hnd : vs.Nodup) : (polygonEdges vs).Nodup :=
  List.Nodup.of_map Prod.fst (by rw [polygonEdges_map_fst]; exact hnd)

theorem pointAt_inj {a b : Vertex} (hab : a ≠ b) {t1 t2 : ℚ}
    (h : pointAt a b t1 = pointAt a b t2) : t1 = t2 := by
  simp only [pointAt, Vertex.mk.injEq] at h
  obtain ⟨hx, hy⟩ := h
  by_contra hne
  have hd : t1 - t2 ≠ 0 := sub_ne_zero.mpr hne
  have h1 : (t1 - t2) * (b.x - a.x) = 0 := by linarith
  have h2 : (t1 - t2) * (b.y - a.y) = 0 := by linarith
  have hx' : b.x - a.x = 0 := by
    rcases mul_eq_zero.mp h1 with h' | h'
    · exact absurd h' hd
    · exact h'
  have hy' : b.y - a.y = 0 := by
    rcases mul_eq_zero.mp h2 with h' | h'
    · exact absurd h' hd
    · exact h'
  apply hab
  cases a; cases b
  simp only [Vertex.mk.injEq]
  simp only at hx' hy'
  constructor <;> linarith

theorem onSegment_sub {a b : Vertex} {t1 t2 : ℚ} {z : Vertex}
    (h : OnSegment (pointAt a b t1) (pointAt a b t2) z) :
    ∃ t, min t1 t2 ≤ t ∧ t ≤ max t1 t2 ∧ z = pointAt a b t := by
  obtain ⟨s, hs0, hs1, rfl⟩ := (onSegment_iff _ _ _).mp h
  refine ⟨t1 + s * (t2 - t1), ?_, ?_, ?_⟩
  · rcases le_total t1 t2 with h12 | h12
    · rw [min_eq_left h12]; nlinarith
    · rw [min_eq_right h12]; nlinarith
  · rcases le_total t1 t2 with h12 | h12
    · rw [max_eq_right h12]; nlinarith
    · rw [max_eq_left h12]; nlinarith
  · simp only [pointAt, Vertex.mk.injEq]
    constructor <;> ring

/-- In a simple polygon another edge can meet the edge `e` only at an endpoint of `e`: at
its start, and then it is the edge that ends there, or at its end, and then it is the edge
that starts there. -/
theorem simple_meet {vs : List Vertex} (hs : SimplePolygon vs) {e g : Vertex × Vertex}
    (he : e ∈ polygonEdges vs) (hg : g ∈ polygonEdges vs) (hne : g ≠ e) {z : Vertex}
    (hz : OnSegment g.1 g.2 z) {t : ℚ} (ht0 : 0 ≤ t) (ht1 : t ≤ 1)
    (hzt : z = pointAt e.1 e.2 t) : (t = 0 ∧ g.2 = e.1) ∨ (t = 1 ∧ g.1 = e.2) := by
  have hee : e.1 ≠ e.2 := polygonEdges_ne hs.2.1 (by have := hs.1; omega) he
  have hze : OnSegment e.1 e.2 z := (onSegment_iff _ _ _).mpr ⟨t, ht0, ht1, hzt⟩
  rcases hs.2.2 g hg e he hne z hz hze with ⟨h1, h2⟩ | ⟨h1, h2⟩
  · left
    refine ⟨?_, h1⟩
    have : pointAt e.1 e.2 t = pointAt e.1 e.2 0 := by
      rw [pointAt_zero, ← hzt, h2, h1]
    exact pointAt_inj hee this
  · right
    refine ⟨?_, h1.symm⟩
    have : pointAt e.1 e.2 t = pointAt e.1 e.2 1 := by
      rw [pointAt_one, ← hzt, h2]
    exact pointAt_inj hee this

/-! ## Corners -/

theorem mid_y (a b : Vertex) : (pointAt a b (1 / 2)).y = (a.y + b.y) / 2 := by
  simp only [pointAt]; ring

theorem cross_self_third (p q : Vertex) : cross p q p = 0 := by
  simp only [cross]; ring

theorem cross_mid_out (u v w : Vertex) :
    cross u v (pointAt v w (1 / 2)) = cross u v w / 2 := by
  simp only [cross, pointAt]; ring

theorem cross_mid_out2 (u v w : Vertex) :
    cross v (pointAt v w (1 / 2)) u = cross u v w / 2 := by
  simp only [cross, pointAt]; ring

theorem cross_mid_out3 (u v w : Vertex) :
    cross (pointAt v w (1 / 2)) v u = -(cross u v w / 2) := by
  simp only [cross, pointAt]; ring

theorem cross_mid_in (u v w : Vertex) :
    cross v w (pointAt u v (1 / 2)) = cross u v w / 2 := by
  simp only [cross, pointAt]; ring

theorem cross_mid_in2 (u v w : Vertex) :
    cross (pointAt u v (1 / 2)) v w = cross u v w / 2 := by
  simp only [cross, pointAt]; ring

theorem cross_mid_in3 (u v w : Vertex) :
    cross v (pointAt u v (1 / 2)) w = -(cross u v w / 2) := by
  simp only [cross, pointAt]; ring

theorem windingEdge_of_up {a b p : Vertex} (h1 : a.y ≤ p.y) (h2 : p.y < b.y)
    (h3 : 0 < cross a b p) : windingEdge a b p = 1 := by
  unfold windingEdge
  rw [if_pos ⟨h1, h2, h3⟩]

theorem windingEdge_of_down {a b p : Vertex} (h1 : b.y ≤ p.y) (h2 : p.y < a.y)
    (h3 : cross a b p < 0) : windingEdge a b p = -1 := by
  unfold windingEdge
  rw [if_neg (fun h => by linarith [h.1]), if_pos ⟨h1, h2, h3⟩]

theorem windingEdge_of_not {a b p : Vertex}
    (h1 : ¬ (a.y ≤ p.y ∧ p.y < b.y ∧ 0 < cross a b p))
    (h2 : ¬ (b.y ≤ p.y ∧ p.y < a.y ∧ cross a b p < 0)) : windingEdge a b p = 0 := by
  unfold windingEdge
  rw [if_neg h1, if_neg h2]

theorem chiSigned_of_up {p q z : Vertex} (h : p.y < q.y) : chiSigned p q z = chi p q z := by
  unfold chiSigned
  rw [if_pos h]

theorem chiSigned_of_down {p q z : Vertex} (h : q.y < p.y) :
    chiSigned p q z = -chi q p z := by
  unfold chiSigned
  rw [if_neg (by linarith), if_pos h]

theorem chiSigned_of_eq {p q z : Vertex} (h : p.y = q.y) : chiSigned p q z = 0 := by
  unfold chiSigned
  rw [if_neg (by linarith), if_neg (by linarith)]

theorem chi_of_in {p q z : Vertex} (h1 : p.y < z.y) (h2 : z.y ≤ q.y) (h3 : cross p q z < 0) :
    chi p q z = 1 := by
  unfold chi
  rw [if_pos ⟨h1, h2, h3⟩]

theorem chi_of_not {p q z : Vertex} (h : ¬ (p.y < z.y ∧ z.y ≤ q.y ∧ cross p q z < 0)) :
    chi p q z = 0 := by
  unfold chi
  rw [if_neg h]

theorem chiSigned_first (p q : Vertex) : chiSigned p q p = 0 := by
  unfold chiSigned chi
  have h1 : cross p q p = 0 := cross_self_third p q
  have h2 : cross q p p = 0 := cross_self_right q p
  rw [h1, h2]
  simp

theorem chiSigned_second (p q : Vertex) : chiSigned p q q = 0 := by
  unfold chiSigned chi
  have h1 : cross p q q = 0 := cross_self_right p q
  have h2 : cross q p q = 0 := cross_self_third q p
  rw [h1, h2]
  simp

theorem windingEdge_end (a b : Vertex) : windingEdge a b b = 0 := by
  have := windingEdge_pointAt_self a b 1
  rwa [pointAt_one] at this

theorem windingEdge_start (a b : Vertex) : windingEdge a b a = 0 := by
  have := windingEdge_pointAt_self a b 0
  rwa [pointAt_zero] at this

/-- Defect of the incoming edge along the first half of the outgoing edge, when the
outgoing edge does not go down. -/
theorem beta_up (u v w : Vertex) (hw : v.y ≤ w.y) :
    tau u v v (pointAt v w (1 / 2)) = if v.y < u.y ∧ cross u v w < 0 then 1 else 0 := by
  have hm := mid_y v w
  have hmv : v.y ≤ (pointAt v w (1 / 2)).y := by rw [hm]; linarith
  unfold tau
  rw [windingEdge_end, chiSigned_first]
  by_cases hc : v.y < u.y ∧ cross u v w < 0
  · rw [if_pos hc]
    obtain ⟨hu, hK⟩ := hc
    by_cases hmu : (pointAt v w (1 / 2)).y < u.y
    · rw [windingEdge_of_down hmv hmu (by rw [cross_mid_out]; linarith)]
      have : chiSigned v (pointAt v w (1 / 2)) u = 0 := by
        rcases eq_or_lt_of_le hmv with h | h
        · exact chiSigned_of_eq h
        · rw [chiSigned_of_up h]
          exact chi_of_not (fun h' => by linarith [h'.2.1])
      rw [this]; ring
    · have hmu' : u.y ≤ (pointAt v w (1 / 2)).y := not_lt.mp hmu
      rw [windingEdge_of_not (fun h => by linarith [h.2.1]) (fun h => by linarith [h.2.1])]
      rw [chiSigned_of_up (by linarith), chi_of_in hu hmu' (by rw [cross_mid_out2]; linarith)]
      ring
  · rw [if_neg hc]
    have h1 : windingEdge u v (pointAt v w (1 / 2)) = 0 := by
      apply windingEdge_of_not
      · intro h; linarith [h.2.1]
      · rintro ⟨-, h2, h3⟩
        rw [cross_mid_out] at h3
        exact hc ⟨by linarith, by linarith⟩
    have h2 : chiSigned v (pointAt v w (1 / 2)) u = 0 := by
      rcases eq_or_lt_of_le hmv with h | h
      · exact chiSigned_of_eq h
      · rw [chiSigned_of_up h]
        apply chi_of_not
        rintro ⟨h1, -, h3⟩
        rw [cross_mid_out2] at h3
        exact hc ⟨h1, by linarith⟩
    rw [h1, h2]; ring

/-- Defect of the incoming edge along the first half of the outgoing edge, when the
outgoing edge goes down. -/
theorem beta_down (u v w : Vertex) (hw : w.y < v.y) :
    tau u v v (pointAt v w (1 / 2)) = if u.y ≤ v.y ∧ 0 < cross u v w then -1 else 0 := by
  have hm := mid_y v w
  have hmv : (pointAt v w (1 / 2)).y < v.y := by rw [hm]; linarith
  unfold tau
  rw [windingEdge_end, chiSigned_first, chiSigned_of_down hmv]
  by_cases hc : u.y ≤ v.y ∧ 0 < cross u v w
  · rw [if_pos hc]
    obtain ⟨hu, hK⟩ := hc
    by_cases hmu : u.y ≤ (pointAt v w (1 / 2)).y
    · rw [windingEdge_of_up hmu hmv (by rw [cross_mid_out]; linarith)]
      rw [chi_of_not (fun h' => by linarith [h'.1])]
      ring
    · have hmu' : (pointAt v w (1 / 2)).y < u.y := not_le.mp hmu
      rw [windingEdge_of_not (fun h => by linarith [h.1]) (fun h => by linarith [h.1])]
      rw [chi_of_in hmu' hu (by rw [cross_mid_out3]; linarith)]
      ring
  · rw [if_neg hc]
    have h1 : windingEdge u v (pointAt v w (1 / 2)) = 0 := by
      apply windingEdge_of_not
      · rintro ⟨h1, -, h3⟩
        rw [cross_mid_out] at h3
        exact hc ⟨by linarith, by linarith⟩
      · intro h; linarith [h.1]
    have h2 : chi (pointAt v w (1 / 2)) v u = 0 := by
      apply chi_of_not
      rintro ⟨-, h2, h3⟩
      rw [cross_mid_out3] at h3
      exact hc ⟨h2, by linarith⟩
    rw [h1, h2]; ring

/-- Defect of the outgoing edge along the second half of the incoming edge, when the
incoming edge goes up. -/
theorem alpha_up (u v w : Vertex) (hu : u.y < v.y) :
    tau v w (pointAt u v (1 / 2)) v = if w.y ≤ v.y ∧ cross u v w < 0 then -1 else 0 := by
  have hm := mid_y u v
  have hmv : (pointAt u v (1 / 2)).y < v.y := by rw [hm]; linarith
  unfold tau
  rw [windingEdge_start, chiSigned_second, chiSigned_of_up hmv]
  by_cases hc : w.y ≤ v.y ∧ cross u v w < 0
  · rw [if_pos hc]
    obtain ⟨hw, hK⟩ := hc
    by_cases hmw : w.y ≤ (pointAt u v (1 / 2)).y
    · rw [windingEdge_of_down hmw hmv (by rw [cross_mid_in]; linarith)]
      rw [chi_of_not (fun h' => by linarith [h'.1])]
      ring
    · have hmw' : (pointAt u v (1 / 2)).y < w.y := not_le.mp hmw
      rw [windingEdge_of_not (fun h => by linarith [h.1]) (fun h => by linarith [h.1])]
      rw [chi_of_in hmw' hw (by rw [cross_mid_in2]; linarith)]
      ring
  · rw [if_neg hc]
    have h1 : windingEdge v w (pointAt u v (1 / 2)) = 0 := by
      apply windingEdge_of_not
      · intro h; linarith [h.1]
      · rintro ⟨h1, -, h3⟩
        rw [cross_mid_in] at h3
        exact hc ⟨by linarith, by linarith⟩
    have h2 : chi (pointAt u v (1 / 2)) v w = 0 := by
      apply chi_of_not
      rintro ⟨-, h2, h3⟩
      rw [cross_mid_in2] at h3
      exact hc ⟨h2, by linarith⟩
    rw [h1, h2]; ring

/-- Defect of the outgoing edge along the second half of the incoming edge, when the
incoming edge does not go up. -/
theorem alpha_notup (u v w : Vertex) (hu : v.y ≤ u.y) :
    tau v w (pointAt u v (1 / 2)) v = if v.y < w.y ∧ 0 < cross u v w then 1 else 0 := by
  have hm := mid_y u v
  have hmv : v.y ≤ (pointAt u v (1 / 2)).y := by rw [hm]; linarith
  unfold tau
  rw [windingEdge_start, chiSigned_second]
  by_cases hc : v.y < w.y ∧ 0 < cross u v w
  · rw [if_pos hc]
    obtain ⟨hw, hK⟩ := hc
    by_cases hmw : (pointAt u v (1 / 2)).y < w.y
    · rw [windingEdge_of_up hmv hmw (by rw [cross_mid_in]; linarith)]
      have : chiSigned (pointAt u v (1 / 2)) v w = 0 := by
        rcases eq_or_lt_of_le hmv with h | h
        · exact chiSigned_of_eq h.symm
        · rw [chiSigned_of_down h]
          rw [chi_of_not (fun h' => by linarith [h'.2.1])]
          ring
      rw [this]; ring
    · have hmw' : w.y ≤ (pointAt u v (1 / 2)).y := not_lt.mp hmw
      rw [windingEdge_of_not (fun h => by linarith [h.2.1]) (fun h => by linarith [h.2.1])]
      rw [chiSigned_of_down (by linarith), chi_of_in hw hmw' (by rw [cross_mid_in3]; linarith)]
      ring
  · rw [if_neg hc]
    have h1 : windingEdge v w (pointAt u v (1 / 2)) = 0 := by
      apply windingEdge_of_not
      · rintro ⟨-, h2, h3⟩
        rw [cross_mid_in] at h3
        exact hc ⟨by linarith, by linarith⟩
      · intro h; linarith [h.2.1]
    have h2 : chiSigned (pointAt u v (1 / 2)) v w = 0 := by
      rcases eq_or_lt_of_le hmv with h | h
      · exact chiSigned_of_eq h.symm
      · rw [chiSigned_of_down h]
        have : chi v (pointAt u v (1 / 2)) w = 0 := by
          apply chi_of_not
          rintro ⟨h1, -, h3⟩
          rw [cross_mid_in3] at h3
          exact hc ⟨h1, by linarith⟩
        rw [this]; ring
    rw [h1, h2]; ring

/-! ### Walking along one edge -/

theorem tau_off_edge {vs : List Vertex} (hs : SimplePolygon vs) {e g : Vertex × Vertex}
    (he : e ∈ polygonEdges vs) (hg : g ∈ polygonEdges vs) (hne : g ≠ e) {t1 t2 : ℚ}
    (h1 : 0 ≤ t1 ∧ t1 ≤ 1) (h2 : 0 ≤ t2 ∧ t2 ≤ 1)
    (h0 : g.2 = e.1 → 0 < t1 ∧ 0 < t2) (h0' : g.1 = e.2 → t1 < 1 ∧ t2 < 1) :
    tau g.1 g.2 (pointAt e.1 e.2 t1) (pointAt e.1 e.2 t2) = 0 := by
  apply tau_eq_zero
  intro z hz hz'
  obtain ⟨t, hmin, hmax, hzt⟩ := onSegment_sub hz'
  have ht0 : 0 ≤ t := le_trans (le_min h1.1 h2.1) hmin
  have ht1 : t ≤ 1 := le_trans hmax (max_le h1.2 h2.2)
  rcases simple_meet hs he hg hne hz ht0 ht1 hzt with ⟨h, hge⟩ | ⟨h, hge⟩
  · obtain ⟨ha, hb⟩ := h0 hge
    have : 0 < min t1 t2 := lt_min ha hb
    linarith
  · obtain ⟨ha, hb⟩ := h0' hge
    have : max t1 t2 < 1 := max_lt ha hb
    linarith

/-- The winding number is the same at all points strictly inside one edge. -/
theorem winding_inside_edge {vs : List Vertex} (hs : SimplePolygon vs) {e : Vertex × Vertex}
    (he : e ∈ polygonEdges vs) (t1 t2 : ℚ) (h1 : 0 < t1 ∧ t1 < 1) (h2 : 0 < t2 ∧ t2 < 1) :
    windingNumber (pointAt e.1 e.2 t1) vs = windingNumber (pointAt e.1 e.2 t2) vs := by
  have h := windingNumber_sub vs (pointAt e.1 e.2 t1) (pointAt e.1 e.2 t2)
  rw [list_sum_eq_single (polygonEdges_nodup hs.2.1)
    (fun g => tau g.1 g.2 (pointAt e.1 e.2 t1) (pointAt e.1 e.2 t2)) he
    (fun g hg hne => tau_off_edge hs he hg hne ⟨le_of_lt h1.1, le_of_lt h1.2⟩
      ⟨le_of_lt h2.1, le_of_lt h2.2⟩ (fun _ => ⟨h1.1, h2.1⟩) (fun _ => ⟨h1.2, h2.2⟩))] at h
  rw [tau_self] at h
  linarith

theorem consecutive_ne {vs : List Vertex} (hs : SimplePolygon vs) {u v w : Vertex}
    (h1 : (u, v) ∈ polygonEdges vs) (_h2 : (v, w) ∈ polygonEdges vs) :
    ((u, v) : Vertex × Vertex) ≠ (v, w) := by
  intro h
  have huv : u ≠ v := polygonEdges_ne hs.2.1 (by have := hs.1; omega) h1
  exact huv (congrArg Prod.fst h)

/-- From a vertex to the middle of the outgoing edge, only the incoming edge changes its
contribution. -/
theorem winding_vertex_out {vs : List Vertex} (hs : SimplePolygon vs) {u v w : Vertex}
    (h1 : (u, v) ∈ polygonEdges vs) (h2 : (v, w) ∈ polygonEdges vs) :
    windingNumber v vs - windingNumber (pointAt v w (1 / 2)) vs
      = tau u v v (pointAt v w (1 / 2)) := by
  have h := windingNumber_sub vs (pointAt v w 0) (pointAt v w (1 / 2))
  have hz : ∀ g ∈ polygonEdges vs, g ≠ (u, v) → g ≠ (v, w) →
      tau g.1 g.2 (pointAt v w 0) (pointAt v w (1 / 2)) = 0 := by
    intro g hg hgu hgv
    refine tau_off_edge hs (e := (v, w)) h2 hg hgv ⟨le_refl _, by norm_num⟩
      ⟨by norm_num, by norm_num⟩ ?_ (fun _ => ⟨by norm_num, by norm_num⟩)
    intro hge
    exact absurd (polygonEdges_snd_inj hs.2.1 hg h1 hge) hgu
  rw [list_sum_eq_two (polygonEdges_nodup hs.2.1)
    (fun g => tau g.1 g.2 (pointAt v w 0) (pointAt v w (1 / 2))) h1 h2
    (consecutive_ne hs h1 h2) hz] at h
  have t0 := tau_self v w 0 (1 / 2)
  simp only [pointAt_zero] at h t0
  rw [t0, add_zero] at h
  exact h

/-- From the middle of the incoming edge to a vertex, only the outgoing edge changes its
contribution. -/
theorem winding_vertex_in {vs : List Vertex} (hs : SimplePolygon vs) {u v w : Vertex}
    (h1 : (u, v) ∈ polygonEdges vs) (h2 : (v, w) ∈ polygonEdges vs) :
    windingNumber (pointAt u v (1 / 2)) vs - windingNumber v vs
      = tau v w (pointAt u v (1 / 2)) v := by
  have h := windingNumber_sub vs (pointAt u v (1 / 2)) (pointAt u v 1)
  have hz : ∀ g ∈ polygonEdges vs, g ≠ (u, v) → g ≠ (v, w) →
      tau g.1 g.2 (pointAt u v (1 / 2)) (pointAt u v 1) = 0 := by
    intro g hg hgu hgv
    refine tau_off_edge hs (e := (u, v)) h1 hg hgu ⟨by norm_num, by norm_num⟩
      ⟨by norm_num, le_refl _⟩ (fun _ => ⟨by norm_num, by norm_num⟩) ?_
    intro hge
    exact absurd (polygonEdges_fst_inj hs.2.1 hg h2 hge) hgv
  rw [list_sum_eq_two (polygonEdges_nodup hs.2.1)
    (fun g => tau g.1 g.2 (pointAt u v (1 / 2)) (pointAt u v 1)) h1 h2
    (consecutive_ne hs h1 h2) hz] at h
  have t0 := tau_self u v (1 / 2) 1
  simp only [pointAt_one] at h t0
  rw [t0, zero_add] at h
  exact h

/-! ### Turning a corner -/

theorem vertex_eq_of {a b : Vertex} (hx : a.x = b.x) (hy : a.y = b.y) : a = b := by
  cases a; cases b; simp_all

theorem kappa_up {a b : Vertex} (h : a.y < b.y) : kappa a b = 1 := by
  unfold kappa
  rw [if_pos (Or.inl h)]

theorem kappa_down {a b : Vertex} (h : b.y < a.y) : kappa a b = 0 := by
  unfold kappa
  rw [if_neg]
  rintro (h' | ⟨h', -⟩) <;> linarith

theorem kappa_horiz {a b : Vertex} (h : a.y = b.y) :
    kappa a b = if b.x < a.x then 1 else 0 := by
  unfold kappa
  by_cases hx : b.x < a.x
  · rw [if_pos (Or.inr ⟨h, hx⟩), if_pos hx]
  · rw [if_neg, if_neg hx]
    rintro (h' | ⟨-, h'⟩)
    · linarith
    · exact hx h'

theorem spike_pos {a b c d : ℚ} (hK : b * c - a * d = 0) (hbd : 0 < b * d) :
    0 < a * c + b * d := by
  have e : (a * c + b * d) * (b * d) = (a * d) ^ 2 + (b * d) ^ 2 := by
    linear_combination (a * d) * hK
  by_contra hneg
  have h1 : (a * c + b * d) * (b * d) ≤ 0 :=
    mul_nonpos_of_nonpos_of_nonneg (not_lt.mp hneg) (le_of_lt hbd)
  have h2 : 0 < (b * d) ^ 2 := by positivity
  nlinarith [sq_nonneg (a * d)]

/-- Two consecutive edges of a simple polygon do not fold back onto each other. -/
theorem no_spike {vs : List Vertex} (hs : SimplePolygon vs) {u v w : Vertex}
    (h1 : (u, v) ∈ polygonEdges vs) (h2 : (v, w) ∈ polygonEdges vs)
    (hK : cross u v w = 0) :
    (u.x - v.x) * (w.x - v.x) + (u.y - v.y) * (w.y - v.y) ≤ 0 := by
  by_contra hD
  have hD : 0 < (u.x - v.x) * (w.x - v.x) + (u.y - v.y) * (w.y - v.y) := not_le.mp hD
  have huv : u ≠ v := polygonEdges_ne hs.2.1 (by have := hs.1; omega) h1
  have hA : 0 < (u.x - v.x) ^ 2 + (u.y - v.y) ^ 2 := by
    by_contra hA
    have hx : u.x - v.x = 0 := by nlinarith [sq_nonneg (u.x - v.x), sq_nonneg (u.y - v.y)]
    have hy : u.y - v.y = 0 := by nlinarith [sq_nonneg (u.x - v.x), sq_nonneg (u.y - v.y)]
    exact huv (vertex_eq_of (by linarith) (by linarith))
  simp only [cross] at hK
  obtain ⟨lam, hlam, hcx, hcy⟩ : ∃ lam : ℚ, 0 < lam ∧ w.x - v.x = lam * (u.x - v.x) ∧
      w.y - v.y = lam * (u.y - v.y) := by
    refine ⟨((u.x - v.x) * (w.x - v.x) + (u.y - v.y) * (w.y - v.y)) /
      ((u.x - v.x) ^ 2 + (u.y - v.y) ^ 2), div_pos hD hA, ?_, ?_⟩
    · rw [div_mul_eq_mul_div, eq_div_iff (ne_of_gt hA)]
      linear_combination (u.y - v.y) * hK
    · rw [div_mul_eq_mul_div, eq_div_iff (ne_of_gt hA)]
      linear_combination (-(u.x - v.x)) * hK
  rcases le_or_lt lam 1 with hl | hl
  · have hz : OnSegment u v (pointAt v w (1 / 2)) := by
      refine ⟨1 - lam / 2, by linarith, by linarith, ?_, ?_⟩
      · simp only [pointAt]; linear_combination (1 / 2) * hcx
      · simp only [pointAt]; linear_combination (1 / 2) * hcy
    rcases simple_meet hs (e := (v, w)) (g := (u, v)) h2 h1 (consecutive_ne hs h1 h2) hz
      (t := 1 / 2) (by norm_num) (by norm_num) rfl with ⟨h, -⟩ | ⟨h, -⟩ <;> norm_num at h
  · have hz : OnSegment v w (pointAt u v (1 / 2)) := by
      refine ⟨1 / (2 * lam), by positivity, ?_, ?_, ?_⟩
      · rw [div_le_one (by positivity)]; linarith
      · simp only [pointAt]
        have : 1 / (2 * lam) * (w.x - v.x) = (u.x - v.x) / 2 := by
          rw [hcx]; field_simp; ring
        linear_combination -this
      · simp only [pointAt]
        have : 1 / (2 * lam) * (w.y - v.y) = (u.y - v.y) / 2 := by
          rw [hcy]; field_simp; ring
        linear_combination -this
    rcases simple_meet hs (e := (u, v)) (g := (v, w)) h1 h2
      (Ne.symm (consecutive_ne hs h1 h2)) hz
      (t := 1 / 2) (by norm_num) (by norm_num) rfl with ⟨h, -⟩ | ⟨h, -⟩ <;> norm_num at h

theorem corner_defect {u v w : Vertex} (huv : u ≠ v) (hvw : v ≠ w)
    (hsp : cross u v w = 0 →
      (u.x - v.x) * (w.x - v.x) + (u.y - v.y) * (w.y - v.y) ≤ 0) :
    tau v w (pointAt u v (1 / 2)) v + tau u v v (pointAt v w (1 / 2))
      = kappa v w - kappa u v := by
  have hKdef : cross u v w = (u.y - v.y) * (w.x - v.x) - (u.x - v.x) * (w.y - v.y) := by
    simp only [cross]; ring
  have hK0 : 0 < (u.y - v.y) * (w.y - v.y) → cross u v w ≠ 0 := by
    intro hbd hK
    have := spike_pos (a := u.x - v.x) (b := u.y - v.y) (c := w.x - v.x) (d := w.y - v.y)
      (by rw [← hKdef]; exact hK) hbd
    linarith [hsp hK]
  rcases lt_trichotomy u.y v.y with h1 | h1 | h1
  · rcases lt_trichotomy v.y w.y with h2 | h2 | h2
    · rw [beta_up u v w (le_of_lt h2), if_neg (fun h => by linarith [h.1]),
        alpha_up u v w h1, if_neg (fun h => by linarith [h.1]), kappa_up h1, kappa_up h2]
      norm_num
    · have hK : cross u v w = (u.y - v.y) * (w.x - v.x) := by rw [hKdef, h2]; ring
      have hx : w.x ≠ v.x := fun h => hvw (vertex_eq_of h.symm h2)
      rw [beta_up u v w (le_of_eq h2), if_neg (fun h => by linarith [h.1]), alpha_up u v w h1]
      rcases lt_or_gt_of_ne hx with hx | hx
      · have : 0 < cross u v w := by rw [hK]; nlinarith
        rw [if_neg (fun h => by linarith [h.2]), kappa_up h1, kappa_horiz h2, if_pos hx]
        norm_num
      · have : cross u v w < 0 := by rw [hK]; nlinarith
        rw [if_pos ⟨le_of_eq h2.symm, this⟩, kappa_up h1, kappa_horiz h2,
          if_neg (by linarith)]
        norm_num
    · rw [beta_down u v w h2]
      rcases lt_or_gt_of_ne (hK0 (by nlinarith)) with hK | hK
      · rw [if_neg (fun h => by linarith [h.2]), alpha_up u v w h1,
          if_pos ⟨le_of_lt h2, hK⟩, kappa_up h1, kappa_down h2]
        norm_num
      · rw [if_pos ⟨le_of_lt h1, hK⟩, alpha_up u v w h1,
          if_neg (fun h => by linarith [h.2]), kappa_up h1, kappa_down h2]
        norm_num
  · have hx : u.x ≠ v.x := fun h => huv (vertex_eq_of h h1)
    rcases lt_trichotomy v.y w.y with h2 | h2 | h2
    · have hK : cross u v w = -((u.x - v.x) * (w.y - v.y)) := by rw [hKdef, h1]; ring
      rw [beta_up u v w (le_of_lt h2), if_neg (fun h => by linarith [h.1]),
        alpha_notup u v w (le_of_eq h1.symm)]
      rcases lt_or_gt_of_ne hx with hx | hx
      · have : 0 < cross u v w := by rw [hK]; nlinarith
        rw [if_pos ⟨h2, this⟩, kappa_up h2, kappa_horiz h1, if_neg (by linarith)]
        norm_num
      · have : cross u v w < 0 := by rw [hK]; nlinarith
        rw [if_neg (fun h => by linarith [h.2]), kappa_up h2, kappa_horiz h1, if_pos hx]
        norm_num
    · rw [beta_up u v w (le_of_eq h2), if_neg (fun h => by linarith [h.1]),
        alpha_notup u v w (le_of_eq h1.symm), if_neg (fun h => by linarith [h.1])]
      have hK : cross u v w = 0 := by rw [hKdef, h1, ← h2]; ring
      have hD := hsp hK
      have hx' : w.x ≠ v.x := fun h => hvw (vertex_eq_of h.symm h2)
      have hy0 : (u.y - v.y) * (w.y - v.y) = 0 := by rw [h1]; ring
      rw [hy0, add_zero] at hD
      rcases lt_or_gt_of_ne hx with hx | hx
      · have hw : v.x < w.x := by
          rcases lt_or_gt_of_ne hx' with h | h
          · nlinarith
          · exact h
        rw [kappa_horiz h2, if_neg (by linarith), kappa_horiz h1, if_neg (by linarith)]
        norm_num
      · have hw : w.x < v.x := by
          rcases lt_or_gt_of_ne hx' with h | h
          · exact h
          · nlinarith
        rw [kappa_horiz h2, if_pos hw, kappa_horiz h1, if_pos hx]
        norm_num
    · have hK : cross u v w = -((u.x - v.x) * (w.y - v.y)) := by rw [hKdef, h1]; ring
      rw [beta_down u v w h2]
      rcases lt_or_gt_of_ne hx with hx | hx
      · have : cross u v w < 0 := by rw [hK]; nlinarith
        rw [if_neg (fun h => by linarith [h.2]), alpha_notup u v w (le_of_eq h1.symm),
          if_neg (fun h => by linarith [h.1]), kappa_down h2, kappa_horiz h1,
          if_neg (by linarith)]
        norm_num
      · have : 0 < cross u v w := by rw [hK]; nlinarith
        rw [if_pos ⟨le_of_eq h1, this⟩, alpha_notup u v w (le_of_eq h1.symm),
          if_neg (fun h => by linarith [h.1]), kappa_down h2, kappa_horiz h1, if_pos hx]
        norm_num
  · rcases lt_trichotomy v.y w.y with h2 | h2 | h2
    · rw [beta_up u v w (le_of_lt h2)]
      rcases lt_or_gt_of_ne (hK0 (by nlinarith)) with hK | hK
      · rw [if_pos ⟨h1, hK⟩, alpha_notup u v w (le_of_lt h1),
          if_neg (fun h => by linarith [h.2]), kappa_up h2, kappa_down h1]
        norm_num
      · rw [if_neg (fun h => by linarith [h.2]), alpha_notup u v w (le_of_lt h1),
          if_pos ⟨h2, hK⟩, kappa_up h2, kappa_down h1]
        norm_num
    · have hK : cross u v w = (u.y - v.y) * (w.x - v.x) := by rw [hKdef, h2]; ring
      have hx : w.x ≠ v.x := fun h => hvw (vertex_eq_of h.symm h2)
      rw [beta_up u v w (le_of_eq h2)]
      rcases lt_or_gt_of_ne hx with hx | hx
      · have : cross u v w < 0 := by rw [hK]; nlinarith
        rw [if_pos ⟨h1, this⟩, alpha_notup u v w (le_of_lt h1),
          if_neg (fun h => by linarith [h.1]), kappa_horiz h2, if_pos hx, kappa_down h1]
        norm_num
      · have : 0 < cross u v w := by rw [hK]; nlinarith
        rw [if_neg (fun h => by linarith [h.2]), alpha_notup u v w (le_of_lt h1),
          if_neg (fun h => by linarith [h.1]), kappa_horiz h2, if_neg (by linarith),
          kappa_down h1]
        norm_num
    · rw [beta_down u v w h2, if_neg (fun h => by linarith [h.1]),
        alpha_notup u v w (le_of_lt h1), if_neg (fun h => by linarith [h.1]),
        kappa_down h2, kappa_down h1]
      norm_num

/-- Around a corner of a simple polygon the winding number at the middle of an edge, shifted
by the side index of the edge, does not change. -/
theorem corner_invariant {vs : List Vertex} (hs : SimplePolygon vs) {u v w : Vertex}
    (h1 : (u, v) ∈ polygonEdges vs) (h2 : (v, w) ∈ polygonEdges vs) :
    windingNumber (pointAt u v (1 / 2)) vs + kappa u v
      = windingNumber (pointAt v w (1 / 2)) vs + kappa v w := by
  have hlen : 2 ≤ vs.length := by have := hs.1; omega
  have a := winding_vertex_in hs h1 h2
  have b := winding_vertex_out hs h1 h2
  have c := corner_defect (polygonEdges_ne hs.2.1 hlen h1) (polygonEdges_ne hs.2.1 hlen h2)
    (no_spike hs h1 h2)
  linarith

/-! ### All the way round -/

theorem edges_invariant (vs : List Vertex) (G : Vertex × Vertex → ℤ)
    (hG : ∀ u v w, (u, v) ∈ polygonEdges vs → (v, w) ∈ polygonEdges vs → G (u, v) = G (v, w))
    {e f : Vertex × Vertex} (he : e ∈ polygonEdges vs) (hf : f ∈ polygonEdges vs) :
    G e = G f := by
  have key : ∀ i, i < vs.length →
      G (vs.getD i default, vs.getD ((i + 1) % vs.length) default)
        = G (vs.getD 0 default, vs.getD (1 % vs.length) default) := by
    intro i
    induction i with
    | zero => intro _; rfl
    | succ k ih =>
      intro hk
      have hk' : k < vs.length := by omega
      rw [← ih hk']
      have hmod : (k + 1) % vs.length = k + 1 := Nat.mod_eq_of_lt hk
      have e1 : (vs.getD k default, vs.getD (k + 1) default) ∈ polygonEdges vs :=
        (mem_polygonEdges_iff vs _).mpr ⟨k, hk', by rw [hmod]⟩
      have e2 : (vs.getD (k + 1) default, vs.getD ((k + 1 + 1) % vs.length) default)
          ∈ polygonEdges vs := (mem_polygonEdges_iff vs _).mpr ⟨k + 1, hk, rfl⟩
      rw [hmod]
      exact (hG _ _ _ e1 e2).symm
  obtain ⟨i, hi, rfl⟩ := (mem_polygonEdges_iff vs e).mp he
  obtain ⟨j, hj, rfl⟩ := (mem_polygonEdges_iff vs f).mp hf
  rw [key i hi, key j hj]

/-- The winding number at the middle of an edge plus the side index of that edge is the same
for all edges of a simple polygon. -/
theorem level_const {vs : List Vertex} (hs : SimplePolygon vs) {e f : Vertex × Vertex}
    (he : e ∈ polygonEdges vs) (hf : f ∈ polygonEdges vs) :
    windingNumber (pointAt e.1 e.2 (1 / 2)) vs + kappa e.1 e.2
      = windingNumber (pointAt f.1 f.2 (1 / 2)) vs + kappa f.1 f.2 :=
  edges_invariant vs (fun g => windingNumber (pointAt g.1 g.2 (1 / 2)) vs + kappa g.1 g.2)
    (fun _ _ _ h1 h2 => corner_invariant hs h1 h2) he hf

theorem polygonEdges_exists_pred {vs : List Vertex} {m : Vertex} (hm : m ∈ vs) :
    ∃ q, (q, m) ∈ polygonEdges vs := by
  have hm' : m ∈ vs.rotate 1 := List.mem_rotate.mpr hm
  rw [← polygonEdges_map_snd vs] at hm'
  obtain ⟨e, he, rfl⟩ := List.mem_map.mp hm'
  exact ⟨e.1, he⟩

/-! ### Along a row -/

theorem straddles_iff (a b : Vertex) (y : ℚ) :
    straddles a b y = true ↔ (a.y ≤ y ∧ y < b.y) ∨ (b.y ≤ y ∧ y < a.y) := by
  unfold straddles
  by_cases ha : a.y > y <;> by_cases hb : b.y > y <;> simp [ha, hb]
  all_goals first
    | exact not_lt.mp hb
    | exact not_lt.mp ha

theorem crossingX_sub {a b : Vertex} (p : Vertex) (h : a.y ≠ b.y) :
    crossingX a b p.y - p.x = cross a b p / (b.y - a.y) := by
  have hne : b.y - a.y ≠ 0 := sub_ne_zero.mpr (Ne.symm h)
  unfold crossingX cross
  field_simp
  ring

theorem left_iff_cross_pos {a b : Vertex} (p : Vertex) (h : a.y < b.y) :
    p.x < crossingX a b p.y ↔ 0 < cross a b p := by
  rw [← sub_pos, crossingX_sub p (ne_of_lt h)]
  exact div_pos_iff_of_pos_right (by linarith)

theorem left_iff_cross_neg {a b : Vertex} (p : Vertex) (h : b.y < a.y) :
    p.x < crossingX a b p.y ↔ cross a b p < 0 := by
  rw [← sub_pos, crossingX_sub p (ne_of_gt h), ← neg_div_neg_eq]
  rw [div_pos_iff_of_pos_right (by linarith)]
  exact neg_pos

/-- The contribution of an edge to the winding number, read off the crossing of the edge
with the row of the point. -/
theorem windingEdge_row (a b q : Vertex) :
    windingEdge a b q = if straddles a b q.y = true ∧ q.x < crossingX a b q.y
      then (if a.y < b.y then 1 else -1) else 0 := by
  by_cases hup : a.y ≤ q.y ∧ q.y < b.y
  · have hab : a.y < b.y := by linarith [hup.1, hup.2]
    have hst : straddles a b q.y = true := (straddles_iff _ _ _).mpr (Or.inl hup)
    by_cases hc : 0 < cross a b q
    · rw [windingEdge_of_up hup.1 hup.2 hc,
        if_pos ⟨hst, (left_iff_cross_pos q hab).mpr hc⟩, if_pos hab]
    · rw [windingEdge_of_not (fun h => hc h.2.2) (fun h => by linarith [h.1, h.2.1]),
        if_neg (fun h => hc ((left_iff_cross_pos q hab).mp h.2))]
  · by_cases hdn : b.y ≤ q.y ∧ q.y < a.y
    · have hab : b.y < a.y := by linarith [hdn.1, hdn.2]
      have hst : straddles a b q.y = true := (straddles_iff _ _ _).mpr (Or.inr hdn)
      by_cases hc : cross a b q < 0
      · rw [windingEdge_of_down hdn.1 hdn.2 hc,
          if_pos ⟨hst, (left_iff_cross_neg q hab).mpr hc⟩, if_neg (by linarith)]
      · rw [windingEdge_of_not (fun h => by linarith [h.1, h.2.1]) (fun h => hc h.2.2),
          if_neg (fun h => hc ((left_iff_cross_neg q hab).mp h.2))]
    · rw [windingEdge_of_not (fun h => hup ⟨h.1, h.2.1⟩) (fun h => hdn ⟨h.1, h.2.1⟩),
        if_neg]
      rintro ⟨h, -⟩
      rcases (straddles_iff _ _ _).mp h with h | h
      · exact hup h
      · exact hdn h

theorem pointAt_hit {a b : Vertex} (y : ℚ) (h : a.y ≠ b.y) :
    pointAt a b ((y - a.y) / (b.y - a.y)) = ⟨crossingX a b y, y⟩ := by
  have hne : b.y - a.y ≠ 0 := sub_ne_zero.mpr (Ne.symm h)
  simp only [pointAt, crossingX, Vertex.mk.injEq]
  constructor
  · field_simp
  · field_simp

theorem windingEdge_on_segment {a b z : Vertex} (h : OnSegment a b z) :
    windingEdge a b z = 0 := by
  obtain ⟨t, -, -, rfl⟩ := (onSegment_iff _ _ _).mp h
  exact windingEdge_pointAt_self a b t

theorem hit_on_segment {a b : Vertex} {y : ℚ} (h : straddles a b y = true) :
    OnSegment a b ⟨crossingX a b y, y⟩ := by
  rcases (straddles_iff _ _ _).mp h with ⟨h1, h2⟩ | ⟨h1, h2⟩
  · have hpos : 0 < b.y - a.y := by linarith
    rw [← pointAt_hit y (by intro h; linarith)]
    exact (onSegment_iff _ _ _).mpr ⟨_, div_nonneg (by linarith) (le_of_lt hpos),
      (div_le_one hpos).mpr (by linarith), rfl⟩
  · have hneg : b.y - a.y < 0 := by linarith
    rw [← pointAt_hit y (by intro h; linarith)]
    exact (onSegment_iff _ _ _).mpr ⟨_, div_nonneg_of_nonpos (by linarith) (le_of_lt hneg),
      (div_le_one_of_neg hneg).mpr (by linarith), rfl⟩

/-! ### The first edge met to the right of a point -/

theorem windingEdge_same_until_hit {g : Vertex × Vertex} {p : Vertex} {X : ℚ}
    (hpX : p.x < X)
    (hmin : windingEdge g.1 g.2 p ≠ 0 → X ≤ crossingX g.1 g.2 p.y)
    (hno : ¬ OnSegment g.1 g.2 ⟨X, p.y⟩) :
    windingEdge g.1 g.2 p = windingEdge g.1 g.2 ⟨X, p.y⟩ := by
  rw [windingEdge_row g.1 g.2 p, windingEdge_row g.1 g.2 ⟨X, p.y⟩]
  apply if_congr _ rfl rfl
  show straddles g.1 g.2 p.y = true ∧ p.x < crossingX g.1 g.2 p.y ↔
    straddles g.1 g.2 p.y = true ∧ X < crossingX g.1 g.2 p.y
  constructor
  · rintro ⟨h1, h2⟩
    refine ⟨h1, ?_⟩
    have hne : windingEdge g.1 g.2 p ≠ 0 := by
      rw [windingEdge_row, if_pos ⟨h1, h2⟩]
      split_ifs <;> norm_num
    rcases eq_or_lt_of_le (hmin hne) with h | h
    · exfalso
      apply hno
      rw [h]
      exact hit_on_segment h1
    · exact h
  · rintro ⟨h1, h2⟩
    exact ⟨h1, lt_trans hpX h2⟩

theorem windingNumber_sub_edges (vs : List Vertex) (p z : Vertex) :
    windingNumber p vs - windingNumber z vs
      = ((polygonEdges vs).map fun g => windingEdge g.1 g.2 p - windingEdge g.1 g.2 z).sum := by
  unfold windingNumber
  exact (list_sum_map_sub _ _ _).symm

theorem crossingX_start {a b : Vertex} : crossingX a b a.y = a.x := by
  simp [crossingX]

theorem crossingX_end {a b : Vertex} (h : a.y ≠ b.y) : crossingX a b b.y = b.x := by
  have hne : b.y - a.y ≠ 0 := sub_ne_zero.mpr (Ne.symm h)
  unfold crossingX
  field_simp

theorem first_hit_up {vs : List Vertex} (hs : SimplePolygon vs) {a b : Vertex}
    (he : (a, b) ∈ polygonEdges vs) (p : Vertex) (h1 : a.y ≤ p.y) (h2 : p.y < b.y)
    (hpX : p.x < crossingX a b p.y)
    (hmin : ∀ g ∈ polygonEdges vs, windingEdge g.1 g.2 p ≠ 0 →
      crossingX a b p.y ≤ crossingX g.1 g.2 p.y) :
    windingNumber p vs = windingNumber (pointAt a b (1 / 2)) vs + 1 ∨
      windingNumber p vs = windingNumber (pointAt a b (1 / 2)) vs := by
  have hnd := polygonEdges_nodup hs.2.1
  have hab : a.y < b.y := by linarith
  have hst : straddles a b p.y = true := (straddles_iff _ _ _).mpr (Or.inl ⟨h1, h2⟩)
  have hwp : windingEdge a b p = 1 := by
    rw [windingEdge_row, if_pos ⟨hst, hpX⟩, if_pos hab]
  have hzt := pointAt_hit (a := a) (b := b) p.y (ne_of_lt hab)
  have hpos : 0 < b.y - a.y := by linarith
  have ht1 : (p.y - a.y) / (b.y - a.y) < 1 := (div_lt_one hpos).mpr (by linarith)
  have hwz : windingEdge a b ⟨crossingX a b p.y, p.y⟩ = 0 := by
    rw [← hzt]; exact windingEdge_pointAt_self a b _
  have hsub := windingNumber_sub_edges vs p ⟨crossingX a b p.y, p.y⟩
  rcases eq_or_lt_of_le h1 with hy | hy
  · -- the hit point is the lower end of the edge
    have hza : (⟨crossingX a b p.y, p.y⟩ : Vertex) = a :=
      vertex_eq_of (by show crossingX a b p.y = a.x; rw [← hy]; exact crossingX_start) hy.symm
    rw [hza] at hsub hwz
    rw [← hy, crossingX_start] at hpX
    obtain ⟨u, hu⟩ := polygonEdges_exists_pred (polygonEdges_mem_left he)
    have hz0 : ∀ g ∈ polygonEdges vs, g ≠ (u, a) → g ≠ (a, b) →
        windingEdge g.1 g.2 p - windingEdge g.1 g.2 a = 0 := by
      intro g hg hg0 hge
      have hno : ¬ OnSegment g.1 g.2 ⟨crossingX a b p.y, p.y⟩ := by
        rw [hza]
        intro hz
        rcases simple_meet hs he hg hge hz (t := 0) (le_refl _) (by norm_num)
          (pointAt_zero a b).symm with ⟨-, h⟩ | ⟨h, -⟩
        · exact hg0 (polygonEdges_snd_inj hs.2.1 hg hu h)
        · norm_num at h
      have := windingEdge_same_until_hit (g := g) (p := p) (X := crossingX a b p.y)
        (by rw [← hy, crossingX_start]; exact hpX) (hmin g hg) hno
      rw [hza] at this
      rw [this, sub_self]
    rw [list_sum_eq_two hnd (fun g => windingEdge g.1 g.2 p - windingEdge g.1 g.2 a) hu he
      (consecutive_ne hs hu he) hz0] at hsub
    simp only [] at hsub
    rw [hwp, hwz, windingEdge_end] at hsub
    have hout := winding_vertex_out hs hu he
    rw [beta_up u a b (le_of_lt hab)] at hout
    by_cases hua : a.y < u.y
    · have hc : cross u a p = (a.y - u.y) * (a.x - p.x) := by
        simp only [cross, ← hy]; ring
      have hup : windingEdge u a p = -1 :=
        windingEdge_of_down h1 (by linarith) (by rw [hc]; nlinarith)
      rw [hup] at hsub
      by_cases hK : cross u a b < 0
      · rw [if_pos ⟨hua, hK⟩] at hout
        left; linarith
      · rw [if_neg (fun h => hK h.2)] at hout
        right; linarith
    · have hup : windingEdge u a p = 0 :=
        windingEdge_of_not (fun h => by linarith [h.2.1]) (fun h => by linarith [h.2.1])
      rw [hup] at hsub
      rw [if_neg (fun h => hua h.1)] at hout
      left; linarith
  · -- the hit point is strictly inside the edge
    have ht0 : 0 < (p.y - a.y) / (b.y - a.y) := div_pos (by linarith) hpos
    have hz0 : ∀ g ∈ polygonEdges vs, g ≠ (a, b) →
        windingEdge g.1 g.2 p - windingEdge g.1 g.2 ⟨crossingX a b p.y, p.y⟩ = 0 := by
      intro g hg hge
      have hno : ¬ OnSegment g.1 g.2 ⟨crossingX a b p.y, p.y⟩ := by
        intro hz
        rcases simple_meet hs he hg hge hz (le_of_lt ht0) (le_of_lt ht1) hzt.symm
          with ⟨h, -⟩ | ⟨h, -⟩
        · linarith
        · linarith
      rw [windingEdge_same_until_hit hpX (hmin g hg) hno, sub_self]
    rw [list_sum_eq_single hnd
      (fun g => windingEdge g.1 g.2 p - windingEdge g.1 g.2 ⟨crossingX a b p.y, p.y⟩) he hz0]
      at hsub
    simp only [] at hsub
    rw [hwp, hwz] at hsub
    have hin := winding_inside_edge hs he ((p.y - a.y) / (b.y - a.y)) (1 / 2)
      ⟨ht0, ht1⟩ ⟨by norm_num, by norm_num⟩
    simp only [] at hin
    rw [hzt] at hin
    left; linarith

theorem first_hit_down {vs : List Vertex} (hs : SimplePolygon vs) {a b : Vertex}
    (he : (a, b) ∈ polygonEdges vs) (p : Vertex) (h1 : b.y ≤ p.y) (h2 : p.y < a.y)
    (hpX : p.x < crossingX a b p.y)
    (hmin : ∀ g ∈ polygonEdges vs, windingEdge g.1 g.2 p ≠ 0 →
      crossingX a b p.y ≤ crossingX g.1 g.2 p.y) :
    windingNumber p vs = windingNumber (pointAt a b (1 / 2)) vs ∨
      windingNumber p vs = windingNumber (pointAt a b (1 / 2)) vs - 1 := by
  have hnd := polygonEdges_nodup hs.2.1
  have hab : b.y < a.y := by linarith
  have hst : straddles a b p.y = true := (straddles_iff _ _ _).mpr (Or.inr ⟨h1, h2⟩)
  have hwp : windingEdge a b p = -1 := by
    rw [windingEdge_row, if_pos ⟨hst, hpX⟩, if_neg (by linarith)]
  have hzt := pointAt_hit (a := a) (b := b) p.y (ne_of_gt hab)
  have hneg : b.y - a.y < 0 := by linarith
  have ht0 : 0 < (p.y - a.y) / (b.y - a.y) := div_pos_of_neg_of_neg (by linarith) hneg
  have hwz : windingEdge a b ⟨crossingX a b p.y, p.y⟩ = 0 := by
    rw [← hzt]; exact windingEdge_pointAt_self a b _
  have hsub := windingNumber_sub_edges vs p ⟨crossingX a b p.y, p.y⟩
  rcases eq_or_lt_of_le h1 with hy | hy
  · -- the hit point is the lower end of the edge
    have hzb : (⟨crossingX a b p.y, p.y⟩ : Vertex) = b :=
      vertex_eq_of (by show crossingX a b p.y = b.x; rw [← hy]; exact crossingX_end (ne_of_gt hab))
        hy.symm
    rw [hzb] at hsub hwz
    have hpX' : p.x < b.x := by
      rw [← hy, crossingX_end (ne_of_gt hab)] at hpX; exact hpX
    obtain ⟨w, hw⟩ := polygonEdges_exists_succ (polygonEdges_mem_right he)
    have hz0 : ∀ g ∈ polygonEdges vs, g ≠ (a, b) → g ≠ (b, w) →
        windingEdge g.1 g.2 p - windingEdge g.1 g.2 b = 0 := by
      intro g hg hge hg1
      have hno : ¬ OnSegment g.1 g.2 ⟨crossingX a b p.y, p.y⟩ := by
        rw [hzb]
        intro hz
        rcases simple_meet hs he hg hge hz (t := 1) (by norm_num) (le_refl _)
          (pointAt_one a b).symm with ⟨h, -⟩ | ⟨-, h⟩
        · norm_num at h
        · exact hg1 (polygonEdges_fst_inj hs.2.1 hg hw h)
      have := windingEdge_same_until_hit (g := g) (p := p) (X := crossingX a b p.y)
        hpX (hmin g hg) hno
      rw [hzb] at this
      rw [this, sub_self]
    rw [list_sum_eq_two hnd (fun g => windingEdge g.1 g.2 p - windingEdge g.1 g.2 b) he hw
      (consecutive_ne hs he hw) hz0] at hsub
    simp only [] at hsub
    rw [hwp, hwz, windingEdge_start] at hsub
    have hin := winding_vertex_in hs he hw
    rw [alpha_notup a b w (le_of_lt hab)] at hin
    by_cases hbw : b.y < w.y
    · have hc : cross b w p = (w.y - b.y) * (b.x - p.x) := by
        simp only [cross, ← hy]; ring
      have hup : windingEdge b w p = 1 :=
        windingEdge_of_up h1 (by linarith) (by rw [hc]; nlinarith)
      rw [hup] at hsub
      by_cases hK : 0 < cross a b w
      · rw [if_pos ⟨hbw, hK⟩] at hin
        right; linarith
      · rw [if_neg (fun h => hK h.2)] at hin
        left; linarith
    · have hup : windingEdge b w p = 0 :=
        windingEdge_of_not (fun h => by linarith [h.2.1]) (fun h => by linarith [h.2.1])
      rw [hup] at hsub
      rw [if_neg (fun h => hbw h.1)] at hin
      right; linarith
  · -- the hit point is strictly inside the edge
    have ht1 : (p.y - a.y) / (b.y - a.y) < 1 := (div_lt_one_of_neg hneg).mpr (by linarith)
    have hz0 : ∀ g ∈ polygonEdges vs, g ≠ (a, b) →
        windingEdge g.1 g.2 p - windingEdge g.1 g.2 ⟨crossingX a b p.y, p.y⟩ = 0 := by
      intro g hg hge
      have hno : ¬ OnSegment g.1 g.2 ⟨crossingX a b p.y, p.y⟩ := by
        intro hz
        rcases simple_meet hs he hg hge hz (le_of_lt ht0) (le_of_lt ht1) hzt.symm
          with ⟨h, -⟩ | ⟨h, -⟩
        · linarith
        · linarith
      rw [windingEdge_same_until_hit hpX (hmin g hg) hno, sub_self]
    rw [list_sum_eq_single hnd
      (fun g => windingEdge g.1 g.2 p - windingEdge g.1 g.2 ⟨crossingX a b p.y, p.y⟩) he hz0]
      at hsub
    simp only [] at hsub
    rw [hwp, hwz] at hsub
    have hin := winding_inside_edge hs he ((p.y - a.y) / (b.y - a.y)) (1 / 2)
      ⟨ht0, ht1⟩ ⟨by norm_num, by norm_num⟩
    simp only [] at hin
    rw [hzt] at hin
    right; linarith

/-! ### The winding number of a simple polygon is `-1`, `0` or `1` -/

theorem winding_first_hit {vs : List Vertex} (hs : SimplePolygon vs) (p : Vertex)
    (hS : ∃ g ∈ polygonEdges vs, windingEdge g.1 g.2 p ≠ 0) :
    ∃ e ∈ polygonEdges vs,
      windingNumber p vs = windingNumber (pointAt e.1 e.2 (1 / 2)) vs + kappa e.1 e.2 ∨
      windingNumber p vs
        = windingNumber (pointAt e.1 e.2 (1 / 2)) vs + kappa e.1 e.2 - 1 := by
  classical
  obtain ⟨e, heS, hmin⟩ := Finset.exists_min_image
    ((polygonEdges vs).toFinset.filter fun g => windingEdge g.1 g.2 p ≠ 0)
    (fun g => crossingX g.1 g.2 p.y)
    (by
      obtain ⟨g, hg, hg'⟩ := hS
      exact ⟨g, Finset.mem_filter.mpr ⟨List.mem_toFinset.mpr hg, hg'⟩⟩)
  obtain ⟨he, hep⟩ := Finset.mem_filter.mp heS
  have he := List.mem_toFinset.mp he
  have hmin' : ∀ g ∈ polygonEdges vs, windingEdge g.1 g.2 p ≠ 0 →
      crossingX e.1 e.2 p.y ≤ crossingX g.1 g.2 p.y :=
    fun g hg hg' => hmin g (Finset.mem_filter.mpr ⟨List.mem_toFinset.mpr hg, hg'⟩)
  have hst : straddles e.1 e.2 p.y = true ∧ p.x < crossingX e.1 e.2 p.y := by
    by_contra h
    rw [windingEdge_row, if_neg h] at hep
    exact hep rfl
  refine ⟨e, he, ?_⟩
  rcases (straddles_iff _ _ _).mp hst.1 with ⟨h1, h2⟩ | ⟨h1, h2⟩
  · rw [kappa_up (by linarith)]
    rcases first_hit_up hs (a := e.1) (b := e.2) he p h1 h2 hst.2 hmin' with h | h
    · left; exact h
    · right; rw [h]; ring
  · rw [kappa_down (by linarith)]
    rcases first_hit_down hs (a := e.1) (b := e.2) he p h1 h2 hst.2 hmin' with h | h
    · left; rw [h]; ring
    · right; rw [h]; ring

theorem foldr_min_le (l : List ℚ) (c : ℚ) : ∀ x ∈ l, l.foldr min c ≤ x := by
  induction l with
  | nil => intro x hx; cases hx
  | cons a l ih =>
    intro x hx
    rw [List.foldr_cons]
    rcases List.mem_cons.mp hx with rfl | hx
    · exact min_le_left _ _
    · exact le_trans (min_le_right _ _) (ih x hx)

theorem windingEdge_far_left (a b q : Vertex)
    (h : straddles a b q.y = true → q.x < crossingX a b q.y) :
    windingEdge a b q
      = (if q.y < b.y then 1 else 0) - (if q.y < a.y then 1 else 0) := by
  rw [windingEdge_row]
  by_cases hst : straddles a b q.y = true
  · rw [if_pos ⟨hst, h hst⟩]
    rcases (straddles_iff _ _ _).mp hst with ⟨h1, h2⟩ | ⟨h1, h2⟩
    · rw [if_pos (by linarith), if_pos h2, if_neg (by linarith)]; norm_num
    · rw [if_neg (by linarith), if_neg (by linarith), if_pos h2]; norm_num
  · rw [if_neg (fun h' => hst h'.1)]
    have hn := fun h' => hst ((straddles_iff _ _ _).mpr h')
    by_cases ha : q.y < a.y
    · have hb : q.y < b.y := by
        by_contra hb
        exact hn (Or.inr ⟨not_lt.mp hb, ha⟩)
      rw [if_pos ha, if_pos hb]; norm_num
    · have hb : ¬ q.y < b.y := fun hb => hn (Or.inl ⟨not_lt.mp ha, hb⟩)
      rw [if_neg ha, if_neg hb]; norm_num

/-- Far enough to the left on any row, the winding number is zero. -/
theorem winding_far_left (vs : List Vertex) (y : ℚ) :
    ∃ x : ℚ, (∀ g ∈ polygonEdges vs, x < crossingX g.1 g.2 y) ∧
      windingNumber ⟨x, y⟩ vs = 0 := by
  have hlt : ∀ g ∈ polygonEdges vs,
      ((polygonEdges vs).map fun g => crossingX g.1 g.2 y).foldr min 0 - 1
        < crossingX g.1 g.2 y := by
    intro g hg
    have := foldr_min_le ((polygonEdges vs).map fun g => crossingX g.1 g.2 y) 0
      (crossingX g.1 g.2 y) (List.mem_map.mpr ⟨g, hg, rfl⟩)
    linarith
  refine ⟨_, hlt, ?_⟩
  unfold windingNumber
  rw [← sum_edges_telescope vs (fun v => if y < v.y then 1 else 0)]
  apply congrArg
  apply List.map_congr_left
  intro g hg
  exact windingEdge_far_left g.1 g.2 _ (fun _ => hlt g hg)

/-- The winding number of a simple polygon around any point is `-1`, `0` or `1`. -/
theorem winding_bound {vs : List Vertex} (hs : SimplePolygon vs) (p : Vertex) :
    -1 ≤ windingNumber p vs ∧ windingNumber p vs ≤ 1 := by
  by_cases hS : ∃ g ∈ polygonEdges vs, windingEdge g.1 g.2 p ≠ 0
  · obtain ⟨e, he, hp⟩ := winding_first_hit hs p hS
    obtain ⟨x, hx, hx0⟩ := winding_far_left vs p.y
    have hS0 : ∃ g ∈ polygonEdges vs, windingEdge g.1 g.2 ⟨x, p.y⟩ ≠ 0 := by
      obtain ⟨g, hg, hgp⟩ := hS
      refine ⟨g, hg, ?_⟩
      have hst : straddles g.1 g.2 p.y = true := by
        by_contra h
        rw [windingEdge_row, if_neg (fun h' => h h'.1)] at hgp
        exact hgp rfl
      rw [windingEdge_row, if_pos ⟨hst, hx g hg⟩]
      split_ifs <;> norm_num
    obtain ⟨f, hf, hq⟩ := winding_first_hit hs ⟨x, p.y⟩ hS0
    have hl := level_const hs he hf
    rw [hx0] at hq
    rcases hp with hp | hp <;> rcases hq with hq | hq <;> constructor <;> linarith
  · have h0 : ∀ g ∈ polygonEdges vs, windingEdge g.1 g.2 p = 0 := by
      intro g hg
      by_contra h
      exact hS ⟨g, hg, h⟩
    have : windingNumber p vs = 0 := by
      unfold windingNumber
      apply List.sum_eq_zero
      intro x hx
      obtain ⟨g, hg, rfl⟩ := List.mem_map.mp hx
      exact h0 g hg
    rw [this]; norm_num

/-! ### Parity -/

theorem winding_parity_list (p : Vertex) (l : List (Vertex × Vertex)) :
    ∃ k : ℤ, (l.map fun e => windingEdge e.1 e.2 p).sum
      = ((l.countP fun e =>
          straddles e.1 e.2 p.y && decide (p.x < crossingX e.1 e.2 p.y) : Nat) : ℤ)
        + 2 * k := by
  induction l with
  | nil => exact ⟨0, by simp⟩
  | cons g l ih =>
    obtain ⟨k, hk⟩ := ih
    rw [List.map_cons, List.sum_cons, hk, List.countP_cons, windingEdge_row]
    by_cases hc : straddles g.1 g.2 p.y = true ∧ p.x < crossingX g.1 g.2 p.y
    · have hb : (straddles g.1 g.2 p.y && decide (p.x < crossingX g.1 g.2 p.y)) = true := by
        simp [hc.1, hc.2]
      rw [if_pos hc, if_pos hb]
      by_cases hab : g.1.y < g.2.y
      · rw [if_pos hab]
        exact ⟨k, by push_cast; ring⟩
      · rw [if_neg hab]
        exact ⟨k - 1, by push_cast; ring⟩
    · have hb : ¬ (straddles g.1 g.2 p.y && decide (p.x < crossingX g.1 g.2 p.y)) = true := by
        intro h
        simp only [Bool.and_eq_true, decide_eq_true_eq] at h
        exact hc h
      rw [if_neg hc, if_neg hb]
      exact ⟨k, by push_cast; ring⟩

theorem winding_parity (p : Vertex) (vs : List Vertex) :
    ∃ k : ℤ, windingNumber p vs = (rayCrossings p vs : ℤ) + 2 * k :=
  winding_parity_list p (polygonEdges vs)

/-! ### Agreement of the hit test with the winding number -/

theorem rightTriangle_simple : SimplePolygon rightTriangle := by
  refine ⟨by decide, by decide!, ?_⟩
  have hE : polygonEdges rightTriangle
      = [(⟨0, 0⟩, ⟨4, 0⟩), (⟨4, 0⟩, ⟨0, 4⟩), (⟨0, 4⟩, ⟨0, 0⟩)] := by decide!
  rw [hE]
  intro e he f hf hne z hze hzf
  simp only [List.mem_cons, List.mem_singleton, List.not_mem_nil, or_false] at he hf
  rcases he with rfl | rfl | rfl <;> rcases hf with rfl | rfl | rfl
  all_goals first
    | exact absurd rfl hne
    | (obtain ⟨t, ht0, ht1, hx, hy⟩ := hze
       obtain ⟨s, hs0, hs1, hx', hy'⟩ := hzf
       simp only [] at hx hy hx' hy'
       first
         | exact Or.inl ⟨rfl, vertex_eq_of (by dsimp only; linarith)
             (by dsimp only; linarith)⟩
         | exact Or.inr ⟨rfl, vertex_eq_of (by dsimp only; linarith)
             (by dsimp only; linarith)⟩)

/-- In exact arithmetic, for every simple (non-self-intersecting) polygon and every point,
`isPointInPolygon` returns `true` exactly when the winding number of the polygon around
the point, computed edge by edge as a signed count of crossings, is non-zero. -/
theorem isPointInPolygon_iff_winding (vertices : List Vertex) (point : Vertex)
    (hs : SimplePolygon vertices) :
    isPointInPolygon point vertices = true ↔ windingNumber point vertices ≠ 0 := by
  rw [isPointInPolygon_eq_odd, decide_eq_true_eq]
  obtain ⟨k, hk⟩ := winding_parity point vertices
  obtain ⟨h1, h2⟩ := winding_bound hs point
  omega

/-! ## The pairing loop and an odd number of active edges -/

theorem pairLoop_ok_iff (y : ℚ) (color : String) (l : List Edge) :
    (pairLoop y color l).ok = true ↔ Even l.length := by
  have key : ∀ l : List Edge, ((pairLoop y color l).ok = true ↔ Even l.length) ∧
      ∀ a, ((pairLoop y color (a :: l)).ok = true ↔ Even (a :: l).length) := by
    intro l
    induction l with
    | nil => exact ⟨by simp [pairLoop, Run.done], fun a => by simp [pairLoop, Run.throw]⟩
    | cons b rest ih =>
      refine ⟨ih.2 b, fun a => ?_⟩
      simp only [pairLoop, Run.seq, Run.emit, if_true, List.length_cons, ih.1]
      rw [Nat.even_add_one, Nat.even_add_one, not_not]
  exact (key l).1

/-- The scan loop completes exactly when every row it visits has an even number of active
edges. -/
theorem scanLoop_ok_iff (ET : List Edge) (color : String) (y_max : ℚ) (fuel : Nat) (y : ℚ)
    (aet : List Edge) :
    (scanLoop ET color y_max fuel y aet).ok = true ↔
      ∀ k < fuel, y + k ≤ y_max → Even (activeAtRow ET y aet k).length := by
  induction fuel generalizing y aet with
  | zero => simp [scanLoop, Run.done]
  | succ n ih =>
    simp only [scanLoop]
    by_cases hy : y ≤ y_max
    · rw [if_pos hy]
      have hseq : ∀ r k : Run, (r.seq k).ok = true ↔ r.ok = true ∧ k.ok = true := by
        intro r k
        unfold Run.seq
        by_cases h : r.ok = true <;> simp [h]
      rw [hseq, pairLoop_ok_iff, ih]
      constructor
      · rintro ⟨h0, hrest⟩ k hk hky
        cases k with
        | zero => simpa [activeAtRow] using h0
        | succ k =>
          have := hrest k (by omega) (by push_cast at hky ⊢; linarith)
          simpa [activeAtRow] using this
      · intro h
        refine ⟨by simpa [activeAtRow] using h 0 (by omega) (by simpa using hy), ?_⟩
        intro k hk hky
        have := h (k + 1) (by omega) (by push_cast at hky ⊢; linarith)
        simpa [activeAtRow] using this
    · rw [if_neg hy]
      simp only [Run.done, true_iff]
      intro k _ hky
      exfalso
      have : (0 : ℚ) ≤ k := Nat.cast_nonneg k
      exact hy (by linarith)

/-- C11 at the failing input: whenever the active edge table has an odd number of entries
the pairing loop throws; for the triangle `(0,0), (10,0.5), (5,5)` the active edge table of
scanline `y = 1` has exactly one entry, and `fillPolygon` draws the span of row `0`, throws
at row `1` and does not visit the rows `2, ..., 5`. -/
theorem fillPolygon_odd_active_throws :
    (∀ (y : ℚ) (color : String) (l : List Edge), Odd l.length →
      (pairLoop y color l).ok = false) ∧
    (activeAtRow (sortByYmin (buildEdgeTable oddTriangle)) 0 [] 1).length = 1 ∧
    fillPolygon ⟨oddTriangle, "#00ff00", "#000000"⟩
      = ⟨spanCmds 0 0 0 "#00ff00", false⟩ := by
  refine ⟨?_, by decide!, by decide!⟩
  intro y color l hl
  have h := pairLoop_ok_iff y color l
  rw [← Nat.not_even_iff_odd] at hl
  cases hok : (pairLoop y color l).ok
  · rfl
  · exact absurd (h.mp hok) hl

/-! ## Invariants of the reachable states -/

theorem runActions_induction (P : State → Prop) (hstep : ∀ s a, P s → P (step s a).1)
    (s : State) (hs : P s) (as : List Action) : P (runActions s as) := by
  unfold runActions
  induction as generalizing s with
  | nil => exact hs
  | cons a as ih => exact ih _ (hstep s a hs)

theorem pushShared_length (ps : List Polygon) (k : Nat) (v : Vertex) :
    (pushShared ps k v).length = ps.length := by
  unfold pushShared
  rw [List.length_append, List.length_map, List.length_take, List.length_drop]
  omega

theorem mem_pushShared {ps : List Polygon} {k : Nat} {v : Vertex} {p : Polygon}
    (h : p ∈ pushShared ps k v) :
    ∃ q ∈ ps, p.vertices = q.vertices ∨ p.vertices = q.vertices ++ [v] := by
  unfold pushShared at h
  rcases List.mem_append.mp h with h | h
  · exact ⟨p, List.mem_of_mem_take h, Or.inl rfl⟩
  · obtain ⟨q, hq, rfl⟩ := List.mem_map.mp h
    exact ⟨q, List.mem_of_mem_drop hq, Or.inr rfl⟩

theorem mem_modify_vertices {ps : List Polygon} {f : Polygon → Polygon}
    (hf : ∀ q, (f q).vertices = q.vertices) {i : Nat} {p : Polygon}
    (h : p ∈ ps.modify f i) : ∃ q ∈ ps, p.vertices = q.vertices := by
  induction ps generalizing i with
  | nil => simp at h
  | cons a ps ih =>
    cases i with
    | zero =>
      simp only [List.modify_zero_cons, List.mem_cons] at h
      rcases h with rfl | h
      · exact ⟨a, List.mem_cons_self _ _, hf a⟩
      · exact ⟨p, List.mem_cons_of_mem _ h, rfl⟩
    | succ i =>
      simp only [List.modify_succ_cons, List.mem_cons] at h
      rcases h with rfl | h
      · exact ⟨p, List.mem_cons_self _ _, rfl⟩
      · obtain ⟨q, hq, hpq⟩ := ih h
        exact ⟨q, List.mem_cons_of_mem _ hq, hpq⟩

/-- The committed sequence after `handleClick`: unchanged, or with the new vertex pushed to
the polygons that share the vertex array of the in-progress polygon. -/
theorem handleClick_polygons (s : State) (x y : ℚ) :
    (handleClick s x y).1.polygons = s.polygons ∨
      (handleClick s x y).1.polygons = pushShared s.polygons s.shared ⟨x, y⟩ := by
  unfold handleClick
  by_cases h : getPolygonUnderMouse s.polygons x y ≠ -1
  · left
    simp only []
    rw [if_pos h]
    generalize polygonAt s.polygons (getPolygonUnderMouse s.polygons x y) = o
    cases o <;> rfl
  · right
    simp only []
    rw [if_neg h]
    simp only [addVertex]
    split <;> rfl

/-- The committed sequence after `finishPolygon`: unchanged, or with the in-progress
polygon appended when it has more than 2 vertices. -/
theorem finishPolygon_polygons (s : State) :
    ((finishPolygon s).1.polygons = s.polygons ∧
        (finishPolygon s).1.selectedPolygonIndex = s.selectedPolygonIndex) ∨
      (2 < s.currentPolygon.vertices.length ∧
        (finishPolygon s).1.polygons = s.polygons ++ [s.currentPolygon] ∧
        (finishPolygon s).1.selectedPolygonIndex = s.selectedPolygonIndex) := by
  unfold finishPolygon
  by_cases h : s.currentPolygon.vertices.length > 2
  · right
    simp only []
    rw [if_pos h]
    split_ifs <;> exact ⟨h, rfl, rfl⟩
  · left
    simp only []
    rw [if_neg h]
    exact ⟨rfl, rfl⟩

theorem updateFillColor_frame (s : State) (value : String) :
    (updateFillColor s value).1.selectedPolygonIndex = s.selectedPolygonIndex ∧
      ((updateFillColor s value).1.polygons = s.polygons ∨
        (updateFillColor s value).1.polygons
          = setFillAt s.polygons s.selectedPolygonIndex.toNat value) := by
  unfold updateFillColor
  by_cases h : s.selectedPolygonIndex ≠ -1
  · rw [if_pos h]
    generalize polygonAt s.polygons s.selectedPolygonIndex = o
    cases o
    · exact ⟨rfl, Or.inl rfl⟩
    · exact ⟨rfl, Or.inr rfl⟩
  · rw [if_neg h]
    exact ⟨rfl, Or.inl rfl⟩

theorem updateEdgeColor_frame (s : State) (value : String) :
    (updateEdgeColor s value).1.selectedPolygonIndex = s.selectedPolygonIndex ∧
      ((updateEdgeColor s value).1.polygons = s.polygons ∨
        (updateEdgeColor s value).1.polygons
          = setEdgeAt s.polygons s.selectedPolygonIndex.toNat value) := by
  unfold updateEdgeColor
  by_cases h : s.selectedPolygonIndex ≠ -1
  · rw [if_pos h]
    generalize polygonAt s.polygons s.selectedPolygonIndex = o
    cases o
    · exact ⟨rfl, Or.inl rfl⟩
    · exact ⟨rfl, Or.inr rfl⟩
  · rw [if_neg h]
    exact ⟨rfl, Or.inl rfl⟩

theorem step_vertexCount (s : State) (a : Action)
    (hs : ∀ p ∈ s.polygons, 2 < p.vertices.length) :
    ∀ p ∈ (step s a).1.polygons, 2 < p.vertices.length := by
  intro p hp
  cases a with
  | click x y =>
    simp only [step] at hp
    rcases handleClick_polygons s x y with h | h
    · rw [h] at hp; exact hs p hp
    · rw [h] at hp
      obtain ⟨q, hq, hv | hv⟩ := mem_pushShared hp
      · rw [hv]; exact hs q hq
      · rw [hv, List.length_append]; have := hs q hq; omega
  | finish =>
    simp only [step] at hp
    rcases finishPolygon_polygons s with ⟨h, -⟩ | ⟨hlen, h, -⟩
    · rw [h] at hp; exact hs p hp
    · rw [h] at hp
      rcases List.mem_append.mp hp with hp | hp
      · exact hs p hp
      · rw [List.mem_singleton.mp hp]; exact hlen
  | fillColor value =>
    simp only [step] at hp
    rcases (updateFillColor_frame { s with colorPicker := value } value).2 with h | h
    · rw [h] at hp; exact hs p hp
    · rw [h] at hp
      obtain ⟨q, hq, hv⟩ := mem_modify_vertices
        (f := fun p => { p with fillColor := value }) (fun _ => rfl) hp
      rw [hv]; exact hs q hq
  | edgeColor value =>
    simp only [step] at hp
    rcases (updateEdgeColor_frame { s with edgeColorPicker := value } value).2 with h | h
    · rw [h] at hp; exact hs p hp
    · rw [h] at hp
      obtain ⟨q, hq, hv⟩ := mem_modify_vertices
        (f := fun p => { p with edgeColor := value }) (fun _ => rfl) hp
      rw [hv]; exact hs q hq
  | toggleOutline => exact hs p hp
  | clear => simp [step, clearCanvas] at hp

/-- C14: in every state reachable from the initial state by clicks, finish, colour updates,
outline toggles and clears, every polygon of the committed sequence has more than 2
vertices. -/
theorem committed_polygons_have_three_vertices (colorPicker edgeColorPicker : String)
    (toggleEdges : Bool) (actions : List Action) :
    ∀ p ∈ (runActions (initialState colorPicker edgeColorPicker toggleEdges) actions).polygons,
      2 < p.vertices.length :=
  runActions_induction (fun s => ∀ p ∈ s.polygons, 2 < p.vertices.length)
    (fun s a hs => step_vertexCount s a hs) _
    (by intro p hp; simp [initialState] at hp) actions

theorem committed_polygons_have_three_vertices_witness :
    (⟨[⟨0, 0⟩, ⟨10, 0⟩, ⟨10, 10⟩, ⟨0, 10⟩], "#00ff00", "#000000"⟩ : Polygon) ∈
        (runActions (initialState "#00ff00" "#000000" true)
          [Action.click 0 0, Action.click 10 0, Action.click 10 10, Action.click 0 10,
            Action.finish]).polygons ∧
      2 < ([⟨0, 0⟩, ⟨10, 0⟩, ⟨10, 10⟩, ⟨0, 10⟩] : List Vertex).length :=
  ⟨by decide!, committed_polygons_have_three_vertices "#00ff00" "#000000" true
    [Action.click 0 0, Action.click 10 0, Action.click 10 10, Action.click 0 10,
      Action.finish] ⟨[⟨0, 0⟩, ⟨10, 0⟩, ⟨10, 10⟩, ⟨0, 10⟩], "#00ff00", "#000000"⟩ (by decide!)⟩

theorem step_selection (s : State) (a : Action)
    (hs : s.selectedPolygonIndex = -1 ∨
      (0 ≤ s.selectedPolygonIndex ∧ s.selectedPolygonIndex < s.polygons.length)) :
    (step s a).1.selectedPolygonIndex = -1 ∨
      (0 ≤ (step s a).1.selectedPolygonIndex ∧
        (step s a).1.selectedPolygonIndex < (step s a).1.polygons.length) := by
  cases a with
  | click x y =>
    simp only [step]
    by_cases h : getPolygonUnderMouse s.polygons x y ≠ -1
    · obtain ⟨i, p, hi, hp, hst⟩ := handleClick_inside s x y h
      rw [hst]
      right
      have hlt : i < s.polygons.length := by
        by_contra hge
        rw [List.getElem?_eq_none (by omega)] at hp
        cases hp
      exact ⟨by simp, by simpa using hlt⟩
    · have h' : getPolygonUnderMouse s.polygons x y = -1 := not_not.mp h
      unfold handleClick
      simp only [h', ne_eq, not_true_eq_false, if_false, addVertex]
      split
      · left; rfl
      · simp only [pushShared_length]
        exact hs
  | finish =>
    simp only [step]
    rcases finishPolygon_polygons s with ⟨h, hsel⟩ | ⟨-, h, hsel⟩
    · rw [h, hsel]; exact hs
    · rw [h, hsel, List.length_append]
      rcases hs with hs | ⟨h0, h1⟩
      · left; exact hs
      · right; exact ⟨h0, by push_cast; omega⟩
  | fillColor value =>
    simp only [step]
    obtain ⟨hsel, hp⟩ := updateFillColor_frame { s with colorPicker := value } value
    rw [hsel]
    rcases hp with h | h
    · rw [h]; exact hs
    · rw [h, setFillAt, List.length_modify]; exact hs
  | edgeColor value =>
    simp only [step]
    obtain ⟨hsel, hp⟩ := updateEdgeColor_frame { s with edgeColorPicker := value } value
    rw [hsel]
    rcases hp with h | h
    · rw [h]; exact hs
    · rw [h, setEdgeAt, List.length_modify]; exact hs
  | toggleOutline => exact hs
  | clear => left; rfl

/-- C19: in every state reachable from the initial state by clicks, finish, colour
updates, outline toggles and clears, `selectedPolygonIndex` is `-1` or a valid index of the
committed sequence, so that `polygons[selectedPolygonIndex]` is an existing polygon whenever
the index is not `-1`. -/
theorem selection_index_valid (colorPicker edgeColorPicker : String) (toggleEdges : Bool)
    (actions : List Action) :
    ((runActions (initialState colorPicker edgeColorPicker toggleEdges)
          actions).selectedPolygonIndex = -1 ∨
      (0 ≤ (runActions (initialState colorPicker edgeColorPicker toggleEdges)
            actions).selectedPolygonIndex ∧
        (runActions (initialState colorPicker edgeColorPicker toggleEdges)
            actions).selectedPolygonIndex
          < (runActions (initialState colorPicker edgeColorPicker toggleEdges)
            actions).polygons.length)) ∧
    ((runActions (initialState colorPicker edgeColorPicker toggleEdges)
          actions).selectedPolygonIndex ≠ -1 →
      ∃ p, polygonAt
        (runActions (initialState colorPicker edgeColorPicker toggleEdges) actions).polygons
        (runActions (initialState colorPicker edgeColorPicker toggleEdges)
          actions).selectedPolygonIndex = some p) := by
  have h := runActions_induction
    (fun s => s.selectedPolygonIndex = -1 ∨
      (0 ≤ s.selectedPolygonIndex ∧ s.selectedPolygonIndex < s.polygons.length))
    (fun s a hs => step_selection s a hs)
    (initialState colorPicker edgeColorPicker toggleEdges) (Or.inl rfl) actions
  refine ⟨h, fun hne => ?_⟩
  rcases h with h | ⟨h0, h1⟩
  · exact absurd h hne
  · obtain ⟨n, hn⟩ := Int.eq_ofNat_of_zero_le h0
    rw [hn] at h1 ⊢
    rw [polygonAt_natCast]
    have hlt : n < (runActions (initialState colorPicker edgeColorPicker toggleEdges)
        actions).polygons.length := by exact_mod_cast h1
    exact ⟨_, List.getElem?_eq_getElem hlt⟩

/-! ## The hit test does not depend on the starting vertex or on the direction -/

theorem polygonEdges_rotate (vs : List Vertex) (k : Nat) :
    polygonEdges (vs.rotate k) = (polygonEdges vs).rotate k := by
  unfold polygonEdges List.zip
  rw [List.zipWith_rotate_distrib _ _ _ _ (by simp), List.rotate_rotate, List.rotate_rotate,
    Nat.add_comm]

theorem rotate_back (vs : List Vertex) :
    (vs.rotate (vs.length - 1 % vs.length)).rotate 1 = vs := by
  rw [List.rotate_rotate]
  rcases Nat.lt_or_ge vs.length 2 with h | h
  · rcases Nat.lt_or_ge vs.length 1 with h0 | h0
    · have : vs = [] := List.length_eq_zero.mp (by omega)
      subst this
      simp
    · have h1 : vs.length = 1 := by omega
      obtain ⟨a, rfl⟩ := List.length_eq_one.mp h1
      simp
  · rw [Nat.mod_eq_of_lt (by omega), Nat.sub_add_cancel (by omega), List.rotate_length]

theorem polygonEdges_reverse (vs : List Vertex) :
    polygonEdges vs.reverse
      = (((polygonEdges vs).rotate (vs.length - 1 % vs.length)).map Prod.swap).reverse := by
  rw [← polygonEdges_rotate]
  have hw := rotate_back vs
  have hlen : (vs.rotate (vs.length - 1 % vs.length)).length = vs.length := List.length_rotate _ _
  have h1 : polygonEdges vs.reverse
      = (List.zip vs (vs.rotate (vs.length - 1 % vs.length))).reverse := by
    unfold polygonEdges List.zip
    rw [List.rotate_reverse, List.reverse_zipWith hlen.symm]
  have h2 : polygonEdges (vs.rotate (vs.length - 1 % vs.length))
      = List.zip (vs.rotate (vs.length - 1 % vs.length)) vs := by
    unfold polygonEdges
    rw [hw]
  rw [h1, h2, List.zip_swap]

theorem crossing_swap (a b : Vertex) (p : Vertex) :
    (straddles b a p.y && decide (p.x < crossingX b a p.y))
      = (straddles a b p.y && decide (p.x < crossingX a b p.y)) := by
  have hs : straddles b a p.y = straddles a b p.y := by
    unfold straddles
    exact Bool.xor_comm _ _
  rw [hs]
  by_cases h : straddles a b p.y = true
  · have hne : a.y ≠ b.y := by
      rcases (straddles_iff a b p.y).mp h with h | h <;> intro he <;> linarith [h.1, h.2]
    have hx : crossingX b a p.y = crossingX a b p.y := by
      have h1 : a.y - b.y ≠ 0 := sub_ne_zero.mpr hne
      have h2 : b.y - a.y ≠ 0 := sub_ne_zero.mpr (Ne.symm hne)
      unfold crossingX
      field_simp
      ring
    rw [hx]
  · simp only [Bool.not_eq_true] at h
    rw [h]
    rfl

theorem rayCrossings_rotate (p : Vertex) (vs : List Vertex) (k : Nat) :
    rayCrossings p (vs.rotate k) = rayCrossings p vs := by
  unfold rayCrossings
  rw [polygonEdges_rotate]
  exact (List.rotate_perm _ _).countP_eq _

theorem rayCrossings_reverse (p : Vertex) (vs : List Vertex) :
    rayCrossings p vs.reverse = rayCrossings p vs := by
  unfold rayCrossings
  rw [polygonEdges_reverse, ((List.reverse_perm _).trans
    ((List.rotate_perm _ _).map Prod.swap)).countP_eq, List.countP_map]
  apply List.countP_congr
  intro e _
  simp only [Function.comp, Prod.fst_swap, Prod.snd_swap]
  rw [crossing_swap]

theorem isPointInPolygon_rotate (p : Vertex) (vs : List Vertex) (k : Nat) :
    isPointInPolygon p (vs.rotate k) = isPointInPolygon p vs := by
  rw [isPointInPolygon_eq_odd, isPointInPolygon_eq_odd, rayCrossings_rotate]

theorem isPointInPolygon_reverse (p : Vertex) (vs : List Vertex) :
    isPointInPolygon p vs.reverse = isPointInPolygon p vs := by
  rw [isPointInPolygon_eq_odd, isPointInPolygon_eq_odd, rayCrossings_reverse]

/-- C20: the result of `isPointInPolygon(point, vertices)` is the same for the vertex list
rotated cyclically by any number of places, and for the reversed vertex list. -/
theorem isPointInPolygon_rotation_reversal (point : Vertex) (vertices : List Vertex)
    (k : Nat) :
    isPointInPolygon point (vertices.rotate k) = isPointInPolygon point vertices ∧
      isPointInPolygon point vertices.reverse = isPointInPolygon point vertices :=
  ⟨isPointInPolygon_rotate point vertices k, isPointInPolygon_reverse point vertices⟩

/-! ## Hit test of an axis-aligned rectangle -/

theorem rayCrossings_rectangle (x0 y0 x1 y1 x y : ℚ) :
    rayCrossings ⟨x, y⟩ (rectangleVertices x0 y0 x1 y1)
      = (if xor (decide (y0 > y)) (decide (y1 > y)) = true ∧ x < x1 then 1 else 0)
        + (if xor (decide (y1 > y)) (decide (y0 > y)) = true ∧ x < x0 then 1 else 0) := by
  have hE : polygonEdges (rectangleVertices x0 y0 x1 y1)
      = [(⟨x0, y0⟩, ⟨x1, y0⟩), (⟨x1, y0⟩, ⟨x1, y1⟩), (⟨x1, y1⟩, ⟨x0, y1⟩),
          (⟨x0, y1⟩, ⟨x0, y0⟩)] := rfl
  unfold rayCrossings
  rw [hE]
  simp only [List.countP_cons, List.countP_nil, straddles, crossingX, Bool.xor_self,
    Bool.false_and, sub_self, mul_zero, zero_div, add_zero, Bool.and_eq_true,
    decide_eq_true_eq, zero_add]
  simp
  exact add_comm _ _

theorem isPointInPolygon_rectangle_inside {x0 y0 x1 y1 x y : ℚ}
    (h : x0 < x ∧ x < x1 ∧ y0 < y ∧ y < y1) :
    isPointInPolygon ⟨x, y⟩ (rectangleVertices x0 y0 x1 y1) = true := by
  obtain ⟨h1, h2, h3, h4⟩ := h
  rw [isPointInPolygon_eq_odd, rayCrossings_rectangle]
  have a : ¬ (y0 > y) := not_lt.mpr (le_of_lt h3)
  have b : ¬ (x < x0) := not_lt.mpr (le_of_lt h1)
  simp [a, b, h2, h4]

theorem isPointInPolygon_rectangle_outside {x0 y0 x1 y1 x y : ℚ} (hx : x0 < x1)
    (hy : y0 < y1) (h : x < x0 ∨ x1 < x ∨ y < y0 ∨ y1 < y) :
    isPointInPolygon ⟨x, y⟩ (rectangleVertices x0 y0 x1 y1) = false := by
  rw [isPointInPolygon_eq_odd, rayCrossings_rectangle]
  rcases h with h | h | h | h
  · have a : x < x1 := lt_trans h hx
    by_cases s : xor (decide (y0 > y)) (decide (y1 > y)) = true
    · have s' : xor (decide (y1 > y)) (decide (y0 > y)) = true := by rwa [Bool.xor_comm]
      rw [if_pos ⟨s, a⟩, if_pos ⟨s', h⟩]; rfl
    · have s' : ¬ xor (decide (y1 > y)) (decide (y0 > y)) = true := by rwa [Bool.xor_comm]
      rw [if_neg (fun c => s c.1), if_neg (fun c => s' c.1)]; rfl
  · have a : ¬ x < x1 := not_lt.mpr (le_of_lt h)
    have b : ¬ x < x0 := not_lt.mpr (le_of_lt (lt_trans hx h))
    rw [if_neg (fun c => a c.2), if_neg (fun c => b c.2)]; rfl
  · have a : y0 > y := h
    have b : y1 > y := lt_trans h hy
    simp [a, b]
  · have a : ¬ y1 > y := not_lt.mpr (le_of_lt h)
    have b : ¬ y0 > y := not_lt.mpr (le_of_lt (lt_trans hy h))
    simp [a, b]

theorem isPointInPolygon_of_rotated_or_reversed (p : Vertex) {vs base : List Vertex}
    (h : vs.IsRotated base ∨ vs.IsRotated base.reverse) :
    isPointInPolygon p vs = isPointInPolygon p base := by
  rcases h with ⟨n, hn⟩ | ⟨n, hn⟩
  · rw [← hn, isPointInPolygon_rotate]
  · rw [← isPointInPolygon_reverse p base, ← hn, isPointInPolygon_rotate]

/-- C13: for an axis-aligned rectangle with `x0 < x1` and `y0 < y1` whose corners are listed
in order around it (from any corner, in either direction) and which is the only committed
polygon, `getPolygonUnderMouse` returns `0` for every point strictly inside the rectangle
and `-1` for every point outside the closed rectangle. -/
theorem getPolygonUnderMouse_rectangle (x0 y0 x1 y1 : ℚ) (hx : x0 < x1) (hy : y0 < y1)
    (vertices : List Vertex)
    (hv : vertices.IsRotated (rectangleVertices x0 y0 x1 y1) ∨
      vertices.IsRotated (rectangleVertices x0 y0 x1 y1).reverse)
    (fillColor edgeColor : String) (x y : ℚ) :
    (x0 < x ∧ x < x1 ∧ y0 < y ∧ y < y1 →
      getPolygonUnderMouse [⟨vertices, fillColor, edgeColor⟩] x y = 0) ∧
    (x < x0 ∨ x1 < x ∨ y < y0 ∨ y1 < y →
      getPolygonUnderMouse [⟨vertices, fillColor, edgeColor⟩] x y = -1) := by
  have hrot := isPointInPolygon_of_rotated_or_reversed ⟨x, y⟩ hv
  constructor
  · intro h
    have := isPointInPolygon_rectangle_inside h
    simp [getPolygonUnderMouse, getPolygonUnderMouseFrom, hrot, this]
  · intro h
    have := isPointInPolygon_rectangle_outside hx hy h
    simp [getPolygonUnderMouse, getPolygonUnderMouseFrom, hrot, this]

theorem getPolygonUnderMouse_rectangle_witness :
    (0 : ℚ) < 10 ∧ (0 : ℚ) < 10 ∧
      getPolygonUnderMouse [⟨[⟨0, 0⟩, ⟨10, 0⟩, ⟨10, 10⟩, ⟨0, 10⟩], "#00ff00", "#000000"⟩] 5 5
        = 0 ∧
      getPolygonUnderMouse [⟨[⟨0, 0⟩, ⟨10, 0⟩, ⟨10, 10⟩, ⟨0, 10⟩], "#00ff00", "#000000"⟩] 20 20
        = -1 :=
  ⟨by norm_num, by norm_num,
    (getPolygonUnderMouse_rectangle 0 0 10 10 (by norm_num) (by norm_num)
      [⟨0, 0⟩, ⟨10, 0⟩, ⟨10, 10⟩, ⟨0, 10⟩] (Or.inl ⟨0, rfl⟩) "#00ff00" "#000000" 5 5).1
      ⟨by norm_num, by norm_num, by norm_num, by norm_num⟩,
    (getPolygonUnderMouse_rectangle 0 0 10 10 (by norm_num) (by norm_num)
      [⟨0, 0⟩, ⟨10, 0⟩, ⟨10, 10⟩, ⟨0, 10⟩] (Or.inl ⟨0, rfl⟩) "#00ff00" "#000000" 20 20).2
      (Or.inr (Or.inl (by norm_num)))⟩

/-! ## The edge table -/

theorem edgeTableEntry_as_specified (e : Vertex × Vertex) :
    edgeTableEntry e.1 e.2
      = (if e.1.y = e.2.y then none
          else some
            { ymin := (lowerEnd e).y
              ymax := (upperEnd e).y
              x := (lowerEnd e).x
              slopeInverse :=
                ((upperEnd e).x - (lowerEnd e).x) / ((upperEnd e).y - (lowerEnd e).y)
              : Edge }).toList := by
  unfold edgeTableEntry lowerEnd upperEnd
  rcases lt_trichotomy e.1.y e.2.y with h | h | h
  · simp [ne_of_lt h, h, le_of_lt h, not_lt.mpr (le_of_lt h)]
  · simp [h]
  · simp [ne_of_gt h, h, not_le.mpr h, not_lt.mpr (le_of_lt h)]

theorem flatMap_toList_eq_filterMap {α β : Type} (f : α → Option β) (l : List α) :
    l.flatMap (fun a => (f a).toList) = l.filterMap f := by
  induction l with
  | nil => rfl
  | cons a l ih =>
    rw [List.flatMap_cons, ih, List.filterMap_cons]
    cases f a <;> rfl

/-- C15: the edge table built by `fillPolygon` is the table of the specification: one entry
per polygon edge whose endpoints have different `y`, in edge order, none for a horizontal
edge, with `ymin` and `ymax` the `y` of the lower and upper endpoint, `x` the `x` of the
lower endpoint and `slopeInverse = (x_upper - x_lower) / (y_upper - y_lower)`; every entry
has `ymin < ymax`, so the divisor is not zero; sorting permutes the entries into
non-decreasing order of `ymin`. -/
theorem buildEdgeTable_as_specified (vertices : List Vertex) :
    buildEdgeTable vertices = edgeTableAsSpecified vertices ∧
      (buildEdgeTable vertices).length
        = (polygonEdges vertices).countP (fun e => decide (e.1.y ≠ e.2.y)) ∧
      (∀ r ∈ buildEdgeTable vertices, r.ymin < r.ymax ∧ r.ymax - r.ymin ≠ 0) ∧
      (sortByYmin (buildEdgeTable vertices)).Perm (buildEdgeTable vertices) ∧
      (sortByYmin (buildEdgeTable vertices)).Sorted (fun a b => a.ymin ≤ b.ymin) := by
  have hspec : buildEdgeTable vertices = edgeTableAsSpecified vertices := by
    rw [buildEdgeTable_eq_flatMap, edgeTableAsSpecified, ← flatMap_toList_eq_filterMap]
    congr 1
    funext e
    exact edgeTableEntry_as_specified e
  refine ⟨hspec, ?_, ?_, List.perm_insertionSort _ _, List.sorted_insertionSort _ _⟩
  · rw [hspec, edgeTableAsSpecified]
    generalize polygonEdges vertices = l
    induction l with
    | nil => rfl
    | cons e l ih =>
      rw [List.filterMap_cons, List.countP_cons]
      by_cases h : e.1.y = e.2.y
      · simp [h, ih]
      · simp [h, ih]
  · intro r hr
    have hr' : r ∈ sortByYmin (buildEdgeTable vertices) :=
      (List.perm_insertionSort _ _).mem_iff.mpr hr
    have := edgeTable_wf vertices r hr'
    exact ⟨this, by linarith⟩

/-! ## The active edge table row by row -/

theorem foldl_min_le (ys : List ℚ) (y0 : ℚ) :
    ys.foldl min y0 ≤ y0 ∧ ∀ y ∈ ys, ys.foldl min y0 ≤ y := by
  induction ys generalizing y0 with
  | nil => exact ⟨le_refl _, fun y hy => absurd hy (List.not_mem_nil _)⟩
  | cons a ys ih =>
    rw [List.foldl_cons]
    obtain ⟨h1, h2⟩ := ih (min y0 a)
    refine ⟨le_trans h1 (min_le_left _ _), fun y hy => ?_⟩
    rcases List.mem_cons.mp hy with rfl | hy
    · exact le_trans h1 (min_le_right _ _)
    · exact h2 y hy

theorem foldl_min_mem (ys : List ℚ) (y0 : ℚ) : ys.foldl min y0 ∈ y0 :: ys := by
  induction ys generalizing y0 with
  | nil => simp
  | cons a ys ih =>
    rw [List.foldl_cons]
    have := ih (min y0 a)
    rcases List.mem_cons.mp this with h | h
    · rw [h]
      rcases min_choice y0 a with h' | h' <;> rw [h'] <;> simp
    · exact List.mem_cons_of_mem _ (List.mem_cons_of_mem _ h)

theorem yMin_le {vs : List Vertex} {v : Vertex} (hv : v ∈ vs) : yMin vs ≤ v.y := by
  unfold yMin
  have hm : v.y ∈ vs.map (fun v => v.y) := List.mem_map_of_mem _ hv
  generalize vs.map (fun v => v.y) = l at hm
  cases l with
  | nil => cases hm
  | cons y0 ys =>
    rcases List.mem_cons.mp hm with h | h
    · rw [h]; exact (foldl_min_le ys y0).1
    · exact (foldl_min_le ys y0).2 _ h

theorem yMin_mem {vs : List Vertex} (hne : vs ≠ []) : ∃ v ∈ vs, yMin vs = v.y := by
  unfold yMin
  have hm : ∀ y ∈ vs.map (fun v => v.y), ∃ v ∈ vs, y = v.y := by
    intro y hy
    obtain ⟨v, hv, rfl⟩ := List.mem_map.mp hy
    exact ⟨v, hv, rfl⟩
  have hl : vs.map (fun v => v.y) ≠ [] := by simpa using hne
  generalize vs.map (fun v => v.y) = l at hm hl
  cases l with
  | nil => exact absurd rfl hl
  | cons y0 ys => exact hm _ (foldl_min_mem ys y0)

/-- The function `fillPolygon` on a non-empty vertex list is the scan loop started at row
`y_min` with an empty active edge table. -/
theorem fillPolygon_eq_scanLoop (polygon : Polygon) (hne : polygon.vertices ≠ []) :
    fillPolygon polygon
      = scanLoop (sortByYmin (buildEdgeTable polygon.vertices)) polygon.fillColor
          (yMax polygon.vertices) (rowCount (yMin polygon.vertices) (yMax polygon.vertices))
          (yMin polygon.vertices) [] := by
  unfold fillPolygon yMin yMax
  have hl : polygon.vertices.map (fun v => v.y) ≠ [] := by simpa using hne
  generalize polygon.vertices.map (fun v => v.y) = l at hl
  cases l with
  | nil => exact absurd rfl hl
  | cons y0 ys => rfl

theorem filter_or_perm {α : Type} (p q : α → Bool) (l : List α)
    (h : ∀ x ∈ l, ¬ (p x = true ∧ q x = true)) :
    (l.filter p ++ l.filter q).Perm (l.filter fun x => p x || q x) := by
  induction l with
  | nil => exact List.Perm.refl _
  | cons a l ih =>
    have ih := ih (fun x hx => h x (List.mem_cons_of_mem _ hx))
    have ha := h a (List.mem_cons_self _ _)
    cases hp : p a <;> cases hq : q a
    · simpa [List.filter_cons, hp, hq] using ih
    · simp only [List.filter_cons, hp, hq, Bool.or_true, if_true, if_false]
      exact List.perm_middle.trans (ih.cons a)
    · simp only [List.filter_cons, hp, hq, Bool.or_false, if_true, if_false,
        List.cons_append]
      exact ih.cons a
    · exact absurd ⟨hp, hq⟩ ha

theorem edgeAtRow_of_ymin {y : ℚ} {e : Edge} (h : e.ymin = y) : edgeAtRow y e = e := by
  cases e
  simp only at h
  simp [edgeAtRow, h]

theorem advance_edgeAtRow (y : ℚ) (e : Edge) :
    ({ edgeAtRow y e with x := (edgeAtRow y e).x + (edgeAtRow y e).slopeInverse } : Edge)
      = edgeAtRow (y + 1) e := by
  cases e
  simp only [edgeAtRow, Edge.mk.injEq, true_and, and_true]
  ring

/-- The table left by the row before row `y`: the entries that met the row `y - 1`, moved
to row `y`. -/
theorem activeAt_asSpecified {ET : List Edge} (hwf : ∀ e ∈ ET, e.ymin < e.ymax) {y : ℚ}
    {aet : List Edge}
    (h : aet.Perm ((ET.filter fun e => decide (e.ymin < y ∧ y ≤ e.ymax)).map (edgeAtRow y))) :
    (activeAt ET y aet).Perm (activeAsSpecified ET y) := by
  have h1 : (aet.filter fun e => decide (e.ymax > y)).Perm
      ((ET.filter fun e => decide (e.ymin < y ∧ y < e.ymax)).map (edgeAtRow y)) := by
    have hf := h.filter (fun e => decide (e.ymax > y))
    rw [List.filter_map, List.filter_filter] at hf
    convert hf using 2
    apply List.filter_congr
    intro e _
    simp only [Function.comp, edgeAtRow, gt_iff_lt]
    by_cases a : y < e.ymax <;> by_cases b : e.ymin < y <;> simp [a, b, le_of_lt]
  have h2 : (ET.filter fun e => decide (e.ymin = y))
      = (ET.filter fun e => decide (e.ymin = y ∧ y < e.ymax)).map (edgeAtRow y) := by
    have hfe : (ET.filter fun e => decide (e.ymin = y))
        = ET.filter fun e => decide (e.ymin = y ∧ y < e.ymax) := by
      apply List.filter_congr
      intro e he
      by_cases a : e.ymin = y
      · have := hwf e he
        rw [a] at this
        simp [a, this]
      · simp [a]
    rw [hfe]
    conv_lhs => rw [← List.map_id (ET.filter fun e => decide (e.ymin = y ∧ y < e.ymax))]
    apply List.map_congr_left
    intro e he
    have := (List.mem_filter.mp he).2
    simp only [decide_eq_true_eq] at this
    exact (edgeAtRow_of_ymin this.1).symm
  have h3 : ((ET.filter fun e => decide (e.ymin < y ∧ y < e.ymax)) ++
      (ET.filter fun e => decide (e.ymin = y ∧ y < e.ymax))).Perm
      (ET.filter fun e => decide (e.ymin ≤ y ∧ y < e.ymax)) := by
    have := filter_or_perm (fun e : Edge => decide (e.ymin < y ∧ y < e.ymax))
      (fun e : Edge => decide (e.ymin = y ∧ y < e.ymax)) ET (by
        intro e _ hc
        simp only [decide_eq_true_eq] at hc
        linarith [hc.1.1, hc.2.1])
    convert this using 2
    funext e
    by_cases a : y < e.ymax
    · rcases lt_trichotomy e.ymin y with b | b | b
      · simp [a, b, le_of_lt b, ne_of_lt b]
      · simp [a, b]
      · simp [a, not_le.mpr b, not_lt.mpr (le_of_lt b), ne_of_gt b]
    · simp [a]
  refine (activeAt_perm ET y aet).trans ?_
  rw [h2]
  refine (List.Perm.append_right _ h1).trans ?_
  rw [← List.map_append]
  exact h3.map _

/-- The table left for row `y + 1` by a row `y` whose active edge table is as specified,
when the row and the edge table have integer `y` coordinates. -/
theorem advance_asSpecified {ET : List Edge}
    (hint : ∀ e ∈ ET, (∃ m : ℤ, e.ymin = m) ∧ ∃ n : ℤ, e.ymax = n) {y : ℚ}
    (hy : ∃ j : ℤ, y = j) {A : List Edge} (h : A.Perm (activeAsSpecified ET y)) :
    (advance A).Perm
      ((ET.filter fun e => decide (e.ymin < y + 1 ∧ y + 1 ≤ e.ymax)).map
        (edgeAtRow (y + 1))) := by
  unfold advance
  refine (h.map _).trans ?_
  unfold activeAsSpecified
  rw [List.map_map]
  have hf : (ET.filter fun e => decide (e.ymin ≤ y ∧ y < e.ymax))
      = ET.filter fun e => decide (e.ymin < y + 1 ∧ y + 1 ≤ e.ymax) := by
    apply List.filter_congr
    intro e he
    obtain ⟨⟨m, hm⟩, ⟨n, hn⟩⟩ := hint e he
    obtain ⟨j, hj⟩ := hy
    rw [hm, hn, hj]
    apply decide_eq_decide.mpr
    constructor
    · rintro ⟨a, b⟩
      have a' : m ≤ j := by exact_mod_cast a
      have b' : j < n := by exact_mod_cast b
      exact ⟨by exact_mod_cast (show m < j + 1 by omega),
        by exact_mod_cast (show j + 1 ≤ n by omega)⟩
    · rintro ⟨a, b⟩
      have a' : m < j + 1 := by exact_mod_cast a
      have b' : j + 1 ≤ n := by exact_mod_cast b
      exact ⟨by exact_mod_cast (show m ≤ j by omega),
        by exact_mod_cast (show j < n by omega)⟩
  rw [hf]
  apply List.Perm.of_eq
  apply List.map_congr_left
  intro e _
  exact advance_edgeAtRow y e

/-- Row by row: with integer `y` coordinates the active edge table of every row is the one
of the specification. -/
theorem activeAtRow_asSpecified {ET : List Edge} (hwf : ∀ e ∈ ET, e.ymin < e.ymax)
    (hint : ∀ e ∈ ET, (∃ m : ℤ, e.ymin = m) ∧ ∃ n : ℤ, e.ymax = n) (k : Nat) :
    ∀ (y : ℚ) (aet : List Edge), (∃ j : ℤ, y = j) →
      aet.Perm ((ET.filter fun e => decide (e.ymin < y ∧ y ≤ e.ymax)).map (edgeAtRow y)) →
      (activeAtRow ET y aet k).Perm (activeAsSpecified ET (y + k)) := by
  induction k with
  | zero =>
    intro y aet _ h
    simpa [activeAtRow] using activeAt_asSpecified hwf h
  | succ k ih =>
    intro y aet hy h
    have hA := activeAt_asSpecified hwf h
    have hP := advance_asSpecified hint hy hA
    have hy1 : ∃ j : ℤ, y + 1 = j := by
      obtain ⟨j, hj⟩ := hy
      exact ⟨j + 1, by rw [hj]; push_cast; ring⟩
    have := ih (y + 1) _ hy1 hP
    rw [activeAtRow]
    have e : y + ((k + 1 : ℕ) : ℚ) = y + 1 + (k : ℚ) := by push_cast; ring
    rw [e]
    exact this

/-! ## Polygons with integer rows -/

theorem edgeTable_ends {vs : List Vertex} {r : Edge}
    (hr : r ∈ sortByYmin (buildEdgeTable vs)) :
    ∃ u ∈ vs, ∃ v ∈ vs, r.ymin = u.y ∧ r.ymax = v.y := by
  obtain ⟨e, he, hre⟩ := (mem_sortByYmin vs r).mp hr
  have h1 := polygonEdges_mem_left he
  have h2 := polygonEdges_mem_right he
  rcases (mem_edgeTableEntry e.1 e.2 r).mp hre with ⟨-, rfl⟩ | ⟨-, rfl⟩
  · exact ⟨e.1, h1, e.2, h2, rfl, rfl⟩
  · exact ⟨e.2, h2, e.1, h1, rfl, rfl⟩

theorem edgeTable_integer {vs : List Vertex} (hint : IntegerRows vs) :
    ∀ e ∈ sortByYmin (buildEdgeTable vs), (∃ m : ℤ, e.ymin = m) ∧ ∃ n : ℤ, e.ymax = n := by
  intro r hr
  obtain ⟨u, hu, v, hv, h1, h2⟩ := edgeTable_ends hr
  exact ⟨⟨⌊u.y⌋, by rw [h1, hint u hu]⟩, ⟨⌊v.y⌋, by rw [h2, hint v hv]⟩⟩

theorem yMin_integer {vs : List Vertex} (hint : IntegerRows vs) : ∃ j : ℤ, yMin vs = j := by
  by_cases hne : vs = []
  · subst hne
    exact ⟨0, by simp [yMin]⟩
  · obtain ⟨v, hv, h⟩ := yMin_mem hne
    exact ⟨⌊v.y⌋, by rw [h, hint v hv]⟩

/-- No entry of the edge table starts below the first row. -/
theorem pending_start (vs : List Vertex) :
    ([] : List Edge).Perm
      (((sortByYmin (buildEdgeTable vs)).filter fun e =>
        decide (e.ymin < yMin vs ∧ yMin vs ≤ e.ymax)).map (edgeAtRow (yMin vs))) := by
  have : ((sortByYmin (buildEdgeTable vs)).filter fun e =>
      decide (e.ymin < yMin vs ∧ yMin vs ≤ e.ymax)) = [] := by
    rw [List.filter_eq_nil_iff]
    intro r hr
    obtain ⟨u, hu, -, -, h1, -⟩ := edgeTable_ends hr
    have := yMin_le hu
    simp only [decide_eq_true_eq, not_and, not_le]
    intro h
    linarith
  rw [this]
  exact List.Perm.refl _

theorem entry_countP (a b : Vertex) (y : ℚ) :
    (edgeTableEntry a b).countP (fun e => decide (e.ymin ≤ y ∧ y < e.ymax))
      = if straddles a b y = true then 1 else 0 := by
  have hs := straddles_iff a b y
  unfold edgeTableEntry
  rcases lt_trichotomy a.y b.y with h | h | h
  · simp only [ne_eq, ne_of_lt h, not_false_eq_true, if_true, h, not_lt.mpr (le_of_lt h),
      if_false, List.countP_cons, List.countP_nil, zero_add]
    by_cases c : a.y ≤ y ∧ y < b.y
    · rw [if_pos (by simpa using c), if_pos (hs.mpr (Or.inl c))]
    · rw [if_neg (by simpa using c), if_neg]
      intro hc
      rcases hs.mp hc with c' | c'
      · exact c c'
      · linarith [c'.1, c'.2]
  · have : ¬ straddles a b y = true := by
      intro hc
      rcases hs.mp hc with c' | c' <;> linarith [c'.1, c'.2]
    simp [h, this]
  · simp only [ne_eq, ne_of_gt h, not_false_eq_true, if_true, h, not_lt.mpr (le_of_lt h),
      if_false, List.countP_cons, List.countP_nil, zero_add]
    by_cases c : b.y ≤ y ∧ y < a.y
    · rw [if_pos (by simpa using c), if_pos (hs.mpr (Or.inr c))]
    · rw [if_neg (by simpa using c), if_neg]
      intro hc
      rcases hs.mp hc with c' | c'
      · linarith [c'.1, c'.2]
      · exact c c'

theorem edgeTable_countP (vs : List Vertex) (y : ℚ) :
    (sortByYmin (buildEdgeTable vs)).countP (fun e => decide (e.ymin ≤ y ∧ y < e.ymax))
      = (polygonEdges vs).countP (fun e => straddles e.1 e.2 y) := by
  unfold sortByYmin
  rw [(List.perm_insertionSort _ _).countP_eq, buildEdgeTable_eq_flatMap]
  generalize polygonEdges vs = l
  induction l with
  | nil => rfl
  | cons e l ih =>
    rw [List.flatMap_cons, List.countP_append, ih, entry_countP, List.countP_cons]
    by_cases h : straddles e.1 e.2 y = true
    · simp [h]; omega
    · simp [h]

/-- A closed polygon has an even number of edges that straddle a given row. -/
theorem straddling_even (vs : List Vertex) (y : ℚ) :
    Even ((polygonEdges vs).countP (fun e => straddles e.1 e.2 y)) := by
  obtain ⟨x, hx, h0⟩ := winding_far_left vs y
  obtain ⟨k, hk⟩ := winding_parity ⟨x, y⟩ vs
  have hc : rayCrossings ⟨x, y⟩ vs
      = (polygonEdges vs).countP (fun e => straddles e.1 e.2 y) := by
    unfold rayCrossings
    apply List.countP_congr
    intro e he
    simp only [Bool.and_eq_true, decide_eq_true_eq]
    exact ⟨fun h => h.1, fun h => ⟨h, hx e he⟩⟩
  rw [h0, hc] at hk
  rw [Nat.even_iff]
  omega

theorem activeAsSpecified_even (vs : List Vertex) (y : ℚ) :
    Even (activeAsSpecified (sortByYmin (buildEdgeTable vs)) y).length := by
  unfold activeAsSpecified
  rw [List.length_map, ← List.countP_eq_length_filter, edgeTable_countP]
  exact straddling_even vs y

theorem activeAtRow_integer {vs : List Vertex} (hint : IntegerRows vs) (k : Nat) :
    (activeAtRow (sortByYmin (buildEdgeTable vs)) (yMin vs) [] k).Perm
      (activeAsSpecified (sortByYmin (buildEdgeTable vs)) (yMin vs + k)) :=
  activeAtRow_asSpecified (edgeTable_wf vs) (edgeTable_integer hint) k _ _
    (yMin_integer hint) (pending_start vs)

theorem fillPolygon_ok_of_integer {polygon : Polygon} (hint : IntegerRows polygon.vertices) :
    (fillPolygon polygon).ok = true := by
  by_cases hne : polygon.vertices = []
  · unfold fillPolygon
    rw [hne]
    rfl
  · rw [fillPolygon_eq_scanLoop polygon hne, scanLoop_ok_iff]
    intro k _ _
    rw [(activeAtRow_integer hint k).length_eq]
    exact activeAsSpecified_even _ _

theorem rowCount_enough {y_min y_max : ℚ} {k : Nat} (h : y_min + k ≤ y_max) :
    k < rowCount y_min y_max := by
  unfold rowCount
  have h1 : (k : ℤ) ≤ ⌊y_max - y_min⌋ := Int.le_floor.mpr (by push_cast; linarith)
  omega

theorem edgeAtRow_crossingX {a b : Vertex} {r : Edge} (hr : r ∈ edgeTableEntry a b) (y : ℚ) :
    (edgeAtRow y r).x = crossingX a b y := by
  rcases (mem_edgeTableEntry a b r).mp hr with ⟨h, rfl⟩ | ⟨h, rfl⟩
  · simp only [edgeAtRow, crossingX]
    rw [mul_div_assoc]
  · have h1 : a.y - b.y ≠ 0 := by intro c; linarith
    have h2 : b.y - a.y ≠ 0 := by intro c; linarith
    simp only [edgeAtRow, crossingX]
    field_simp
    ring

theorem rowCount_bound {y_min y_max : ℚ} {k : Nat} (h : k < rowCount y_min y_max) :
    y_min + k ≤ y_max := by
  unfold rowCount at h
  have h1 : (k : ℤ) ≤ ⌊y_max - y_min⌋ := by omega
  have h2 := Int.le_floor.mp h1
  push_cast at h2
  linarith

/-- When every row has an even number of active edges, the commands of the scan loop are
the spans of the rows it visits, row `y + k` being paired from `activeAtRow ET y aet k`. -/
theorem scanLoop_cmds_of_even (ET : List Edge) (color : String) (y_max : ℚ) (fuel : Nat)
    (y : ℚ) (aet : List Edge)
    (hev : ∀ k < fuel, y + k ≤ y_max → Even (activeAtRow ET y aet k).length) :
    (scanLoop ET color y_max fuel y aet).cmds
      = (List.range fuel).flatMap fun k =>
          if y + k ≤ y_max then (pairLoop (y + k) color (activeAtRow ET y aet k)).cmds
          else [] := by
  induction fuel generalizing y aet with
  | zero => rfl
  | succ n ih =>
    rw [List.range_succ_eq_map, List.flatMap_cons, List.flatMap_map, scanLoop]
    by_cases hy : y ≤ y_max
    · have h0 : (pairLoop y color (activeAt ET y aet)).ok = true :=
        (pairLoop_ok_iff _ _ _).mpr
          (by simpa [activeAtRow] using hev 0 (by omega) (by simpa using hy))
      have hrest : ∀ k < n, y + 1 + k ≤ y_max →
          Even (activeAtRow ET (y + 1) (advance (activeAt ET y aet)) k).length := by
        intro k hk hky
        have := hev (k + 1) (by omega) (by push_cast; linarith)
        simpa [activeAtRow] using this
      rw [if_pos hy]
      simp only [Run.seq, h0, if_true, Nat.cast_zero, add_zero, if_pos hy, activeAtRow]
      rw [ih _ _ hrest]
      congr 1
      apply List.flatMap_congr
      intro k _
      simp only [Function.comp, Nat.cast_succ]
      have e : y + 1 + (k : ℚ) = y + ((k : ℚ) + 1) := by ring
      rw [e]
    · rw [if_neg hy]
      simp only [Nat.cast_zero, add_zero, if_neg hy, List.nil_append]
      symm
      show _ = ([] : List Cmd)
      rw [List.flatMap_eq_nil_iff]
      intro k _
      rw [if_neg]
      intro hc
      have : (0 : ℚ) ≤ ((k.succ : ℕ) : ℚ) := Nat.cast_nonneg _
      exact hy (by linarith)

theorem fillPolygon_cmds_of_integer {polygon : Polygon} (hne : polygon.vertices ≠ [])
    (hint : IntegerRows polygon.vertices) :
    (fillPolygon polygon).cmds
      = (List.range (rowCount (yMin polygon.vertices) (yMax polygon.vertices))).flatMap
          fun k => (pairLoop (yMin polygon.vertices + k) polygon.fillColor
            (activeAtRow (sortByYmin (buildEdgeTable polygon.vertices))
              (yMin polygon.vertices) [] k)).cmds := by
  rw [fillPolygon_eq_scanLoop polygon hne, scanLoop_cmds_of_even]
  · apply List.flatMap_congr
    intro k hk
    rw [if_pos (rowCount_bound (List.mem_range.mp hk))]
  · intro k _ _
    rw [(activeAtRow_integer hint k).length_eq]
    exact activeAsSpecified_even _ _

/-- C16: for a polygon whose vertices all have an integer `y`, `fillPolygon` is the scan loop
from row `y_min`, it completes, what it draws is, row after row, the pairing of the active
edge table of the row, and for every row `y = y_min + k ≤ y_max` (a row within the fuel of
the loop) the active edge table at the moment the spans of the row are drawn is a
permutation of the entries of the edge table with `ymin ≤ y < ymax`, each with
`x = x_lower + (y - ymin) * slopeInverse`; that `x` is where the edge crosses the row. -/
theorem activeAtRow_integer_rows (polygon : Polygon) (hne : polygon.vertices ≠ [])
    (hint : IntegerRows polygon.vertices) :
    fillPolygon polygon
        = scanLoop (sortByYmin (buildEdgeTable polygon.vertices)) polygon.fillColor
            (yMax polygon.vertices)
            (rowCount (yMin polygon.vertices) (yMax polygon.vertices))
            (yMin polygon.vertices) [] ∧
      (fillPolygon polygon).ok = true ∧
      (fillPolygon polygon).cmds
        = (List.range (rowCount (yMin polygon.vertices) (yMax polygon.vertices))).flatMap
            (fun k => (pairLoop (yMin polygon.vertices + k) polygon.fillColor
              (activeAtRow (sortByYmin (buildEdgeTable polygon.vertices))
                (yMin polygon.vertices) [] k)).cmds) ∧
      (∀ k : ℕ, yMin polygon.vertices + k ≤ yMax polygon.vertices →
        k < rowCount (yMin polygon.vertices) (yMax polygon.vertices) ∧
        (activeAtRow (sortByYmin (buildEdgeTable polygon.vertices))
            (yMin polygon.vertices) [] k).Perm
          (activeAsSpecified (sortByYmin (buildEdgeTable polygon.vertices))
            (yMin polygon.vertices + k))) ∧
      ∀ e ∈ polygonEdges polygon.vertices, ∀ r ∈ edgeTableEntry e.1 e.2, ∀ y : ℚ,
        (edgeAtRow y r).x = crossingX e.1 e.2 y :=
  ⟨fillPolygon_eq_scanLoop polygon hne, fillPolygon_ok_of_integer hint,
    fillPolygon_cmds_of_integer hne hint,
    fun k hk => ⟨rowCount_enough hk, activeAtRow_integer hint k⟩,
    fun _ _ _ hr y => edgeAtRow_crossingX hr y⟩

theorem activeAtRow_integer_rows_witness :
    smallTriangle.vertices ≠ [] ∧ IntegerRows smallTriangle.vertices ∧
      (fillPolygon smallTriangle).ok = true ∧
      (activeAtRow (sortByYmin (buildEdgeTable smallTriangle.vertices))
          (yMin smallTriangle.vertices) [] 1).Perm
        (activeAsSpecified (sortByYmin (buildEdgeTable smallTriangle.vertices))
          (yMin smallTriangle.vertices + (1 : ℕ))) :=
  ⟨by decide, by decide!,
    (activeAtRow_integer_rows smallTriangle (by decide) (by decide!)).2.1,
    ((activeAtRow_integer_rows smallTriangle (by decide) (by decide!)).2.2.2.1 1
      (by decide!)).2⟩

/-- C18: for a polygon whose vertices all have an integer `y` (simple or not, with any
number of vertices), the active edge table has an even number of entries at every row, so
the pairing loop never reads past its end, and `fillPolygon` completes. -/
theorem fillPolygon_integer_rows_ok (polygon : Polygon)
    (hint : IntegerRows polygon.vertices) :
    (∀ k : ℕ, Even (activeAtRow (sortByYmin (buildEdgeTable polygon.vertices))
        (yMin polygon.vertices) [] k).length) ∧
      (∀ k : ℕ, (pairLoop (yMin polygon.vertices + k) polygon.fillColor
        (activeAtRow (sortByYmin (buildEdgeTable polygon.vertices))
          (yMin polygon.vertices) [] k)).ok = true) ∧
      (fillPolygon polygon).ok = true := by
  have hev : ∀ k : ℕ, Even (activeAtRow (sortByYmin (buildEdgeTable polygon.vertices))
      (yMin polygon.vertices) [] k).length := by
    intro k
    rw [(activeAtRow_integer hint k).length_eq]
    exact activeAsSpecified_even _ _
  exact ⟨hev, fun k => (pairLoop_ok_iff _ _ _).mpr (hev k), fillPolygon_ok_of_integer hint⟩

theorem fillPolygon_integer_rows_ok_witness :
    IntegerRows bowTie.vertices ∧ (fillPolygon bowTie).ok = true :=
  ⟨by decide!, (fillPolygon_integer_rows_ok bowTie (by decide!)).2.2⟩

/-- C17: there is a polygon with a vertex of non-integer `y` and a row visited by
`fillPolygon` at which an entry of the edge table with `ymin ≤ y < ymax` is not in the
active edge table: for `(0,0), (10,-0.5), (20,0), (10,10)` the rows are `-0.5, 0.5, ...`,
the fill completes, and at row `0.5` the active edge table is empty although the entry of
the edge from `(20,0)` to `(10,10)` has `ymin = 0 ≤ 0.5 < 10 = ymax`; that entry would only
be added at a row equal to `0`. -/
theorem active_edge_dropped :
    ∃ (vertices : List Vertex) (k : ℕ) (e : Edge),
      vertices = kite ∧ yMin vertices + k = 1 / 2 ∧
      (∃ v ∈ vertices, (⌊v.y⌋ : ℚ) ≠ v.y) ∧
      yMin vertices + k ≤ yMax vertices ∧
      (fillPolygon ⟨vertices, "#00ff00", "#000000"⟩).ok = true ∧
      e ∈ sortByYmin (buildEdgeTable vertices) ∧
      e.ymin ≤ yMin vertices + k ∧ yMin vertices + k < e.ymax ∧
      activeAtRow (sortByYmin (buildEdgeTable vertices)) (yMin vertices) [] k = [] ∧
      (∀ j : ℕ, e.ymin ≠ yMin vertices + j) := by
  refine ⟨kite, 1, ⟨0, 10, 20, -1⟩, rfl, by decide!, ⟨⟨10, -1 / 2⟩, by decide!, by decide!⟩,
    by decide!, by decide!, by decide!, by decide!, by decide!, by decide!, ?_⟩
  intro j
  have h : yMin kite = -1 / 2 := by decide!
  rw [h]
  intro hc
  have h2 : ((2 * j - 1 : ℤ) : ℚ) = 0 := by push_cast; linarith
  have h3 : (2 * (j : ℤ) - 1) = 0 := by exact_mod_cast h2
  omega

/-! ## Degenerate polygons -/

theorem scanLoop_nil (color : String) (y_max : ℚ) (fuel : Nat) (y : ℚ) :
    scanLoop [] color y_max fuel y [] = Run.done := by
  induction fuel generalizing y with
  | zero => rfl
  | succ n ih =>
    have hA : activeAt [] y [] = [] := rfl
    rw [scanLoop, hA]
    split
    · have hadv : advance [] = [] := rfl
      rw [hadv, ih]
      rfl
    · rfl

theorem buildEdgeTable_horizontal {vs : List Vertex}
    (h : ∀ e ∈ polygonEdges vs, e.1.y = e.2.y) : buildEdgeTable vs = [] := by
  rw [buildEdgeTable_eq_flatMap, List.flatMap_eq_nil_iff]
  intro e he
  unfold edgeTableEntry
  rw [if_neg (not_not.mpr (h e he))]

theorem fillPolygon_horizontal {polygon : Polygon}
    (h : ∀ e ∈ polygonEdges polygon.vertices, e.1.y = e.2.y) :
    fillPolygon polygon = ⟨[], true⟩ := by
  by_cases hne : polygon.vertices = []
  · unfold fillPolygon
    rw [hne]
    rfl
  · rw [fillPolygon_eq_scanLoop polygon hne, buildEdgeTable_horizontal h]
    exact scanLoop_nil _ _ _ _

theorem scanLoop_spans_of_inv (ET : List Edge) (color : String) (y_max : ℚ)
    (Q : ℚ → ℤ → ℤ → Prop) (P : ℚ → List Edge → Prop)
    (hstep : ∀ y aet, P y aet →
      SpansSatisfy color Q (pairLoop y color (activeAt ET y aet)).cmds ∧
        P (y + 1) (advance (activeAt ET y aet))) :
    ∀ (fuel : Nat) (y : ℚ) (aet : List Edge), P y aet →
      SpansSatisfy color Q (scanLoop ET color y_max fuel y aet).cmds := by
  intro fuel
  induction fuel with
  | zero => intro y aet _; exact SpansSatisfy.nil _ _
  | succ n ih =>
    intro y aet h
    rw [scanLoop]
    split
    · exact SpansSatisfy.seq (hstep y aet h).1 (ih _ _ (hstep y aet h).2)
    · exact SpansSatisfy.nil _ _

theorem pairLoop_empty_spans (y : ℚ) (color : String) (X : ℚ) (A : List Edge)
    (h : ∀ r ∈ A, r.x = X) :
    SpansSatisfy color (fun _ startX endX => startX = endX) (pairLoop y color A).cmds := by
  have key : ∀ A : List Edge, (∀ r ∈ A, r.x = X) →
      SpansSatisfy color (fun _ startX endX => startX = endX) (pairLoop y color A).cmds ∧
      ∀ a, a.x = X →
        SpansSatisfy color (fun _ startX endX => startX = endX)
          (pairLoop y color (a :: A)).cmds := by
    intro A
    induction A with
    | nil =>
      intro _
      exact ⟨SpansSatisfy.nil _ _, fun a _ => SpansSatisfy.nil _ _⟩
    | cons b rest ih =>
      intro hA
      have hb : b.x = X := hA b (List.mem_cons_self _ _)
      have hrest := ih (fun r hr => hA r (List.mem_cons_of_mem _ hr))
      refine ⟨hrest.2 b hb, fun a ha => ?_⟩
      rw [pairLoop]
      refine SpansSatisfy.seq ⟨[(y, ⌊a.x⌋, ⌊b.x⌋)], by simp [Run.emit], ?_⟩ hrest.1
      intro t ht
      rw [List.mem_singleton.mp ht, ha, hb]
  exact (key A h).1

theorem entry_on_line {a b c : ℚ} {u v : Vertex} (hu : a * u.x + b * u.y = c)
    (hv : a * v.x + b * v.y = c) {r : Edge} (hr : r ∈ edgeTableEntry u v) :
    a * r.x + b * r.ymin = c ∧ a * r.slopeInverse + b = 0 := by
  rcases (mem_edgeTableEntry u v r).mp hr with ⟨h, rfl⟩ | ⟨h, rfl⟩
  · have hne : v.y - u.y ≠ 0 := by intro e; linarith
    refine ⟨hu, ?_⟩
    simp only
    field_simp
    linear_combination hv - hu
  · have hne : u.y - v.y ≠ 0 := by intro e; linarith
    refine ⟨hv, ?_⟩
    simp only
    field_simp
    linear_combination hu - hv

theorem collinear_spans {polygon : Polygon} (hc : CollinearVertices polygon.vertices) :
    SpansSatisfy polygon.fillColor (fun _ startX endX => startX = endX)
      (fillPolygon polygon).cmds := by
  obtain ⟨a, b, c, hab, hline⟩ := hc
  by_cases ha : a = 0
  · have hb : b ≠ 0 := by
      rcases hab with h | h
      · exact absurd ha h
      · exact h
    have hh : ∀ e ∈ polygonEdges polygon.vertices, e.1.y = e.2.y := by
      intro e he
      have h1 := hline e.1 (polygonEdges_mem_left he)
      have h2 := hline e.2 (polygonEdges_mem_right he)
      rw [ha, zero_mul, zero_add] at h1 h2
      exact mul_left_cancel₀ hb (h1.trans h2.symm)
    rw [fillPolygon_horizontal hh]
    exact SpansSatisfy.nil _ _
  · by_cases hne : polygon.vertices = []
    · have : fillPolygon polygon = Run.done := by
        unfold fillPolygon
        rw [hne]
        rfl
      rw [this]
      exact SpansSatisfy.nil _ _
    · rw [fillPolygon_eq_scanLoop polygon hne]
      have hET : ∀ r ∈ sortByYmin (buildEdgeTable polygon.vertices),
          a * r.x + b * r.ymin = c ∧ a * r.slopeInverse + b = 0 := by
        intro r hr
        obtain ⟨e, he, hre⟩ := (mem_sortByYmin _ r).mp hr
        exact entry_on_line (hline e.1 (polygonEdges_mem_left he))
          (hline e.2 (polygonEdges_mem_right he)) hre
      refine scanLoop_spans_of_inv _ _ _ _
        (fun y aet => ∀ r ∈ aet, a * r.x + b * y = c ∧ a * r.slopeInverse + b = 0) ?_ _ _ _
        (fun r hr => absurd hr (List.not_mem_nil _))
      intro y aet hP
      have hA : ∀ r ∈ activeAt (sortByYmin (buildEdgeTable polygon.vertices)) y aet,
          a * r.x + b * y = c ∧ a * r.slopeInverse + b = 0 := by
        intro r hr
        rcases List.mem_append.mp ((activeAt_perm _ y aet).mem_iff.mp hr) with h | h
        · exact hP r (List.mem_of_mem_filter h)
        · obtain ⟨h1, h2⟩ := List.mem_filter.mp h
          simp only [decide_eq_true_eq] at h2
          rw [← h2]
          exact hET r h1
      constructor
      · apply pairLoop_empty_spans y _ ((c - b * y) / a)
        intro r hr
        rw [eq_div_iff ha]
        linarith [(hA r hr).1]
      · intro r hr
        unfold advance at hr
        obtain ⟨r0, hr0, rfl⟩ := List.mem_map.mp hr
        obtain ⟨h1, h2⟩ := hA r0 hr0
        exact ⟨by simp only; linarith, h2⟩

/-- C12 does not hold as stated: the triangle `(0,0), (4,0), (2,2)` has only 2
non-horizontal edges, yet `fillPolygon` fills it with the spans `0..4` on row `0` and `1..3`
on row `1`; for the collinear vertices `(0,0), (2,1), (4,2)` it emits two (empty) spans; for
the collinear vertices `(0,0), (2,0.5), (8,2)` it throws. -/
theorem fillPolygon_degenerate_counterexample :
    (buildEdgeTable baseTriangle.vertices).length = 2 ∧
      fillPolygon baseTriangle
        = ⟨spanCmds 0 0 4 "#00ff00" ++ spanCmds 1 1 3 "#00ff00", true⟩ ∧
      CollinearVertices slantedLine.vertices ∧
      fillPolygon slantedLine
        = ⟨spanCmds 0 0 0 "#00ff00" ++ spanCmds 1 2 2 "#00ff00", true⟩ ∧
      CollinearVertices brokenLine.vertices ∧
      (fillPolygon brokenLine).ok = false :=
  ⟨by decide!, by decide!, ⟨1, -2, 0, Or.inl (by norm_num), by decide!⟩, by decide!,
    ⟨1, -4, 0, Or.inl (by norm_num), by decide!⟩, by decide!⟩

/-! ## Properties of the rounding to a double -/

theorem pow2_eq_zpow (e : ℤ) : pow2 e = (2 : ℚ) ^ e := by
  unfold pow2
  split
  · rename_i h
    obtain ⟨n, rfl⟩ := Int.eq_ofNat_of_zero_le h
    simp
  · rename_i h
    have h' : 0 ≤ -e := by omega
    obtain ⟨n, hn⟩ := Int.eq_ofNat_of_zero_le h'
    have he : e = -(n : ℤ) := by omega
    subst he
    simp

theorem pow2_pos (e : ℤ) : 0 < pow2 e := by
  rw [pow2_eq_zpow]
  positivity

theorem bitLength_zero (fuel : Nat) : bitLength fuel 0 = 0 := by
  cases fuel <;> simp [bitLength]

theorem bitLength_spec (fuel : Nat) :
    ∀ n : Nat, n ≤ fuel → 0 < n →
      0 < bitLength fuel n ∧ 2 ^ (bitLength fuel n - 1) ≤ n ∧ n < 2 ^ bitLength fuel n := by
  induction fuel with
  | zero => intro n h1 h2; omega
  | succ f ih =>
    intro n h1 h2
    have hn : n ≠ 0 := by omega
    simp only [bitLength, hn, if_false]
    by_cases h : n / 2 = 0
    · have : n = 1 := by omega
      subst this
      simp [h, bitLength_zero]
    · obtain ⟨a, b, c⟩ := ih (n / 2) (by omega) (by omega)
      refine ⟨by omega, ?_, ?_⟩
      · simp only [Nat.add_sub_cancel]
        have : 2 ^ bitLength f (n / 2) = 2 * 2 ^ (bitLength f (n / 2) - 1) := by
          rw [← pow_succ']
          congr 1
          omega
        omega
      · rw [pow_succ]
        omega

theorem binaryExponent_le (x : ℚ) (hx : x ≠ 0) : pow2 (binaryExponent x) ≤ |x| := by
  unfold binaryExponent
  split
  · assumption
  · have hn : 0 < x.num.natAbs := Int.natAbs_pos.mpr (Rat.num_ne_zero.mpr hx)
    have hd : 0 < x.den := x.den_pos
    obtain ⟨a1, a2, -⟩ := bitLength_spec x.num.natAbs x.num.natAbs le_rfl hn
    obtain ⟨b1, -, b3⟩ := bitLength_spec x.den x.den le_rfl hd
    generalize bitLength x.num.natAbs x.num.natAbs = bn at a1 a2
    generalize bitLength x.den x.den = bd at b1 b3
    have habs : |x| = (x.num.natAbs : ℚ) / (x.den : ℚ) := by
      rw [Rat.abs_def, Rat.divInt_eq_div]
      push_cast
      rw [Nat.cast_natAbs, Int.cast_abs]
    rw [habs, pow2_eq_zpow, le_div_iff₀ (by exact_mod_cast hd)]
    have e1 : ((bn : ℤ) - bd - 1) = ((bn - 1 : ℕ) : ℤ) - (bd : ℤ) := by omega
    rw [e1, zpow_sub₀ (by norm_num), zpow_natCast, zpow_natCast,
      div_mul_eq_mul_div, div_le_iff₀ (by positivity)]
    have a2' : ((2 : ℚ) ^ (bn - 1)) ≤ (x.num.natAbs : ℚ) := by exact_mod_cast a2
    have b3' : (x.den : ℚ) ≤ (2 : ℚ) ^ bd := by exact_mod_cast le_of_lt b3
    have h0 : (0 : ℚ) ≤ (2 : ℚ) ^ (bn - 1) := by positivity
    have h1 : (0 : ℚ) ≤ (x.den : ℚ) := by positivity
    calc (2 : ℚ) ^ (bn - 1) * (x.den : ℚ) ≤ (2 : ℚ) ^ (bn - 1) * (2 : ℚ) ^ bd :=
          mul_le_mul_of_nonneg_left b3' h0
      _ ≤ (x.num.natAbs : ℚ) * (2 : ℚ) ^ bd :=
          mul_le_mul_of_nonneg_right a2' (by positivity)

theorem roundHalfEven_near (q : ℚ) : |(roundHalfEven q : ℚ) - q| ≤ 1 / 2 := by
  have h1 := Int.floor_le q
  have h2 := Int.lt_floor_add_one q
  unfold roundHalfEven
  rw [abs_le]
  split_ifs with a b c
  · constructor <;> linarith
  · push_cast; constructor <;> linarith
  · push_neg at a b
    constructor <;> linarith
  · push_neg at a b
    push_cast
    constructor <;> linarith

theorem roundHalfEven_intCast (z : ℤ) : roundHalfEven (z : ℚ) = z := by
  unfold roundHalfEven
  simp

/-- The rounding changes a number by at most the fraction `2 ^ (-53)` of its magnitude. -/
theorem roundDouble_near (x : ℚ) : |roundDouble x - x| ≤ |x| / 2 ^ 53 := by
  unfold roundDouble
  split
  · rename_i h
    simp [h]
  · rename_i hx
    have hp := pow2_pos (binaryExponent x - 52)
    have hle := binaryExponent_le x hx
    generalize binaryExponent x = e at hp hle
    have hq := roundHalfEven_near (x / pow2 (e - 52))
    have hrw : (roundHalfEven (x / pow2 (e - 52)) : ℚ) * pow2 (e - 52) - x
        = ((roundHalfEven (x / pow2 (e - 52)) : ℚ) - x / pow2 (e - 52)) * pow2 (e - 52) := by
      field_simp
    rw [hrw, abs_mul, abs_of_pos hp]
    have hpe : pow2 (e - 52) = pow2 e / 2 ^ 52 := by
      rw [pow2_eq_zpow, pow2_eq_zpow, zpow_sub₀ (by norm_num)]
      norm_num
    have h3 : |(roundHalfEven (x / pow2 (e - 52)) : ℚ) - x / pow2 (e - 52)| * pow2 (e - 52)
        ≤ 1 / 2 * pow2 (e - 52) := mul_le_mul_of_nonneg_right hq (le_of_lt hp)
    have h4 : 1 / 2 * pow2 (e - 52) = pow2 e / 2 ^ 53 := by
      rw [hpe]; ring
    calc _ ≤ 1 / 2 * pow2 (e - 52) := h3
      _ = pow2 e / 2 ^ 53 := h4
      _ ≤ |x| / 2 ^ 53 := div_le_div_of_nonneg_right hle (by positivity)

/-- Integers below `2 ^ 53` in magnitude are doubles: the rounding leaves them unchanged. -/
theorem roundDouble_intCast (n : ℤ) (hn : |n| < 2 ^ 53) : roundDouble (n : ℚ) = n := by
  unfold roundDouble
  split
  · rename_i h
    exact h.symm
  · rename_i hx
    have hle := binaryExponent_le (n : ℚ) hx
    generalize binaryExponent (n : ℚ) = e at hle
    have habs : |(n : ℚ)| < 2 ^ 53 := by exact_mod_cast hn
    have he : e ≤ 52 := by
      by_contra hcon
      push_neg at hcon
      have h53 : (2 : ℚ) ^ (53 : ℤ) ≤ (2 : ℚ) ^ e :=
        zpow_le_zpow_right₀ (by norm_num) (by omega)
      rw [pow2_eq_zpow] at hle
      have : (2 : ℚ) ^ (53 : ℤ) = 2 ^ 53 := by norm_num
      linarith
    obtain ⟨m, hm⟩ := Int.eq_ofNat_of_zero_le (show 0 ≤ 52 - e by omega)
    have hpe : pow2 (e - 52) = 1 / (2 : ℚ) ^ m := by
      rw [pow2_eq_zpow, show e - 52 = -(m : ℤ) by omega, zpow_neg, zpow_natCast]
      simp
    have hq : (n : ℚ) / pow2 (e - 52) = ((n * 2 ^ m : ℤ) : ℚ) := by
      rw [hpe]
      push_cast
      field_simp
    rw [hq, roundHalfEven_intCast, hpe]
    push_cast
    field_simp

/-! ## Hit test with rounded arithmetic -/

theorem foldl_step_eq_hitWalk (I : Vertex → Vertex → Bool) (vs : List Vertex) :
    ∀ (suf pre : List Vertex) (j : Nat) (inside : Bool), vs = pre ++ suf →
      ((List.range' pre.length suf.length).foldl
          (fun (st : Nat × Bool) i =>
            (i, if I (vs.getD i default) (vs.getD st.1 default) then !st.2 else st.2))
          (j, inside)).2
        = hitWalk I (vs.getD j default) suf inside := by
  intro suf
  induction suf with
  | nil => intro pre j inside _; simp [hitWalk]
  | cons v suf ih =>
    intro pre j inside h
    have hv : vs.getD pre.length default = v := by
      subst h
      rw [List.getD_append_right _ _ _ _ (le_refl _)]
      simp
    have h2 : vs = (pre ++ [v]) ++ suf := by simp [h]
    have := ih (pre ++ [v]) pre.length
      (if I v (vs.getD j default) then !inside else inside) h2
    simp only [List.length_append, List.length_singleton] at this
    simp only [List.length_cons, List.range'_succ, List.foldl_cons, hitWalk]
    rw [← hv] at this ⊢
    simpa using this

theorem hitWalk_parity (I : Vertex → Vertex → Bool) (vs : List Vertex) (prev : Vertex)
    (inside : Bool) :
    hitWalk I prev vs inside =
      xor inside (decide (((prev :: vs).zip vs).countP (fun e => I e.2 e.1) % 2 = 1)) := by
  induction vs generalizing prev inside with
  | nil => simp [hitWalk]
  | cons v vs ih =>
    rw [hitWalk, ih, List.zip_cons_cons, List.countP_cons]
    simp only []
    by_cases hc : I v prev = true
    · simp only [hc, if_true]
      have key : ∀ n : Nat, decide ((n + 1) % 2 = 1) = !decide (n % 2 = 1) := by
        intro n
        rcases Nat.mod_two_eq_zero_or_one n with h0 | h1
        · have : (n + 1) % 2 = 1 := by omega
          simp [h0, this]
        · have : (n + 1) % 2 = 0 := by omega
          simp [h1, this]
      rw [key]
      cases inside <;> simp
    · simp only [Bool.not_eq_true] at hc
      simp [hc]

/-- The loop of a hit test toggles once per polygon edge whose test succeeds. -/
theorem hitLoop_parity (I : Vertex → Vertex → Bool) (vs : List Vertex) :
    ((List.range vs.length).foldl
        (fun (st : Nat × Bool) i =>
          (i, if I (vs.getD i default) (vs.getD st.1 default) then !st.2 else st.2))
        (vs.length - 1, false)).2
      = decide ((polygonEdges vs).countP (fun e => I e.2 e.1) % 2 = 1) := by
  cases vs with
  | nil => simp [polygonEdges]
  | cons v t =>
    have h := foldl_step_eq_hitWalk I (v :: t) (v :: t) [] (t.length) false (by simp)
    simp only [List.length_nil] at h
    rw [List.range_eq_range']
    simp only [List.length_cons, Nat.add_sub_cancel]
    simp only [List.length_cons] at h
    rw [h, hitWalk_parity]
    simp only [Bool.false_xor, polygonEdges]
    have hrot : (v :: t).rotate 1 = t ++ [v] := by simp [List.rotate_cons_succ]
    congr 2
    rw [hrot, zip_snoc_of_length (v :: t) t v default (by simp)]
    rw [List.zip_cons_cons, List.countP_cons, List.countP_append]
    simp only [List.countP_cons, List.countP_nil, zero_add]

theorem intersectR_eq_computed (rnd : ℚ → ℚ) (p a b : Vertex) :
    intersectR rnd p b a
      = (straddles a b p.y && decide (p.x < computedCrossingX rnd a b p)) := by
  unfold intersectR straddles computedCrossingX
  by_cases ha : a.y > p.y <;> by_cases hb : b.y > p.y <;> simp [ha, hb]

theorem isPointInPolygonR_eq_odd (rnd : ℚ → ℚ) (p : Vertex) (vs : List Vertex) :
    isPointInPolygonR rnd p vs = decide (computedCrossings rnd p vs % 2 = 1) := by
  have h := hitLoop_parity (fun vi vj => intersectR rnd p vi vj) vs
  unfold isPointInPolygonR computedCrossings
  have hstep : isPointInPolygonStepR rnd p vs
      = fun (st : Nat × Bool) i =>
          (i, if intersectR rnd p (vs.getD i default) (vs.getD st.1 default)
            then !st.2 else st.2) := rfl
  rw [hstep, h]
  have hf : (fun e : Vertex × Vertex => intersectR rnd p e.2 e.1)
      = fun e => straddles e.1 e.2 p.y && decide (p.x < computedCrossingX rnd e.1 e.2 p) := by
    funext e
    exact intersectR_eq_computed rnd p e.1 e.2
  rw [hf]

theorem intersectR_id (p vi vj : Vertex) : intersectR id p vi vj = intersect p vi vj := rfl

theorem isPointInPolygonR_id (p : Vertex) (vs : List Vertex) :
    isPointInPolygonR id p vs = isPointInPolygon p vs := rfl

theorem computedCrossings_id (p : Vertex) (vs : List Vertex) :
    computedCrossings id p vs = rayCrossings p vs := by
  unfold computedCrossings rayCrossings
  apply List.countP_congr
  intro e _
  rw [← intersectR_eq_computed, intersectR_id, intersect_eq_crossing]

/-- C2 does not hold as stated for the arithmetic of the code: for the point with the
doubles nearest to `(2.1, 0.3)` and the triangle `(0,0), (7,1), (2,9)`, no edge crosses the
row of the point strictly to its right (the edge from `(0,0)` to `(7,1)` crosses it at
`7 * 0.3 < 2.1`), yet the code computes the crossing of that edge as `2.1000000000000005`,
which is greater than the `x` of the point, and returns `true`. -/
theorem isPointInPolygon_rounding_counterexample :
    rayCrossings nearEdgePoint slimTriangle = 0 ∧
      crossingX ⟨0, 0⟩ ⟨7, 1⟩ nearEdgePoint.y < nearEdgePoint.x ∧
      nearEdgePoint.x < computedCrossingX roundDouble ⟨0, 0⟩ ⟨7, 1⟩ nearEdgePoint ∧
      isPointInPolygonR roundDouble nearEdgePoint slimTriangle = true := by
  decide!

/-! ## Winding number and the rounded hit test -/

theorem computedCrossings_eq_of_agree (rnd : ℚ → ℚ) (p : Vertex) (vs : List Vertex)
    (h : ∀ e ∈ polygonEdges vs, straddles e.1 e.2 p.y = true →
      (p.x < computedCrossingX rnd e.1 e.2 p ↔ p.x < crossingX e.1 e.2 p.y)) :
    computedCrossings rnd p vs = rayCrossings p vs := by
  unfold computedCrossings rayCrossings
  apply List.countP_congr
  intro e he
  by_cases hs : straddles e.1 e.2 p.y = true
  · simp only [hs, Bool.true_and, decide_eq_true_eq]
    exact h e he hs
  · simp only [Bool.not_eq_true] at hs
    simp [hs]

theorem slimTriangle_simple : SimplePolygon slimTriangle := by
  refine ⟨by decide, by decide!, ?_⟩
  have hE : polygonEdges slimTriangle
      = [(⟨0, 0⟩, ⟨7, 1⟩), (⟨7, 1⟩, ⟨2, 9⟩), (⟨2, 9⟩, ⟨0, 0⟩)] := by decide!
  rw [hE]
  intro e he f hf hne z hze hzf
  simp only [List.mem_cons, List.mem_singleton, List.not_mem_nil, or_false] at he hf
  rcases he with rfl | rfl | rfl <;> rcases hf with rfl | rfl | rfl
  all_goals first
    | exact absurd rfl hne
    | (obtain ⟨t, ht0, ht1, hx, hy⟩ := hze
       obtain ⟨s, hs0, hs1, hx', hy'⟩ := hzf
       simp only [] at hx hy hx' hy'
       first
         | exact Or.inl ⟨rfl, vertex_eq_of (by dsimp only; linarith)
             (by dsimp only; linarith)⟩
         | exact Or.inr ⟨rfl, vertex_eq_of (by dsimp only; linarith)
             (by dsimp only; linarith)⟩)

/-- C3 does not hold as stated for the arithmetic of the code: the triangle
`(0,0), (7,1), (2,9)` is simple and its winding number around the point with the doubles
nearest to `(2.1, 0.3)` is `0` (the point lies outside, just below the edge from `(0,0)` to
`(7,1)`), yet the code returns `true`, because the crossing of that edge is computed as
`2.1000000000000005`; on the same triangle listed in the reverse order it returns `false`. -/
theorem isPointInPolygon_winding_counterexample :
    SimplePolygon slimTriangle ∧
      windingNumber nearEdgePoint slimTriangle = 0 ∧
      isPointInPolygonR roundDouble nearEdgePoint slimTriangle = true ∧
      isPointInPolygonR roundDouble nearEdgePoint slimTriangle.reverse = false :=
  ⟨slimTriangle_simple, by decide!, by decide!, by decide!⟩

/-! ## Lists related element by element -/

theorem forall2_orderedInsert {α β : Type} {R : α → β → Prop} {r1 : α → α → Prop}
    {r2 : β → β → Prop} [DecidableRel r1] [DecidableRel r2]
    (hr : ∀ a b a' b', R a a' → R b b' → (r1 a b ↔ r2 a' b')) {a : α} {a' : β} (ha : R a a')
    {l : List α} {l' : List β} (h : List.Forall₂ R l l') :
    List.Forall₂ R (l.orderedInsert r1 a) (l'.orderedInsert r2 a') := by
  induction h with
  | nil => exact List.Forall₂.cons ha List.Forall₂.nil
  | cons hb hl ih =>
    rename_i b b' l l'
    simp only [List.orderedInsert]
    by_cases h1 : r1 a b
    · have h2 := (hr a b a' b' ha hb).mp h1
      rw [if_pos h1, if_pos h2]
      exact List.Forall₂.cons ha (List.Forall₂.cons hb hl)
    · have h2 : ¬ r2 a' b' := fun h => h1 ((hr a b a' b' ha hb).mpr h)
      rw [if_neg h1, if_neg h2]
      exact List.Forall₂.cons hb ih

theorem forall2_insertionSort {α β : Type} {R : α → β → Prop} {r1 : α → α → Prop}
    {r2 : β → β → Prop} [DecidableRel r1] [DecidableRel r2]
    (hr : ∀ a b a' b', R a a' → R b b' → (r1 a b ↔ r2 a' b'))
    {l : List α} {l' : List β} (h : List.Forall₂ R l l') :
    List.Forall₂ R (l.insertionSort r1) (l'.insertionSort r2) := by
  induction h with
  | nil => exact List.Forall₂.nil
  | cons ha _ ih =>
    simp only [List.insertionSort]
    exact forall2_orderedInsert hr ha ih

theorem forall2_filter {α β : Type} {R : α → β → Prop} {p : α → Bool} {q : β → Bool}
    (hpq : ∀ a b, R a b → p a = q b) {l : List α} {l' : List β} (h : List.Forall₂ R l l') :
    List.Forall₂ (fun a b => R a b ∧ q b = true) (l.filter p) (l'.filter q) := by
  induction h with
  | nil => exact List.Forall₂.nil
  | cons hab hl ih =>
    rename_i a b l l'
    have hp := hpq a b hab
    cases hq : q b
    · rw [hq] at hp
      rw [List.filter_cons_of_neg (by simp [hp]), List.filter_cons_of_neg (by simp [hq])]
      exact ih
    · rw [hq] at hp
      rw [List.filter_cons_of_pos hp, List.filter_cons_of_pos hq]
      exact List.Forall₂.cons ⟨hab, hq⟩ ih

theorem forall2_map_of_mem {α β γ δ : Type} {R : α → β → Prop} {S : γ → δ → Prop}
    {f : α → γ} {g : β → δ} {l : List α} {l' : List β} (h : List.Forall₂ R l l') :
    (∀ a b, b ∈ l' → R a b → S (f a) (g b)) → List.Forall₂ S (l.map f) (l'.map g) := by
  induction h with
  | nil => intro _; exact List.Forall₂.nil
  | cons hab _ ih =>
    intro hfg
    simp only [List.map_cons]
    exact List.Forall₂.cons (hfg _ _ (List.mem_cons_self _ _) hab)
      (ih fun a b hb hR => hfg a b (List.mem_cons_of_mem _ hb) hR)

theorem forall2_flatMap {ι α β : Type} {R : α → β → Prop} {f : ι → List α} {g : ι → List β}
    (l : List ι) (h : ∀ i ∈ l, List.Forall₂ R (f i) (g i)) :
    List.Forall₂ R (l.flatMap f) (l.flatMap g) := by
  induction l with
  | nil => exact List.Forall₂.nil
  | cons i l ih =>
    rw [List.flatMap_cons, List.flatMap_cons]
    exact List.rel_append (h i (List.mem_cons_self _ _))
      (ih fun j hj => h j (List.mem_cons_of_mem _ hj))

/-! ## Error of the rounded scan -/

/-- One more rounded addition of the rounded slope moves `x` away from the exact value by
at most `2 ^ (-35)` more, for magnitudes as they occur with pixel coordinates. -/
theorem advance_error (rnd : ℚ → ℚ) (hR : ∀ x, |rnd x - x| ≤ |x| / 2 ^ 53)
    (xr x s k : ℚ) (hx : |x| ≤ 32768) (hs : |s| ≤ 65536) (hk : k ≤ 65536)
    (he : |xr - x| ≤ k / 2 ^ 35) :
    |rnd (xr + rnd s) - (x + s)| ≤ (k + 1) / 2 ^ 35 := by
  have h1 := hR s
  have h2 := hR (xr + rnd s)
  have hs1 : |rnd s - s| ≤ 65536 / 2 ^ 53 :=
    le_trans h1 (div_le_div_of_nonneg_right hs (by positivity))
  have hk1 : k / 2 ^ 35 ≤ 65536 / 2 ^ 35 := div_le_div_of_nonneg_right hk (by positivity)
  rw [abs_le] at hx hs hs1 he
  have hz : |xr + rnd s| ≤ 131072 := by
    rw [abs_le]
    constructor <;> norm_num at * <;> linarith
  have h3 : |rnd (xr + rnd s) - (xr + rnd s)| ≤ 131072 / 2 ^ 53 :=
    le_trans h2 (div_le_div_of_nonneg_right hz (by positivity))
  rw [abs_le] at h3 ⊢
  constructor <;> norm_num at * <;> linarith

/-- A number within `2 ^ (-19)` of a fraction `x` with denominator at most `65536` has its
floor between `x - 1` and `x`. -/
theorem floor_near_grid (xr x : ℚ) (D P : ℤ) (hD : 0 < D) (hD' : D ≤ 65536)
    (hx : x * D = P) (he : |xr - x| ≤ 1 / 2 ^ 19) :
    x - 1 ≤ (⌊xr⌋ : ℚ) ∧ (⌊xr⌋ : ℚ) ≤ x := by
  have h1 := Int.floor_le xr
  have h2 := Int.lt_floor_add_one xr
  rw [abs_le] at he
  have hDq : (0 : ℚ) < D := by exact_mod_cast hD
  have hDq' : (D : ℚ) ≤ 65536 := by exact_mod_cast hD'
  constructor
  · by_contra hcon
    push_neg at hcon
    have h3 : ((⌊xr⌋ + 1 : ℤ) : ℚ) * D < P := by
      rw [← hx]
      push_cast
      exact mul_lt_mul_of_pos_right (by linarith) hDq
    have h4 : (⌊xr⌋ + 1) * D + 1 ≤ P := by
      have : (⌊xr⌋ + 1) * D < P := by exact_mod_cast h3
      omega
    have h5 : ((⌊xr⌋ : ℚ) + 1) * D + 1 ≤ x * D := by
      rw [hx]
      exact_mod_cast h4
    have h6 : (x - ((⌊xr⌋ : ℚ) + 1)) * D ≤ 1 / 2 ^ 19 * 65536 :=
      mul_le_mul (by linarith) hDq' (le_of_lt hDq) (by norm_num)
    norm_num at h6
    linarith
  · by_contra hcon
    push_neg at hcon
    have h3 : (P : ℚ) < ((⌊xr⌋ : ℤ) : ℚ) * D := by
      rw [← hx]
      exact mul_lt_mul_of_pos_right hcon hDq
    have h4 : P + 1 ≤ ⌊xr⌋ * D := by
      have : P < ⌊xr⌋ * D := by exact_mod_cast h3
      omega
    have h5 : x * D + 1 ≤ (⌊xr⌋ : ℚ) * D := by
      rw [hx]
      exact_mod_cast h4
    have h6 : ((⌊xr⌋ : ℚ) - x) * D ≤ 1 / 2 ^ 19 * 65536 :=
      mul_le_mul (by linarith) hDq' (le_of_lt hDq) (by norm_num)
    norm_num at h6
    linarith

/-! ## The rounded edge table of a polygon with pixel vertices -/

theorem rnd_sub_pixel (rnd : ℚ → ℚ) (hR : ∀ n : ℤ, |n| < 2 ^ 53 → rnd (n : ℚ) = n)
    (u w : ℚ) (hu : (⌊u⌋ : ℚ) = u) (hw : (⌊w⌋ : ℚ) = w) (hu' : |u| ≤ 32768)
    (hw' : |w| ≤ 32768) : rnd (u - w) = u - w := by
  have h : u - w = ((⌊u⌋ - ⌊w⌋ : ℤ) : ℚ) := by push_cast; rw [hu, hw]
  rw [h]
  apply hR
  have h1 : |(⌊u⌋ : ℚ)| ≤ 32768 := by rw [hu]; exact hu'
  have h2 : |(⌊w⌋ : ℚ)| ≤ 32768 := by rw [hw]; exact hw'
  have h1' : |⌊u⌋| ≤ 32768 := by exact_mod_cast h1
  have h2' : |⌊w⌋| ≤ 32768 := by exact_mod_cast h2
  rw [abs_le] at h1' h2'
  rw [abs_lt]
  constructor <;> norm_num <;> omega

theorem buildEdgeTableR_eq_flatMap (rnd : ℚ → ℚ) (vs : List Vertex) :
    buildEdgeTableR rnd vs = (polygonEdges vs).flatMap fun e => edgeTableEntryR rnd e.1 e.2 := by
  rw [polygonEdges_eq_map_range, buildEdgeTableR, List.flatMap_map]

theorem edgeTableEntryR_shadow (rnd : ℚ → ℚ) (hR : ∀ n : ℤ, |n| < 2 ^ 53 → rnd (n : ℚ) = n)
    {vs : List Vertex} (hp : PixelVertices vs) {e : Vertex × Vertex}
    (he : e ∈ polygonEdges vs) :
    List.Forall₂ (ShadowEntry rnd) (edgeTableEntryR rnd e.1 e.2) (edgeTableEntry e.1 e.2) := by
  obtain ⟨a1, a2, a3, a4⟩ := hp e.1 (polygonEdges_mem_left he)
  obtain ⟨b1, b2, b3, b4⟩ := hp e.2 (polygonEdges_mem_right he)
  have kx1 := rnd_sub_pixel rnd hR _ _ b1 a1 b3 a3
  have kx2 := rnd_sub_pixel rnd hR _ _ a1 b1 a3 b3
  have kx3 := rnd_sub_pixel rnd hR _ _ a1 a1 a3 a3
  have kx4 := rnd_sub_pixel rnd hR _ _ b1 b1 b3 b3
  have ky1 := rnd_sub_pixel rnd hR _ _ b2 a2 b4 a4
  have ky2 := rnd_sub_pixel rnd hR _ _ a2 b2 a4 b4
  have ky3 := rnd_sub_pixel rnd hR _ _ a2 a2 a4 a4
  have ky4 := rnd_sub_pixel rnd hR _ _ b2 b2 b4 b4
  unfold edgeTableEntryR edgeTableEntry
  by_cases h : e.1.y ≠ e.2.y
  · rw [if_pos h, if_pos h]
    refine List.Forall₂.cons ⟨rfl, rfl, rfl, ?_⟩ List.Forall₂.nil
    simp only []
    split_ifs <;> simp only [kx1, kx2, kx3, kx4, ky1, ky2, ky3, ky4]
  · rw [if_neg h, if_neg h]
    exact List.Forall₂.nil

theorem edgeTableR_shadow (rnd : ℚ → ℚ) (hR : ∀ n : ℤ, |n| < 2 ^ 53 → rnd (n : ℚ) = n)
    {vs : List Vertex} (hp : PixelVertices vs) :
    List.Forall₂ (ShadowEntry rnd) (sortByYmin (buildEdgeTableR rnd vs))
      (sortByYmin (buildEdgeTable vs)) := by
  unfold sortByYmin
  apply forall2_insertionSort
  · intro a b a' b' ha hb
    rw [ha.1, hb.1]
  · rw [buildEdgeTableR_eq_flatMap, buildEdgeTable_eq_flatMap]
    exact forall2_flatMap _ fun e he => edgeTableEntryR_shadow rnd hR hp he

/-- Magnitudes of an active edge of a polygon with pixel vertices on an integer row, and
the denominator of its exact `x`. -/
theorem active_pixel_facts {vs : List Vertex} (hp : PixelVertices vs) (y : ℚ) (n : ℤ)
    (hy : y = n) (a : Edge) (hmem : baseEdge y a ∈ sortByYmin (buildEdgeTable vs))
    (h1 : a.ymin ≤ y) (h2 : y < a.ymax) :
    |a.x| ≤ 32768 ∧ |a.slopeInverse| ≤ 65536 ∧ y - a.ymin ≤ 65536 ∧
      ∃ D P : ℤ, 0 < D ∧ D ≤ 65536 ∧ a.x * D = P := by
  obtain ⟨e, he, hr⟩ := (mem_sortByYmin vs _).mp hmem
  have key : ∀ lo hi : Vertex, lo ∈ vs → hi ∈ vs → lo.y < hi.y →
      baseEdge y a = ⟨lo.y, hi.y, lo.x, (hi.x - lo.x) / (hi.y - lo.y)⟩ →
      |a.x| ≤ 32768 ∧ |a.slopeInverse| ≤ 65536 ∧ y - a.ymin ≤ 65536 ∧
        ∃ D P : ℤ, 0 < D ∧ D ≤ 65536 ∧ a.x * D = P := by
    intro lo hi hlo hhi hlt hb
    obtain ⟨a1, a2, a3, a4⟩ := hp lo hlo
    obtain ⟨b1, b2, b3, b4⟩ := hp hi hhi
    have hymin : a.ymin = lo.y := congrArg Edge.ymin hb
    have hymax : a.ymax = hi.y := congrArg Edge.ymax hb
    have hsl : a.slopeInverse = (hi.x - lo.x) / (hi.y - lo.y) := congrArg Edge.slopeInverse hb
    have hbx : a.x - (y - a.ymin) * a.slopeInverse = lo.x := congrArg Edge.x hb
    have hx : a.x = lo.x + (y - lo.y) * ((hi.x - lo.x) / (hi.y - lo.y)) := by
      rw [← hsl, ← hymin]; linarith
    rw [hymin] at h1
    rw [hymax] at h2
    rw [abs_le] at a3 a4 b3 b4
    have hdy : ((⌊hi.y⌋ - ⌊lo.y⌋ : ℤ) : ℚ) = hi.y - lo.y := by push_cast; rw [a2, b2]
    have hD0 : 0 < ⌊hi.y⌋ - ⌊lo.y⌋ := by
      have : (0 : ℚ) < ((⌊hi.y⌋ - ⌊lo.y⌋ : ℤ) : ℚ) := by rw [hdy]; linarith
      exact_mod_cast this
    have hD1 : ⌊hi.y⌋ - ⌊lo.y⌋ ≤ 65536 := by
      have : ((⌊hi.y⌋ - ⌊lo.y⌋ : ℤ) : ℚ) ≤ 65536 := by rw [hdy]; linarith
      exact_mod_cast this
    have hone : (1 : ℚ) ≤ hi.y - lo.y := by
      rw [← hdy]
      have : 1 ≤ ⌊hi.y⌋ - ⌊lo.y⌋ := by omega
      exact_mod_cast this
    have hpos : (0 : ℚ) < hi.y - lo.y := by linarith
    have hne : hi.y - lo.y ≠ 0 := ne_of_gt hpos
    have ht0 : 0 ≤ (y - lo.y) / (hi.y - lo.y) := div_nonneg (by linarith) (le_of_lt hpos)
    have ht1 : (y - lo.y) / (hi.y - lo.y) ≤ 1 := (div_le_one hpos).mpr (by linarith)
    have hx' : a.x = lo.x + (y - lo.y) / (hi.y - lo.y) * (hi.x - lo.x) := by
      rw [hx]; field_simp
    generalize (y - lo.y) / (hi.y - lo.y) = t at ht0 ht1 hx'
    refine ⟨?_, ?_, ?_, ⌊hi.y⌋ - ⌊lo.y⌋,
      ⌊lo.x⌋ * (⌊hi.y⌋ - ⌊lo.y⌋) + (n - ⌊lo.y⌋) * (⌊hi.x⌋ - ⌊lo.x⌋), hD0, hD1, ?_⟩
    · rw [abs_le, hx']
      constructor
      · nlinarith [mul_nonneg ht0 (show 0 ≤ hi.x + 32768 by linarith),
          mul_nonneg (show 0 ≤ 1 - t by linarith) (show 0 ≤ lo.x + 32768 by linarith)]
      · nlinarith [mul_nonneg ht0 (show 0 ≤ 32768 - hi.x by linarith),
          mul_nonneg (show 0 ≤ 1 - t by linarith) (show 0 ≤ 32768 - lo.x by linarith)]
    · rw [hsl, abs_div, abs_of_pos hpos]
      have hdx : |hi.x - lo.x| ≤ 65536 := by
        rw [abs_le]; constructor <;> linarith
      calc |hi.x - lo.x| / (hi.y - lo.y) ≤ |hi.x - lo.x| / 1 :=
            div_le_div_of_nonneg_left (abs_nonneg _) one_pos hone
        _ ≤ 65536 := by rw [div_one]; exact hdx
    · rw [hymin]; linarith
    · rw [hx]
      push_cast
      rw [a1, a2, b1, b2, ← hy]
      field_simp
  rcases (mem_edgeTableEntry e.1 e.2 _).mp hr with ⟨h, hb⟩ | ⟨h, hb⟩
  · exact key e.1 e.2 (polygonEdges_mem_left he) (polygonEdges_mem_right he) h hb
  · exact key e.2 e.1 (polygonEdges_mem_right he) (polygonEdges_mem_left he) h hb

theorem binaryExponent_lt (x : ℚ) (hx : x ≠ 0) : |x| < pow2 (binaryExponent x + 1) := by
  unfold binaryExponent
  split
  · have hn : 0 < x.num.natAbs := Int.natAbs_pos.mpr (Rat.num_ne_zero.mpr hx)
    have hd : 0 < x.den := x.den_pos
    obtain ⟨a1, -, a3⟩ := bitLength_spec x.num.natAbs x.num.natAbs le_rfl hn
    obtain ⟨b1, b2, -⟩ := bitLength_spec x.den x.den le_rfl hd
    generalize bitLength x.num.natAbs x.num.natAbs = bn at a1 a3
    generalize bitLength x.den x.den = bd at b1 b2
    have habs : |x| = (x.num.natAbs : ℚ) / (x.den : ℚ) := by
      rw [Rat.abs_def, Rat.divInt_eq_div]
      push_cast
      rw [Nat.cast_natAbs, Int.cast_abs]
    rw [habs, pow2_eq_zpow, div_lt_iff₀ (by exact_mod_cast hd)]
    have e1 : ((bn : ℤ) - bd + 1) = (bn : ℤ) - ((bd - 1 : ℕ) : ℤ) := by omega
    rw [e1, zpow_sub₀ (by norm_num), zpow_natCast, zpow_natCast,
      div_mul_eq_mul_div, lt_div_iff₀ (by positivity)]
    have a3' : (x.num.natAbs : ℚ) < (2 : ℚ) ^ bn := by exact_mod_cast a3
    have b2' : ((2 : ℚ) ^ (bd - 1)) ≤ (x.den : ℚ) := by exact_mod_cast b2
    have h0 : (0 : ℚ) < (2 : ℚ) ^ (bd - 1) := by positivity
    calc (x.num.natAbs : ℚ) * (2 : ℚ) ^ (bd - 1) < (2 : ℚ) ^ bn * (2 : ℚ) ^ (bd - 1) :=
          mul_lt_mul_of_pos_right a3' h0
      _ ≤ (2 : ℚ) ^ bn * (x.den : ℚ) := mul_le_mul_of_nonneg_left b2' (by positivity)
  · rename_i h
    push_neg at h
    rw [sub_add_cancel]
    exact h

/-- The double nearest to `0.1`. -/
theorem roundDouble_tenth : roundDouble (1 / 10) = 3602879701896397 / 36028797018963968 := by
  decide!

/-! ## Invariants of the rounded scan loop -/

theorem ActiveInv.perm {ET : List Edge} {y : ℚ} {A B : List Edge} (hp : A.Perm B)
    (h : ActiveInv ET y A) : ActiveInv ET y B :=
  ⟨((hp.map (baseEdge y)).nodup_iff).mp h.1, fun a ha => h.2 a (hp.mem_iff.mpr ha)⟩

/-- The active edge table of the rounded run at a row is shadowed, entry by entry, by a
rearrangement of the active edge table of the exact run. -/
theorem activeAt_shadow (rnd : ℚ → ℚ) {ETr ETx : List Edge}
    (hET : List.Forall₂ (ShadowEntry rnd) ETr ETx) (hnd : ETx.Nodup)
    (hwf : ∀ e ∈ ETx, e.ymin < e.ymax) {y : ℚ} {aetr aet : List Edge}
    (hpend : PendingInv ETx y aet) (hsh : List.Forall₂ (Shadow rnd y) aetr aet) :
    ∃ A, ActiveInv ETx y A ∧ List.Forall₂ (Shadow rnd y) (activeAt ETr y aetr) A := by
  have h1 : List.Forall₂ (Shadow rnd y) (aetr.filter (fun edge => decide (edge.ymax > y)))
      (aet.filter (fun edge => decide (edge.ymax > y))) :=
    (forall2_filter (fun a b hab => by rw [hab.2.1]) hsh).imp (fun a b h => h.1)
  have h2 : List.Forall₂ (Shadow rnd y) (ETr.filter (fun edge => decide (edge.ymin = y)))
      (ETx.filter (fun edge => decide (edge.ymin = y))) :=
    (forall2_filter (fun a b hab => by rw [hab.1]) hET).imp (fun a b h => by
      obtain ⟨⟨e1, e2, e3, e4⟩, hq⟩ := h
      simp only [decide_eq_true_eq] at hq
      refine ⟨e1, e2, e4, ?_⟩
      rw [e3, hq]
      simp)
  have h3 := List.rel_append h1 h2
  obtain ⟨A, hFA, hperm⟩ :=
    List.perm_comp_forall₂ (List.perm_insertionSort (fun a b : Edge => a.x ≤ b.x) _) h3
  refine ⟨A, ?_, hFA⟩
  exact ActiveInv.perm ((activeAt_perm ETx y aet).trans hperm.symm) (activeAt_inv hnd hwf hpend)

theorem advanceR_shadow (rnd : ℚ → ℚ) (hR : ∀ x, |rnd x - x| ≤ |x| / 2 ^ 53) {y : ℚ}
    {Ar A : List Edge} (hsh : List.Forall₂ (Shadow rnd y) Ar A)
    (hfacts : ∀ a ∈ A, |a.x| ≤ 32768 ∧ |a.slopeInverse| ≤ 65536 ∧ y - a.ymin ≤ 65536) :
    List.Forall₂ (Shadow rnd (y + 1)) (advanceR rnd Ar) (advance A) := by
  unfold advanceR advance
  apply forall2_map_of_mem hsh
  intro r a ha hra
  obtain ⟨e1, e2, e3, e4⟩ := hra
  obtain ⟨f1, f2, f3⟩ := hfacts a ha
  refine ⟨e1, e2, e3, ?_⟩
  simp only
  rw [e3]
  have h := advance_error rnd hR r.x a.x a.slopeInverse (y - a.ymin) f1 f2 f3 e4
  have e : y + 1 - a.ymin = y - a.ymin + 1 := by ring
  rw [e]
  exact h

/-- Two distinct active edges of a convex polygon on a row: one is at the leftmost and the
other at the rightmost boundary point of the row. -/
theorem row_extremes {vs : List Vertex} (hc : ConvexPolygon vs) (y : ℚ) (a b : Edge)
    (ha : baseEdge y a ∈ sortByYmin (buildEdgeTable vs) ∧ a.ymin ≤ y ∧ y < a.ymax)
    (hb : baseEdge y b ∈ sortByYmin (buildEdgeTable vs) ∧ b.ymin ≤ y ∧ y < b.ymax)
    (hne : baseEdge y a ≠ baseEdge y b) :
    (IsLeast (boundaryRow vs y) a.x ∧ IsGreatest (boundaryRow vs y) b.x) ∨
      (IsGreatest (boundaryRow vs y) a.x ∧ IsLeast (boundaryRow vs y) b.x) := by
  obtain ⟨s, hs, H⟩ := convex_oriented hc
  obtain ⟨hain, hakind⟩ := active_extreme H y a ha.1 ha.2.1 ha.2.2
  obtain ⟨hbin, hbkind⟩ := active_extreme H y b hb.1 hb.2.1 hb.2.2
  rcases hakind with ⟨hau, haq⟩ | ⟨had, haq⟩ <;>
    rcases hbkind with ⟨hbu, hbq⟩ | ⟨hbd, hbq⟩
  · exact absurd (up_base_eq hc y _ _ hau hbu) hne
  · rcases hs with rfl | rfl
    · right
      exact ⟨⟨hain, fun q hq => by have := haq q hq; linarith⟩,
        ⟨hbin, fun q hq => by have := hbq q hq; linarith⟩⟩
    · left
      exact ⟨⟨hain, fun q hq => by have := haq q hq; linarith⟩,
        ⟨hbin, fun q hq => by have := hbq q hq; linarith⟩⟩
  · rcases hs with rfl | rfl
    · left
      exact ⟨⟨hain, fun q hq => by have := haq q hq; linarith⟩,
        ⟨hbin, fun q hq => by have := hbq q hq; linarith⟩⟩
    · right
      exact ⟨⟨hain, fun q hq => by have := haq q hq; linarith⟩,
        ⟨hbin, fun q hq => by have := hbq q hq; linarith⟩⟩
  · exact absurd (down_base_eq hc y _ _ had hbd) hne

theorem three_active_absurd {vs : List Vertex} (hc : ConvexPolygon vs) (y : ℚ)
    (a b c : Edge) (rest : List Edge)
    (hA : ActiveInv (sortByYmin (buildEdgeTable vs)) y (a :: b :: c :: rest)) : False := by
  obtain ⟨s, hs, H⟩ := convex_oriented hc
  have hext : ∀ e ∈ a :: b :: c :: rest, _ := fun e he =>
    active_extreme H y e (hA.2 e he).1 (hA.2 e he).2.1 (hA.2 e he).2.2
  have hnd := hA.1
  simp only [List.map_cons, List.nodup_cons, List.mem_cons, not_or] at hnd
  obtain ⟨⟨hab, hac, -⟩, ⟨hbc, -⟩, -⟩ := hnd
  obtain ⟨-, hakind⟩ := hext a (by simp)
  obtain ⟨-, hbkind⟩ := hext b (by simp)
  obtain ⟨-, hckind⟩ := hext c (by simp)
  rcases hakind with ⟨hau, -⟩ | ⟨had, -⟩ <;>
    rcases hbkind with ⟨hbu, -⟩ | ⟨hbd, -⟩ <;>
    rcases hckind with ⟨hcu, -⟩ | ⟨hcd, -⟩
  · exact hab (up_base_eq hc y _ _ hau hbu)
  · exact hab (up_base_eq hc y _ _ hau hbu)
  · exact hac (up_base_eq hc y _ _ hau hcu)
  · exact hbc (down_base_eq hc y _ _ hbd hcd)
  · exact hbc (up_base_eq hc y _ _ hbu hcu)
  · exact hac (down_base_eq hc y _ _ had hcd)
  · exact hab (down_base_eq hc y _ _ had hbd)
  · exact hab (down_base_eq hc y _ _ had hbd)

/-- The spans the rounded run draws for one integer row of a convex polygon with pixel
vertices. -/
theorem rowR_spans (rnd : ℚ → ℚ) {vs : List Vertex} (hc : ConvexPolygon vs)
    (hp : PixelVertices vs) (color : String) (y : ℚ) (n : ℤ) (hy : y = n)
    (Ar A : List Edge) (hA : ActiveInv (sortByYmin (buildEdgeTable vs)) y A)
    (hsh : List.Forall₂ (Shadow rnd y) Ar A)
    (hsorted : Ar.Sorted (fun a b => a.x ≤ b.x)) :
    SpansSatisfy color (SpanWithinOneClosed vs) (pairLoop y color Ar).cmds := by
  cases hsh with
  | nil => exact SpansSatisfy.nil _ _
  | @cons r1 a l1 l2 h1 t1 =>
    cases t1 with
    | nil => exact SpansSatisfy.nil _ _
    | @cons r2 b l3 l4 h2 t2 =>
      cases t2 with
      | @cons r3 c l5 l6 h3 t3 => exact absurd (three_active_absurd hc y a b c l6 hA) id
      | nil =>
        have hab : r1.x ≤ r2.x := by
          simpa [List.Sorted] using hsorted
        have hne : baseEdge y a ≠ baseEdge y b := by
          have := hA.1
          simp only [List.map_cons, List.map_nil, List.nodup_cons, List.mem_singleton,
            List.not_mem_nil, not_false_eq_true, List.nodup_nil, and_true] at this
          exact this
        have ha := hA.2 a (by simp)
        have hb := hA.2 b (by simp)
        obtain ⟨-, -, fa, Da, Pa, da0, da1, dax⟩ :=
          active_pixel_facts hp y n hy a ha.1 ha.2.1 ha.2.2
        obtain ⟨-, -, fb, Db, Pb, db0, db1, dbx⟩ :=
          active_pixel_facts hp y n hy b hb.1 hb.2.1 hb.2.2
        have ea : |r1.x - a.x| ≤ 1 / 2 ^ 19 := by
          refine le_trans h1.2.2.2 ?_
          have : (y - a.ymin) / 2 ^ 35 ≤ 65536 / 2 ^ 35 :=
            div_le_div_of_nonneg_right fa (by positivity)
          norm_num at this ⊢
          linarith
        have eb : |r2.x - b.x| ≤ 1 / 2 ^ 19 := by
          refine le_trans h2.2.2.2 ?_
          have : (y - b.ymin) / 2 ^ 35 ≤ 65536 / 2 ^ 35 :=
            div_le_div_of_nonneg_right fb (by positivity)
          norm_num at this ⊢
          linarith
        refine ⟨[(y, ⌊r1.x⌋, ⌊r2.x⌋)], ?_, ?_⟩
        · simp [pairLoop, Run.seq, Run.emit, Run.done]
        · intro t ht
          simp only [List.mem_singleton] at ht
          subst ht
          rcases row_extremes hc y a b ha hb hne with ⟨hL, hG⟩ | ⟨hG, hL⟩
          · obtain ⟨p1, p2⟩ := floor_near_grid r1.x a.x Da Pa da0 da1 dax ea
            obtain ⟨q1, q2⟩ := floor_near_grid r2.x b.x Db Pb db0 db1 dbx eb
            exact ⟨a.x, b.x, hL, hG, p1, p2, q1, q2⟩
          · have hba : b.x ≤ a.x := hL.2 hG.1
            rw [abs_le] at ea eb
            have ea' : |r1.x - b.x| ≤ 1 / 2 ^ 19 := by
              rw [abs_le]; constructor <;> linarith
            have eb' : |r2.x - a.x| ≤ 1 / 2 ^ 19 := by
              rw [abs_le]; constructor <;> linarith
            obtain ⟨p1, p2⟩ := floor_near_grid r1.x b.x Db Pb db0 db1 dbx ea'
            obtain ⟨q1, q2⟩ := floor_near_grid r2.x a.x Da Pa da0 da1 dax eb'
            exact ⟨b.x, a.x, hL, hG, p1, p2, q1, q2⟩

/-- Every span the rounded scan loop draws for a convex polygon with pixel vertices has its
ends within one pixel of the boundary of the polygon on its row. -/
theorem scanLoopR_spans (rnd : ℚ → ℚ) (hR1 : ∀ x, |rnd x - x| ≤ |x| / 2 ^ 53)
    (hR2 : ∀ n : ℤ, |n| < 2 ^ 53 → rnd (n : ℚ) = n) {vs : List Vertex}
    (hc : ConvexPolygon vs) (hp : PixelVertices vs) (color : String) (y_max : ℚ)
    (hymax : y_max ≤ 32768) :
    ∀ (fuel : Nat) (y : ℚ) (aetr : List Edge), (∃ n : ℤ, y = n) → -32768 ≤ y →
      (∃ aet, PendingInv (sortByYmin (buildEdgeTable vs)) y aet ∧
        List.Forall₂ (Shadow rnd y) aetr aet) →
      SpansSatisfy color (SpanWithinOneClosed vs)
        (scanLoopR rnd (sortByYmin (buildEdgeTableR rnd vs)) color y_max fuel y aetr).cmds := by
  intro fuel
  induction fuel with
  | zero => intro y aetr _ _ _; exact SpansSatisfy.nil _ _
  | succ k ih =>
    intro y aetr hint hlo hinv
    obtain ⟨n, hn⟩ := hint
    obtain ⟨aet, hpend, hsh⟩ := hinv
    rw [scanLoopR]
    split
    · rename_i hle
      obtain ⟨A, hA, hFA⟩ := activeAt_shadow rnd (edgeTableR_shadow rnd hR2 hp)
        (edgeTable_nodup hc) (edgeTable_wf _) hpend hsh
      have hn1 : (-32768 : ℚ) ≤ n := by rw [← hn]; exact hlo
      have hn2 : (n : ℚ) ≤ 32768 := by rw [← hn]; linarith
      have hn1' : -32768 ≤ n := by exact_mod_cast hn1
      have hn2' : n ≤ 32768 := by exact_mod_cast hn2
      have hy1 : rnd (y + 1) = y + 1 := by
        have e : y + 1 = ((n + 1 : ℤ) : ℚ) := by push_cast; rw [hn]
        rw [e]
        apply hR2
        rw [abs_lt]
        constructor <;> norm_num <;> omega
      rw [hy1]
      refine SpansSatisfy.seq (rowR_spans rnd hc hp color y n hn _ A hA hFA
        (activeAt_sorted _ _ _)) (ih _ _ ⟨n + 1, by push_cast; rw [hn]⟩ (by linarith)
          ⟨advance A, advance_inv hA, advanceR_shadow rnd hR1 hFA ?_⟩)
      intro a ha
      obtain ⟨f1, f2, f3, -⟩ :=
        active_pixel_facts hp y n hn a (hA.2 a ha).1 (hA.2 a ha).2.1 (hA.2 a ha).2.2
      exact ⟨f1, f2, f3⟩
    · exact SpansSatisfy.nil _ _

theorem foldl_max_mem (ys : List ℚ) (y0 : ℚ) : ys.foldl max y0 ∈ y0 :: ys := by
  induction ys generalizing y0 with
  | nil => simp
  | cons a ys ih =>
    rw [List.foldl_cons]
    have := ih (max y0 a)
    rcases List.mem_cons.mp this with h | h
    · rcases max_choice y0 a with h' | h'
      · rw [h, h']; simp
      · rw [h, h']; simp
    · exact List.mem_cons_of_mem _ (List.mem_cons_of_mem _ h)

/-- Every span `fillPolygon` draws with rounded arithmetic for a convex polygon with pixel
vertices has its ends within one pixel of the boundary of the polygon on its row. -/
theorem fillPolygonR_pixel_spans (rnd : ℚ → ℚ) (hR1 : ∀ x, |rnd x - x| ≤ |x| / 2 ^ 53)
    (hR2 : ∀ n : ℤ, |n| < 2 ^ 53 → rnd (n : ℚ) = n) (polygon : Polygon)
    (hc : ConvexPolygon polygon.vertices) (hp : PixelVertices polygon.vertices) :
    SpansSatisfy polygon.fillColor (SpanWithinOneClosed polygon.vertices)
      (fillPolygonR rnd polygon).cmds := by
  unfold fillPolygonR
  have hm : ∀ y ∈ polygon.vertices.map (fun v => v.y), ∃ v ∈ polygon.vertices, y = v.y := by
    intro y hy
    obtain ⟨v, hv, rfl⟩ := List.mem_map.mp hy
    exact ⟨v, hv, rfl⟩
  generalize polygon.vertices.map (fun v => v.y) = l at hm
  cases l with
  | nil => exact SpansSatisfy.nil _ _
  | cons y0 ys =>
    simp only []
    obtain ⟨v, hv, hvy⟩ := hm _ (foldl_min_mem ys y0)
    obtain ⟨w, hw, hwy⟩ := hm _ (foldl_max_mem ys y0)
    obtain ⟨-, v2, -, v4⟩ := hp v hv
    obtain ⟨-, -, -, w4⟩ := hp w hw
    rw [abs_le] at v4 w4
    refine scanLoopR_spans rnd hR1 hR2 hc hp _ _ (by rw [hwy]; exact w4.2) _ _ _
      ⟨⌊v.y⌋, by rw [hvy, v2]⟩ (by rw [hvy]; exact v4.1)
      ⟨[], ⟨by simp, fun a ha => absurd ha (List.not_mem_nil _)⟩, List.Forall₂.nil⟩

/-! ## Spans of the rounded fill on two triangles -/

theorem offsetTriangle_greatest :
    IsGreatest (boundaryRow offsetTriangle.vertices 3) (roundDouble (119 / 10) - 9 / 10) := by
  have hv : offsetTriangle.vertices
      = [⟨6699104445713613 / 562949953421312, 0⟩, ⟨5010254585449677 / 562949953421312, 9⟩,
          ⟨5010254585449677 / 562949953421312, 10⟩] := by decide!
  have hr : roundDouble (119 / 10) = 6699104445713613 / 562949953421312 := by decide!
  have hE : polygonEdges offsetTriangle.vertices
      = [(⟨6699104445713613 / 562949953421312, 0⟩, ⟨5010254585449677 / 562949953421312, 9⟩),
          (⟨5010254585449677 / 562949953421312, 9⟩, ⟨5010254585449677 / 562949953421312, 10⟩),
          (⟨5010254585449677 / 562949953421312, 10⟩,
            ⟨6699104445713613 / 562949953421312, 0⟩)] := by
    rw [hv]
    decide!
  rw [hr]
  unfold boundaryRow
  rw [hE]
  constructor
  · refine ⟨(⟨5010254585449677 / 562949953421312, 10⟩,
      ⟨6699104445713613 / 562949953421312, 0⟩), by simp, 7 / 10, by norm_num, by norm_num, ?_, ?_⟩
    · norm_num
    · norm_num
  · intro q hq
    obtain ⟨e, he, t, ht0, ht1, hx, hy⟩ := hq
    simp only [List.mem_cons, List.mem_singleton, List.not_mem_nil, or_false] at he
    rcases he with rfl | rfl | rfl
    · simp only at hx hy
      rw [hx]
      norm_num at hy ⊢
      linarith
    · simp only at hx hy
      norm_num at hy
      linarith
    · simp only at hx hy
      rw [hx]
      norm_num at hy ⊢
      linarith

theorem tallTriangle_least : IsLeast (boundaryRow tallTriangle.vertices 10) 1 := by
  have hE : polygonEdges tallTriangle.vertices
      = [(⟨0, 0⟩, ⟨2, 20⟩), (⟨2, 20⟩, ⟨10, 10⟩), (⟨10, 10⟩, ⟨0, 0⟩)] := by decide!
  unfold boundaryRow
  rw [hE]
  constructor
  · refine ⟨(⟨0, 0⟩, ⟨2, 20⟩), by simp, 1 / 2, by norm_num, by norm_num, ?_, ?_⟩
    · norm_num
    · norm_num
  · intro q hq
    obtain ⟨e, he, t, ht0, ht1, hx, hy⟩ := hq
    simp only [List.mem_cons, List.mem_singleton, List.not_mem_nil, or_false] at he
    rcases he with rfl | rfl | rfl
    · simp only at hx hy
      rw [hx]
      norm_num at hy ⊢
      linarith
    · simp only at hx hy
      rw [hx]
      norm_num at hy ⊢
      linarith
    · simp only at hx hy
      rw [hx]
      norm_num at hy ⊢
      linarith

/-- C5 does not hold as stated for the arithmetic of the code: for the convex triangle
`(11.9, 0), (8.9, 9), (8.9, 10)` (the `x` being the doubles nearest to these decimals) the
code draws on row `3` the span from `10` to `10`, while the rightmost boundary point of the
triangle on that row is at `11.9 - 0.9`, which for these doubles is greater than `11`: the
accumulated `x` of the right edge has fallen just below `11`, so `endX` is more than `1` to
the left of the boundary.  For the convex triangle `(0,0), (2,20), (10,10)` with integer
vertices the code draws on row `10` the span from `0` to `10` while the leftmost boundary
point is at `1`: `startX` is exactly `1` to the left of the boundary. -/
theorem fillPolygon_convex_counterexample :
    ConvexPolygon offsetTriangle.vertices ∧
      fillPolygonR roundDouble offsetTriangle
        = ⟨([(0, 11, 11), (1, 11, 11), (2, 11, 11), (3, 10, 10), (4, 10, 10), (5, 10, 10),
              (6, 9, 10), (7, 9, 9), (8, 9, 9), (9, 8, 9)] : List (ℚ × ℤ × ℤ)).flatMap
            (fun t => spanCmds t.1 t.2.1 t.2.2 "#00ff00"), true⟩ ∧
      IsGreatest (boundaryRow offsetTriangle.vertices 3) (roundDouble (119 / 10) - 9 / 10) ∧
      (10 : ℚ) < roundDouble (119 / 10) - 9 / 10 - 1 ∧
      ConvexPolygon tallTriangle.vertices ∧
      ((fillPolygonR roundDouble tallTriangle).cmds.drop 50).take 5
        = spanCmds 10 0 10 "#00ff00" ∧
      IsLeast (boundaryRow tallTriangle.vertices 10) 1 :=
  ⟨by decide!, by decide!, offsetTriangle_greatest, by decide!, by decide!, by decide!,
    tallTriangle_least⟩

/-! ## Rounded fill: rows visited, and the case of no rounding -/

theorem scanLoopR_of_gt (rnd : ℚ → ℚ) (edgeTable : List Edge) (color : String) (y_max : ℚ)
    (fuel : Nat) (y : ℚ) (aet : List Edge) (h : y_max < y) :
    scanLoopR rnd edgeTable color y_max fuel y aet = Run.done := by
  cases fuel with
  | zero => rfl
  | succ n => simp [scanLoopR, not_le.mpr h]

/-- When the additions `y + 1` of the rows up to `y_max` are exact, the rounded scan loop
leaves by its condition `y <= y_max` within `rowCount` rows: more fuel changes nothing. -/
theorem scanLoopR_fuel (rnd : ℚ → ℚ) (edgeTable : List Edge) (color : String) (y_max : ℚ)
    (n : Nat) :
    ∀ (m : Nat) (y : ℚ) (aet : List Edge),
      (∀ k : Nat, y + k ≤ y_max → rnd (y + k + 1) = y + k + 1) → rowCount y y_max ≤ m →
      scanLoopR rnd edgeTable color y_max (m + n) y aet
        = scanLoopR rnd edgeTable color y_max m y aet := by
  intro m
  induction m with
  | zero =>
    intro y aet _ hm
    have hlt : y_max < y := by
      by_contra hcon
      push_neg at hcon
      have := @rowCount_enough y y_max 0 (by simpa using hcon)
      omega
    rw [scanLoopR_of_gt _ _ _ _ _ _ _ hlt, scanLoopR_of_gt _ _ _ _ _ _ _ hlt]
  | succ m ih =>
    intro y aet hex hm
    rw [show m + 1 + n = (m + n) + 1 by omega, scanLoopR, scanLoopR]
    by_cases hle : y ≤ y_max
    · rw [if_pos hle, if_pos hle]
      have h1 : rnd (y + 1) = y + 1 := by
        have := hex 0 (by simpa using hle)
        simpa using this
      rw [h1, ih]
      · intro k hk
        have := hex (k + 1) (by push_cast; linarith)
        push_cast at this
        rw [show y + 1 + (k : ℚ) + 1 = y + ((k : ℚ) + 1) + 1 by ring]
        exact this
      · by_contra hcon
        push_neg at hcon
        have h2 := rowCount_bound hcon
        have h3 := @rowCount_enough y y_max (m + 1)
          (by push_cast; linarith)
        omega
    · rw [if_neg hle, if_neg hle]

theorem scanLoopR_id (edgeTable : List Edge) (color : String) (y_max : ℚ) (fuel : Nat)
    (y : ℚ) (aet : List Edge) :
    scanLoopR id edgeTable color y_max fuel y aet = scanLoop edgeTable color y_max fuel y aet := by
  induction fuel generalizing y aet with
  | zero => rfl
  | succ n ih =>
    rw [scanLoopR, scanLoop, ih]
    rfl

/-- With no rounding the rounded fill is the exact fill. -/
theorem fillPolygonR_id (polygon : Polygon) : fillPolygonR id polygon = fillPolygon polygon := by
  unfold fillPolygonR fillPolygon
  generalize polygon.vertices.map (fun v => v.y) = l
  cases l with
  | nil => rfl
  | cons y0 ys =>
    simp only []
    rw [scanLoopR_fuel id _ _ _ 1 _ _ _ (fun k _ => rfl) (le_refl _), scanLoopR_id]
    rfl

/-- For a polygon with pixel vertices the rounded fill visits every row up to `y_max`: the
scan loop leaves by its condition, and more fuel changes nothing. -/
theorem fillPolygonR_complete (rnd : ℚ → ℚ) (hR : ∀ n : ℤ, |n| < 2 ^ 53 → rnd (n : ℚ) = n)
    (polygon : Polygon) (hp : PixelVertices polygon.vertices) (hne : polygon.vertices ≠ [])
    (n : Nat) :
    scanLoopR rnd (sortByYmin (buildEdgeTableR rnd polygon.vertices)) polygon.fillColor
        (yMax polygon.vertices)
        (rowCount (yMin polygon.vertices) (yMax polygon.vertices) + 1 + n)
        (yMin polygon.vertices) []
      = fillPolygonR rnd polygon := by
  unfold fillPolygonR yMin yMax
  have hm : ∀ y ∈ polygon.vertices.map (fun v => v.y), ∃ v ∈ polygon.vertices, y = v.y := by
    intro y hy
    obtain ⟨v, hv, rfl⟩ := List.mem_map.mp hy
    exact ⟨v, hv, rfl⟩
  have hl : polygon.vertices.map (fun v => v.y) ≠ [] := by simpa using hne
  generalize polygon.vertices.map (fun v => v.y) = l at hm hl
  cases l with
  | nil => exact absurd rfl hl
  | cons y0 ys =>
    simp only []
    obtain ⟨v, hv, hvy⟩ := hm _ (foldl_min_mem ys y0)
    obtain ⟨w, hw, hwy⟩ := hm _ (foldl_max_mem ys y0)
    obtain ⟨-, v2, -, v4⟩ := hp v hv
    obtain ⟨-, -, -, w4⟩ := hp w hw
    rw [abs_le] at v4 w4
    apply scanLoopR_fuel
    · intro k hk
      rw [hvy] at hk ⊢
      rw [hwy] at hk
      have e : v.y + k + 1 = ((⌊v.y⌋ + k + 1 : ℤ) : ℚ) := by push_cast; rw [v2]
      rw [e]
      apply hR
      have h1 : (-32768 : ℚ) ≤ (⌊v.y⌋ : ℚ) := by rw [v2]; exact v4.1
      have h2 : (⌊v.y⌋ : ℚ) + k ≤ 32768 := by rw [v2]; linarith
      have h1' : -32768 ≤ ⌊v.y⌋ := by exact_mod_cast h1
      have h2' : ⌊v.y⌋ + k ≤ 32768 := by exact_mod_cast h2
      rw [abs_lt]
      constructor <;> norm_num <;> omega
    · omega

/-- The rounded fill of three collinear pixel vertices can draw a span that is not empty:
for `(0,0), (1,6), (2,12)` six additions of the double nearest to `1 / 6` give
`0.9999999999999999`, and row `6` gets the span from `0` to `1`. -/
theorem fillPolygonR_collinear_span :
    CollinearVertices steepLine.vertices ∧
      ((fillPolygonR roundDouble steepLine).cmds.drop 30).take 5
        = spanCmds 6 0 1 "#00ff00" :=
  ⟨⟨6, -1, 0, Or.inl (by norm_num), by decide!⟩, by decide!⟩

/-- C5, amended: for a convex polygon, everything `fillPolygon` draws is a sequence of spans
in the fill colour.  In exact arithmetic each span `(y, startX, endX)` has
`L - 1 < startX ≤ L` and `R - 1 < endX ≤ R`, where `L` and `R` are the leftmost and the
rightmost boundary point of the polygon on row `y`.  In the double arithmetic of the code,
when the vertices have integer coordinates of magnitude at most `32768`, each span has
`L - 1 ≤ startX ≤ L` and `R - 1 ≤ endX ≤ R`. -/
theorem fillPolygonR_convex_spans (polygon : Polygon)
    (hc : ConvexPolygon polygon.vertices) :
    SpansSatisfy polygon.fillColor (SpanWithinOne polygon.vertices)
        (fillPolygonR id polygon).cmds ∧
      (PixelVertices polygon.vertices →
        SpansSatisfy polygon.fillColor (SpanWithinOneClosed polygon.vertices)
          (fillPolygonR roundDouble polygon).cmds) := by
  refine ⟨?_, fun hp =>
    fillPolygonR_pixel_spans roundDouble roundDouble_near roundDouble_intCast polygon hc hp⟩
  rw [fillPolygonR_id]
  exact fillPolygon_convex_spans polygon hc

theorem fillPolygonR_convex_spans_witness :
    ConvexPolygon tallTriangle.vertices ∧ PixelVertices tallTriangle.vertices ∧
      SpansSatisfy tallTriangle.fillColor (SpanWithinOneClosed tallTriangle.vertices)
        (fillPolygonR roundDouble tallTriangle).cmds :=
  ⟨by decide!, by decide!, (fillPolygonR_convex_spans tallTriangle (by decide!)).2 (by decide!)⟩

/-! ## Completion of the rounded fill -/

theorem edgeTableR_rows (rnd : ℚ → ℚ) (vs : List Vertex) :
    List.Forall₂ SameRows (sortByYmin (buildEdgeTableR rnd vs))
      (sortByYmin (buildEdgeTable vs)) := by
  unfold sortByYmin
  apply forall2_insertionSort
  · intro a b a' b' ha hb
    rw [ha.1, hb.1]
  · unfold buildEdgeTableR buildEdgeTable
    apply forall2_flatMap
    intro i _
    unfold edgeTableEntryR edgeTableEntry
    split
    · exact List.Forall₂.cons ⟨rfl, rfl⟩ List.Forall₂.nil
    · exact List.Forall₂.nil

theorem Run.seq_ok (r k : Run) : (r.seq k).ok = (r.ok && k.ok) := by
  unfold Run.seq
  cases h : r.ok <;> simp [h]

/-- When the additions `y + 1` of the rows up to `y_max` are exact, the rounded scan loop
completes exactly when the exact one does: the rows of the active edges do not depend on the
rounding of `x`. -/
theorem scanLoopR_ok (rnd : ℚ → ℚ) {ETr ETx : List Edge}
    (hET : List.Forall₂ SameRows ETr ETx) (color : String) (y_max : ℚ) :
    ∀ (fuel : Nat) (y : ℚ) (aetr aet : List Edge),
      (∀ k : Nat, y + k ≤ y_max → rnd (y + k + 1) = y + k + 1) →
      (∃ B, B.Perm aet ∧ List.Forall₂ SameRows aetr B) →
      (scanLoopR rnd ETr color y_max fuel y aetr).ok
        = (scanLoop ETx color y_max fuel y aet).ok := by
  intro fuel
  induction fuel with
  | zero => intro y aetr aet _ _; rfl
  | succ n ih =>
    intro y aetr aet hex hB
    obtain ⟨B, hBp, hBf⟩ := hB
    rw [scanLoopR, scanLoop]
    by_cases hle : y ≤ y_max
    · rw [if_pos hle, if_pos hle, Run.seq_ok, Run.seq_ok]
      have h1 : List.Forall₂ SameRows (aetr.filter (fun edge => decide (edge.ymax > y)))
          (B.filter (fun edge => decide (edge.ymax > y))) :=
        (forall2_filter (fun a b hab => by rw [hab.2]) hBf).imp (fun a b h => h.1)
      have h2 : List.Forall₂ SameRows (ETr.filter (fun edge => decide (edge.ymin = y)))
          (ETx.filter (fun edge => decide (edge.ymin = y))) :=
        (forall2_filter (fun a b hab => by rw [hab.1]) hET).imp (fun a b h => h.1)
      have h3 := List.rel_append h1 h2
      obtain ⟨C, hFC, hperm⟩ :=
        List.perm_comp_forall₂ (List.perm_insertionSort (fun a b : Edge => a.x ≤ b.x) _) h3
      have hCA : C.Perm (activeAt ETx y aet) :=
        hperm.trans (((hBp.filter _).append_right _).trans (activeAt_perm ETx y aet).symm)
      have hFC' : List.Forall₂ SameRows (activeAt ETr y aetr) C := hFC
      have hlen : (activeAt ETr y aetr).length = (activeAt ETx y aet).length := by
        rw [hFC'.length_eq, hCA.length_eq]
      have hpair : (pairLoop y color (activeAt ETr y aetr)).ok
          = (pairLoop y color (activeAt ETx y aet)).ok := by
        rw [Bool.eq_iff_iff, pairLoop_ok_iff, pairLoop_ok_iff, hlen]
      have hy1 : rnd (y + 1) = y + 1 := by
        have := hex 0 (by simpa using hle)
        simpa using this
      rw [hpair, hy1]
      congr 1
      apply ih
      · intro k hk
        have := hex (k + 1) (by push_cast; linarith)
        push_cast at this
        rw [show y + 1 + (k : ℚ) + 1 = y + ((k : ℚ) + 1) + 1 by ring]
        exact this
      · refine ⟨advance C, hCA.map _, ?_⟩
        unfold advanceR advance
        exact forall2_map_of_mem hFC' (fun a b _ hab => hab)
    · rw [if_neg hle, if_neg hle]

/-- With integer `y` of magnitude at most `32768` the rounded fill completes, whatever the
`x` of the vertices. -/
theorem fillPolygonR_ok_of_integer (rnd : ℚ → ℚ)
    (hR : ∀ n : ℤ, |n| < 2 ^ 53 → rnd (n : ℚ) = n) {polygon : Polygon}
    (hint : IntegerRows polygon.vertices) (hb : ∀ v ∈ polygon.vertices, |v.y| ≤ 32768) :
    (fillPolygonR rnd polygon).ok = true := by
  have hex := fillPolygon_ok_of_integer hint
  rw [← fillPolygonR_id] at hex
  unfold fillPolygonR at hex ⊢
  have hm : ∀ y ∈ polygon.vertices.map (fun v => v.y), ∃ v ∈ polygon.vertices, y = v.y := by
    intro y hy
    obtain ⟨v, hv, rfl⟩ := List.mem_map.mp hy
    exact ⟨v, hv, rfl⟩
  generalize polygon.vertices.map (fun v => v.y) = l at hm hex
  cases l with
  | nil => rfl
  | cons y0 ys =>
    simp only [] at hex ⊢
    obtain ⟨v, hv, hvy⟩ := hm _ (foldl_min_mem ys y0)
    obtain ⟨w, hw, hwy⟩ := hm _ (foldl_max_mem ys y0)
    have v2 := hint v hv
    have v4 := hb v hv
    have w4 := hb w hw
    rw [abs_le] at v4 w4
    rw [scanLoopR_id] at hex
    rw [← hex]
    apply scanLoopR_ok rnd (edgeTableR_rows rnd polygon.vertices)
    · intro k hk
      rw [hvy] at hk ⊢
      rw [hwy] at hk
      have e : v.y + k + 1 = ((⌊v.y⌋ + k + 1 : ℤ) : ℚ) := by push_cast; rw [v2]
      rw [e]
      apply hR
      have h1 : (-32768 : ℚ) ≤ (⌊v.y⌋ : ℚ) := by rw [v2]; exact v4.1
      have h2 : (⌊v.y⌋ : ℚ) + k ≤ 32768 := by rw [v2]; linarith
      have h1' : -32768 ≤ ⌊v.y⌋ := by exact_mod_cast h1
      have h2' : ⌊v.y⌋ + k ≤ 32768 := by exact_mod_cast h2
      rw [abs_lt]
      constructor <;> norm_num <;> omega
    · exact ⟨[], List.Perm.refl _, List.Forall₂.nil⟩

theorem scanLoopR_nil (rnd : ℚ → ℚ) (color : String) (y_max : ℚ) (fuel : Nat) (y : ℚ) :
    scanLoopR rnd [] color y_max fuel y [] = Run.done := by
  induction fuel generalizing y with
  | zero => rfl
  | succ n ih =>
    have hA : activeAt [] y [] = [] := rfl
    rw [scanLoopR, hA]
    split
    · have hadv : advanceR rnd [] = [] := rfl
      rw [hadv, ih]
      rfl
    · rfl

theorem buildEdgeTableR_horizontal (rnd : ℚ → ℚ) {vs : List Vertex}
    (h : ∀ e ∈ polygonEdges vs, e.1.y = e.2.y) : buildEdgeTableR rnd vs = [] := by
  rw [buildEdgeTableR_eq_flatMap, List.flatMap_eq_nil_iff]
  intro e he
  unfold edgeTableEntryR
  rw [if_neg (not_not.mpr (h e he))]

/-- When no edge joins two different `y`, the rounded fill draws nothing and completes. -/
theorem fillPolygonR_horizontal (rnd : ℚ → ℚ) {polygon : Polygon}
    (h : ∀ e ∈ polygonEdges polygon.vertices, e.1.y = e.2.y) :
    fillPolygonR rnd polygon = ⟨[], true⟩ := by
  unfold fillPolygonR
  rw [buildEdgeTableR_horizontal rnd h]
  generalize polygon.vertices.map (fun v => v.y) = l
  cases l with
  | nil => rfl
  | cons y0 ys =>
    simp only []
    have hs : sortByYmin [] = [] := rfl
    rw [hs, scanLoopR_nil]
    rfl

/-! ## Rounded fill of collinear pixel vertices -/

theorem forall2_mem_left {α β : Type} {R : α → β → Prop} {l : List α} {l' : List β}
    (h : List.Forall₂ R l l') {a : α} (ha : a ∈ l) : ∃ b ∈ l', R a b := by
  induction h with
  | nil => cases ha
  | cons hab hl ih =>
    rcases List.mem_cons.mp ha with rfl | h1
    · exact ⟨_, List.mem_cons_self _ _, hab⟩
    · obtain ⟨b, hb, hR⟩ := ih h1
      exact ⟨b, List.mem_cons_of_mem _ hb, hR⟩

theorem activeAt_weak {ET : List Edge} (hwf : ∀ e ∈ ET, e.ymin < e.ymax) {y : ℚ}
    {aet : List Edge} (h : ∀ a ∈ aet, baseEdge y a ∈ ET ∧ a.ymin < y) :
    ∀ a ∈ activeAt ET y aet, baseEdge y a ∈ ET ∧ a.ymin ≤ y ∧ y < a.ymax := by
  intro a ha
  rcases List.mem_append.mp ((activeAt_perm ET y aet).mem_iff.mp ha) with h1 | h1
  · obtain ⟨hmem, hy⟩ := List.mem_filter.mp h1
    simp only [decide_eq_true_eq] at hy
    exact ⟨(h a hmem).1, le_of_lt (h a hmem).2, hy⟩
  · obtain ⟨hmem, hy⟩ := List.mem_filter.mp h1
    simp only [decide_eq_true_eq] at hy
    refine ⟨by rw [baseEdge_of_ymin y a hy]; exact hmem, le_of_eq hy, ?_⟩
    have := hwf a hmem
    linarith

theorem advance_weak {ET : List Edge} {y : ℚ} {A : List Edge}
    (h : ∀ a ∈ A, baseEdge y a ∈ ET ∧ a.ymin ≤ y ∧ y < a.ymax) :
    ∀ a ∈ advance A, baseEdge (y + 1) a ∈ ET ∧ a.ymin < y + 1 := by
  have hb : ∀ a : Edge,
      baseEdge (y + 1) { a with x := a.x + a.slopeInverse } = baseEdge y a := by
    intro a
    simp only [baseEdge, Edge.mk.injEq, true_and, and_true]
    ring
  intro a' ha'
  obtain ⟨a, ha, rfl⟩ := List.mem_map.mp ha'
  rw [hb a]
  refine ⟨(h a ha).1, ?_⟩
  have := (h a ha).2.1
  show a.ymin < y + 1
  linarith

theorem activeAt_shadow_weak (rnd : ℚ → ℚ) {ETr ETx : List Edge}
    (hET : List.Forall₂ (ShadowEntry rnd) ETr ETx) (hwf : ∀ e ∈ ETx, e.ymin < e.ymax)
    {y : ℚ} {aetr aet : List Edge} (hpend : ∀ a ∈ aet, baseEdge y a ∈ ETx ∧ a.ymin < y)
    (hsh : List.Forall₂ (Shadow rnd y) aetr aet) :
    ∃ A, (∀ a ∈ A, baseEdge y a ∈ ETx ∧ a.ymin ≤ y ∧ y < a.ymax) ∧
      List.Forall₂ (Shadow rnd y) (activeAt ETr y aetr) A := by
  have h1 : List.Forall₂ (Shadow rnd y) (aetr.filter (fun edge => decide (edge.ymax > y)))
      (aet.filter (fun edge => decide (edge.ymax > y))) :=
    (forall2_filter (fun a b hab => by rw [hab.2.1]) hsh).imp (fun a b h => h.1)
  have h2 : List.Forall₂ (Shadow rnd y) (ETr.filter (fun edge => decide (edge.ymin = y)))
      (ETx.filter (fun edge => decide (edge.ymin = y))) :=
    (forall2_filter (fun a b hab => by rw [hab.1]) hET).imp (fun a b h => by
      obtain ⟨⟨e1, e2, e3, e4⟩, hq⟩ := h
      simp only [decide_eq_true_eq] at hq
      refine ⟨e1, e2, e4, ?_⟩
      rw [e3, hq]
      simp)
  have h3 := List.rel_append h1 h2
  obtain ⟨A, hFA, hperm⟩ :=
    List.perm_comp_forall₂ (List.perm_insertionSort (fun a b : Edge => a.x ≤ b.x) _) h3
  refine ⟨A, ?_, hFA⟩
  intro a ha
  exact activeAt_weak hwf hpend a
    (((activeAt_perm ETx y aet).trans hperm.symm).mem_iff.mpr ha)

theorem pairLoop_near_spans (y : ℚ) (color : String) (X : ℚ) (A : List Edge)
    (h : ∀ r ∈ A, X - 1 ≤ (⌊r.x⌋ : ℚ) ∧ (⌊r.x⌋ : ℚ) ≤ X) :
    SpansSatisfy color (fun _ startX endX => |endX - startX| ≤ 1)
      (pairLoop y color A).cmds := by
  have key : ∀ A : List Edge, (∀ r ∈ A, X - 1 ≤ (⌊r.x⌋ : ℚ) ∧ (⌊r.x⌋ : ℚ) ≤ X) →
      SpansSatisfy color (fun _ startX endX => |endX - startX| ≤ 1)
        (pairLoop y color A).cmds ∧
      ∀ a : Edge, (X - 1 ≤ (⌊a.x⌋ : ℚ) ∧ (⌊a.x⌋ : ℚ) ≤ X) →
        SpansSatisfy color (fun _ startX endX => |endX - startX| ≤ 1)
          (pairLoop y color (a :: A)).cmds := by
    intro A
    induction A with
    | nil =>
      intro _
      exact ⟨SpansSatisfy.nil _ _, fun a _ => SpansSatisfy.nil _ _⟩
    | cons b rest ih =>
      intro hA
      have hb := hA b (List.mem_cons_self _ _)
      have hrest := ih (fun r hr => hA r (List.mem_cons_of_mem _ hr))
      refine ⟨hrest.2 b hb, fun a ha => ?_⟩
      rw [pairLoop]
      refine SpansSatisfy.seq ⟨[(y, ⌊a.x⌋, ⌊b.x⌋)], by simp [Run.emit], ?_⟩ hrest.1
      intro t ht
      rw [List.mem_singleton.mp ht]
      have : |((⌊b.x⌋ - ⌊a.x⌋ : ℤ) : ℚ)| ≤ 1 := by
        rw [abs_le]
        push_cast
        constructor <;> linarith [ha.1, ha.2, hb.1, hb.2]
      exact_mod_cast this
  exact (key A h).1

/-- An active edge of a polygon with vertices on the line `a * x + b * y = c` has its exact
`x` on that line. -/
theorem active_on_line {a b c : ℚ} {vs : List Vertex}
    (hline : ∀ v ∈ vs, a * v.x + b * v.y = c) (y : ℚ) (r : Edge)
    (hr : baseEdge y r ∈ sortByYmin (buildEdgeTable vs)) : a * r.x + b * y = c := by
  obtain ⟨e, he, hre⟩ := (mem_sortByYmin vs _).mp hr
  obtain ⟨h1, h2⟩ := entry_on_line (hline e.1 (polygonEdges_mem_left he))
    (hline e.2 (polygonEdges_mem_right he)) hre
  simp only [baseEdge] at h1 h2
  linear_combination h1 + (y - r.ymin) * h2

theorem scanLoopR_collinear_spans (rnd : ℚ → ℚ) (hR1 : ∀ x, |rnd x - x| ≤ |x| / 2 ^ 53)
    (hR2 : ∀ n : ℤ, |n| < 2 ^ 53 → rnd (n : ℚ) = n) {vs : List Vertex} {a b c : ℚ}
    (ha : a ≠ 0) (hline : ∀ v ∈ vs, a * v.x + b * v.y = c) (hp : PixelVertices vs)
    (color : String) (y_max : ℚ) (hymax : y_max ≤ 32768) :
    ∀ (fuel : Nat) (y : ℚ) (aetr : List Edge), (∃ n : ℤ, y = n) → -32768 ≤ y →
      (∃ aet, (∀ r ∈ aet, baseEdge y r ∈ sortByYmin (buildEdgeTable vs) ∧ r.ymin < y) ∧
        List.Forall₂ (Shadow rnd y) aetr aet) →
      SpansSatisfy color (fun _ startX endX => |endX - startX| ≤ 1)
        (scanLoopR rnd (sortByYmin (buildEdgeTableR rnd vs)) color y_max fuel y aetr).cmds := by
  intro fuel
  induction fuel with
  | zero => intro y aetr _ _ _; exact SpansSatisfy.nil _ _
  | succ k ih =>
    intro y aetr hint hlo hinv
    obtain ⟨n, hn⟩ := hint
    obtain ⟨aet, hpend, hsh⟩ := hinv
    rw [scanLoopR]
    split
    · rename_i hle
      obtain ⟨A, hA, hFA⟩ := activeAt_shadow_weak rnd (edgeTableR_shadow rnd hR2 hp)
        (edgeTable_wf _) hpend hsh
      have hn1 : (-32768 : ℚ) ≤ n := by rw [← hn]; exact hlo
      have hn2 : (n : ℚ) ≤ 32768 := by rw [← hn]; linarith
      have hn1' : -32768 ≤ n := by exact_mod_cast hn1
      have hn2' : n ≤ 32768 := by exact_mod_cast hn2
      have hy1 : rnd (y + 1) = y + 1 := by
        have e : y + 1 = ((n + 1 : ℤ) : ℚ) := by push_cast; rw [hn]
        rw [e]
        apply hR2
        rw [abs_lt]
        constructor <;> norm_num <;> omega
      rw [hy1]
      refine SpansSatisfy.seq ?_ (ih _ _ ⟨n + 1, by push_cast; rw [hn]⟩ (by linarith)
          ⟨advance A, advance_weak hA, advanceR_shadow rnd hR1 hFA ?_⟩)
      · apply pairLoop_near_spans y color ((c - b * y) / a)
        intro r hr
        obtain ⟨s, hs, hrs⟩ := forall2_mem_left hFA hr
        obtain ⟨-, -, fs, D, P, d0, d1, dx⟩ :=
          active_pixel_facts hp y n hn s (hA s hs).1 (hA s hs).2.1 (hA s hs).2.2
        have hX : s.x = (c - b * y) / a := by
          rw [eq_div_iff ha]
          linarith [active_on_line hline y s (hA s hs).1]
        have es : |r.x - s.x| ≤ 1 / 2 ^ 19 := by
          refine le_trans hrs.2.2.2 ?_
          have : (y - s.ymin) / 2 ^ 35 ≤ 65536 / 2 ^ 35 :=
            div_le_div_of_nonneg_right fs (by positivity)
          norm_num at this ⊢
          linarith
        rw [← hX]
        exact floor_near_grid r.x s.x D P d0 d1 dx es
      · intro s hs
        obtain ⟨f1, f2, f3, -⟩ :=
          active_pixel_facts hp y n hn s (hA s hs).1 (hA s hs).2.1 (hA s hs).2.2
        exact ⟨f1, f2, f3⟩
    · exact SpansSatisfy.nil _ _

/-- The rounded fill of collinear pixel vertices draws only spans at most one pixel long. -/
theorem fillPolygonR_collinear_spans (rnd : ℚ → ℚ) (hR1 : ∀ x, |rnd x - x| ≤ |x| / 2 ^ 53)
    (hR2 : ∀ n : ℤ, |n| < 2 ^ 53 → rnd (n : ℚ) = n) {polygon : Polygon}
    (hc : CollinearVertices polygon.vertices) (hp : PixelVertices polygon.vertices) :
    SpansSatisfy polygon.fillColor (fun _ startX endX => |endX - startX| ≤ 1)
      (fillPolygonR rnd polygon).cmds := by
  obtain ⟨a, b, c, hab, hline⟩ := hc
  by_cases ha : a = 0
  · have hb : b ≠ 0 := by
      rcases hab with h | h
      · exact absurd ha h
      · exact h
    have hh : ∀ e ∈ polygonEdges polygon.vertices, e.1.y = e.2.y := by
      intro e he
      have h1 := hline e.1 (polygonEdges_mem_left he)
      have h2 := hline e.2 (polygonEdges_mem_right he)
      rw [ha, zero_mul, zero_add] at h1 h2
      exact mul_left_cancel₀ hb (h1.trans h2.symm)
    rw [fillPolygonR_horizontal rnd hh]
    exact SpansSatisfy.nil _ _
  · unfold fillPolygonR
    have hm : ∀ y ∈ polygon.vertices.map (fun v => v.y),
        ∃ v ∈ polygon.vertices, y = v.y := by
      intro y hy
      obtain ⟨v, hv, rfl⟩ := List.mem_map.mp hy
      exact ⟨v, hv, rfl⟩
    generalize polygon.vertices.map (fun v => v.y) = l at hm
    cases l with
    | nil => exact SpansSatisfy.nil _ _
    | cons y0 ys =>
      simp only []
      obtain ⟨v, hv, hvy⟩ := hm _ (foldl_min_mem ys y0)
      obtain ⟨w, hw, hwy⟩ := hm _ (foldl_max_mem ys y0)
      obtain ⟨-, v2, -, v4⟩ := hp v hv
      obtain ⟨-, -, -, w4⟩ := hp w hw
      rw [abs_le] at v4 w4
      exact scanLoopR_collinear_spans rnd hR1 hR2 ha hline hp _ _ (by rw [hwy]; exact w4.2)
        _ _ _ ⟨⌊v.y⌋, by rw [hvy, v2]⟩ (by rw [hvy]; exact v4.1)
        ⟨[], fun r hr => absurd hr (List.not_mem_nil _), List.Forall₂.nil⟩

/-! ## The rounded hit test at pixel positions -/

theorem grid_gap (c : ℚ) (P D M : ℤ) (hD : D ≠ 0) (hD' : |D| ≤ 65536) (hc : c * D = M)
    (hne : c ≠ P) : 1 / 65536 ≤ |c - P| := by
  have h1 : (c - P) * D = ((M - P * D : ℤ) : ℚ) := by push_cast; rw [← hc]; ring
  have hDq : (D : ℚ) ≠ 0 := by exact_mod_cast hD
  have h2 : M - P * D ≠ 0 := by
    intro h0
    rw [h0] at h1
    simp only [Int.cast_zero, mul_eq_zero] at h1
    rcases h1 with h | h
    · exact hne (by linarith)
    · exact hDq h
  have h3 : (1 : ℚ) ≤ |((M - P * D : ℤ) : ℚ)| := by
    have : 1 ≤ |M - P * D| := Int.one_le_abs h2
    exact_mod_cast this
  rw [← h1, abs_mul] at h3
  have h4 : |(D : ℚ)| ≤ 65536 := by exact_mod_cast hD'
  have h5 : 0 ≤ |c - (P : ℚ)| := abs_nonneg _
  by_contra hcon
  push_neg at hcon
  have h6 : |c - (P : ℚ)| * |(D : ℚ)| ≤ |c - (P : ℚ)| * 65536 :=
    mul_le_mul_of_nonneg_left h4 h5
  linarith

/-- At pixel positions the rounded crossing lies on the same side of `p.x` as the exact
one. -/
theorem computedCrossingX_pixel (rnd : ℚ → ℚ) (hR1 : ∀ x, |rnd x - x| ≤ |x| / 2 ^ 53)
    (hR2 : ∀ n : ℤ, |n| < 2 ^ 53 → rnd (n : ℚ) = n) (a b p : Vertex)
    (ha : PixelVertex a) (hb : PixelVertex b) (hp : PixelVertex p) (hne : a.y ≠ b.y) :
    p.x < computedCrossingX rnd a b p ↔ p.x < crossingX a b p.y := by
  obtain ⟨a1, a2, a3, a4⟩ := ha
  obtain ⟨b1, b2, b3, b4⟩ := hb
  obtain ⟨p1, p2, p3, p4⟩ := hp
  have kx := rnd_sub_pixel rnd hR2 _ _ a1 b1 a3 b3
  have kp := rnd_sub_pixel rnd hR2 _ _ p2 b2 p4 b4
  have ky := rnd_sub_pixel rnd hR2 _ _ a2 b2 a4 b4
  unfold computedCrossingX
  rw [kx, kp, ky]
  have hdy : a.y - b.y ≠ 0 := sub_ne_zero.mpr hne
  have hcx : crossingX a b p.y = (a.x - b.x) * (p.y - b.y) / (a.y - b.y) + b.x := by
    unfold crossingX
    have hdy' : b.y - a.y ≠ 0 := by intro h; apply hdy; linarith
    field_simp
    ring
  rw [hcx]
  rw [abs_le] at a3 a4 b3 b4 p3 p4
  -- integer forms
  have eN : (a.x - b.x) * (p.y - b.y)
      = (((⌊a.x⌋ - ⌊b.x⌋) * (⌊p.y⌋ - ⌊b.y⌋) : ℤ) : ℚ) := by
    push_cast; rw [a1, b1, p2, b2]
  have eD : a.y - b.y = ((⌊a.y⌋ - ⌊b.y⌋ : ℤ) : ℚ) := by push_cast; rw [a2, b2]
  have hdx : |a.x - b.x| ≤ 65536 := by rw [abs_le]; constructor <;> linarith
  have hdp : |p.y - b.y| ≤ 65536 := by rw [abs_le]; constructor <;> linarith
  have hdyb : |a.y - b.y| ≤ 65536 := by rw [abs_le]; constructor <;> linarith
  have hN : |(a.x - b.x) * (p.y - b.y)| ≤ 4294967296 := by
    rw [abs_mul]
    calc |a.x - b.x| * |p.y - b.y| ≤ 65536 * 65536 :=
          mul_le_mul hdx hdp (abs_nonneg _) (by norm_num)
      _ = 4294967296 := by norm_num
  have hNr : rnd ((a.x - b.x) * (p.y - b.y)) = (a.x - b.x) * (p.y - b.y) := by
    have hNz : |(⌊a.x⌋ - ⌊b.x⌋) * (⌊p.y⌋ - ⌊b.y⌋)| ≤ 4294967296 := by
      have := hN
      rw [eN] at this
      exact_mod_cast this
    rw [eN]
    apply hR2
    refine lt_of_le_of_lt hNz (by norm_num)
  rw [hNr]
  have hD1 : (1 : ℚ) ≤ |a.y - b.y| := by
    rw [eD]
    have hz : ⌊a.y⌋ - ⌊b.y⌋ ≠ 0 := by
      intro h0
      apply hdy
      rw [eD, h0]
      simp
    have : 1 ≤ |⌊a.y⌋ - ⌊b.y⌋| := Int.one_le_abs hz
    exact_mod_cast this
  generalize hq : (a.x - b.x) * (p.y - b.y) / (a.y - b.y) = q
  have hqb : |q| ≤ 4294967296 := by
    rw [← hq, abs_div]
    calc |(a.x - b.x) * (p.y - b.y)| / |a.y - b.y|
        ≤ |(a.x - b.x) * (p.y - b.y)| / 1 :=
          div_le_div_of_nonneg_left (abs_nonneg _) one_pos hD1
      _ ≤ 4294967296 := by rw [div_one]; exact hN
  have hgrid : (q + b.x) * ((⌊a.y⌋ - ⌊b.y⌋ : ℤ) : ℚ)
      = (((⌊a.x⌋ - ⌊b.x⌋) * (⌊p.y⌋ - ⌊b.y⌋) + ⌊b.x⌋ * (⌊a.y⌋ - ⌊b.y⌋) : ℤ) : ℚ) := by
    rw [← hq, ← eD]
    push_cast
    rw [a1, b1, a2, b2, p2]
    field_simp
  have hDz : ⌊a.y⌋ - ⌊b.y⌋ ≠ 0 := by
    intro h0
    apply hdy
    rw [eD, h0]
    simp
  have hDb : |⌊a.y⌋ - ⌊b.y⌋| ≤ 65536 := by
    have := hdyb
    rw [eD] at this
    exact_mod_cast this
  by_cases hceq : q + b.x = p.x
  · -- the exact crossing is at the point: every operation is exact
    have eq1 : q = ((⌊p.x⌋ - ⌊b.x⌋ : ℤ) : ℚ) := by
      push_cast; rw [p1, b1]; linarith
    have hq1 : rnd q = q := by
      rw [eq1]
      apply hR2
      have h1 : |(⌊p.x⌋ : ℚ)| ≤ 32768 := by rw [p1, abs_le]; exact p3
      have h2 : |(⌊b.x⌋ : ℚ)| ≤ 32768 := by rw [b1, abs_le]; exact b3
      have h1' : |⌊p.x⌋| ≤ 32768 := by exact_mod_cast h1
      have h2' : |⌊b.x⌋| ≤ 32768 := by exact_mod_cast h2
      rw [abs_le] at h1' h2'
      rw [abs_lt]
      constructor <;> norm_num <;> omega
    have hs1 : rnd (q + b.x) = q + b.x := by
      rw [hceq, ← p1]
      apply hR2
      have h1 : |(⌊p.x⌋ : ℚ)| ≤ 32768 := by rw [p1, abs_le]; exact p3
      have h1' : |⌊p.x⌋| ≤ 32768 := by exact_mod_cast h1
      refine lt_of_le_of_lt h1' (by norm_num)
    rw [hq1, hs1]
  · have hgap := grid_gap (q + b.x) ⌊p.x⌋ _ _ hDz hDb hgrid (by rw [p1]; exact hceq)
    rw [p1] at hgap
    have e1 := hR1 q
    have e1' : |rnd q - q| ≤ 4294967296 / 2 ^ 53 :=
      le_trans e1 (div_le_div_of_nonneg_right hqb (by positivity))
    have e2 := hR1 (rnd q + b.x)
    rw [abs_le] at hqb e1'
    have hsb : |rnd q + b.x| ≤ 8589934592 := by
      rw [abs_le]
      constructor <;> norm_num at * <;> linarith
    have e2' : |rnd (rnd q + b.x) - (rnd q + b.x)| ≤ 8589934592 / 2 ^ 53 :=
      le_trans e2 (div_le_div_of_nonneg_right hsb (by positivity))
    rw [abs_le] at e2'
    norm_num at e1' e2' hgap
    rcases lt_or_gt_of_ne hceq with hlt | hgt
    · rw [abs_of_neg (by linarith)] at hgap
      constructor
      · intro h; exfalso; linarith
      · intro h; exfalso; linarith
    · rw [abs_of_pos (by linarith)] at hgap
      constructor
      · intro _; exact hgt
      · intro _; linarith

/-- At pixel positions the rounded hit test gives the result of exact arithmetic. -/
theorem isPointInPolygonR_pixel (rnd : ℚ → ℚ) (hR1 : ∀ x, |rnd x - x| ≤ |x| / 2 ^ 53)
    (hR2 : ∀ n : ℤ, |n| < 2 ^ 53 → rnd (n : ℚ) = n) (p : Vertex) (vs : List Vertex)
    (hp : PixelVertex p) (hvs : ∀ v ∈ vs, PixelVertex v) :
    computedCrossings rnd p vs = rayCrossings p vs ∧
      isPointInPolygonR rnd p vs = isPointInPolygon p vs := by
  have h : computedCrossings rnd p vs = rayCrossings p vs := by
    apply computedCrossings_eq_of_agree
    intro e he hs
    have hne : e.1.y ≠ e.2.y := by
      intro heq
      unfold straddles at hs
      rw [heq] at hs
      simp at hs
    exact computedCrossingX_pixel rnd hR1 hR2 e.1 e.2 p (hvs _ (polygonEdges_mem_left he))
      (hvs _ (polygonEdges_mem_right he)) hp hne
  refine ⟨h, ?_⟩
  rw [isPointInPolygonR_eq_odd, h, isPointInPolygon_eq_odd]

/-! ## The hit test as the code computes it -/

/-- C2, amended: with arithmetic rounded by any `rnd` (the doubles of the code, or no
rounding), `isPointInPolygon(p, vertices)` is true exactly when the number of polygon edges
(consecutive vertex pairs, wrap-around edge included) that straddle `p.y` and whose crossing
`x`, as the code computes it, is strictly greater than `p.x` is odd; it is false for the
empty vertex list.  When the point and the vertices have integer coordinates of magnitude
at most `32768`, and also in exact arithmetic, the computed crossing can be replaced by
the exact one: the result is true exactly when the number of edges that straddle `p.y` and
cross the horizontal line through `p` at an `x` strictly greater than `p.x` is odd. -/
theorem isPointInPolygonR_iff_odd_crossings (rnd : ℚ → ℚ) (p : Vertex)
    (vertices : List Vertex) :
    (isPointInPolygonR rnd p vertices = true ↔ Odd (computedCrossings rnd p vertices)) ∧
      isPointInPolygonR rnd p [] = false ∧
      (PixelVertex p → PixelVertices vertices →
        (isPointInPolygonR roundDouble p vertices = true ↔
          Odd (rayCrossings p vertices))) ∧
      (isPointInPolygonR id p vertices = true ↔ Odd (rayCrossings p vertices)) := by
  have h : ∀ r : ℚ → ℚ,
      isPointInPolygonR r p vertices = true ↔ Odd (computedCrossings r p vertices) := by
    intro r
    rw [isPointInPolygonR_eq_odd, Nat.odd_iff]
    simp
  refine ⟨h rnd, rfl, ?_, ?_⟩
  · intro hp hvs
    rw [← (isPointInPolygonR_pixel roundDouble roundDouble_near roundDouble_intCast p
      vertices hp hvs).1]
    exact h roundDouble
  · rw [← computedCrossings_id]
    exact h id

theorem isPointInPolygonR_iff_odd_crossings_witness :
    PixelVertex ⟨3, 3⟩ ∧ PixelVertices slimTriangle ∧
      (isPointInPolygonR roundDouble ⟨3, 3⟩ slimTriangle = true ↔
        Odd (rayCrossings ⟨3, 3⟩ slimTriangle)) ∧
      isPointInPolygonR roundDouble ⟨3, 3⟩ slimTriangle = true :=
  ⟨by decide!, by decide!,
    (isPointInPolygonR_iff_odd_crossings roundDouble ⟨3, 3⟩ slimTriangle).2.2.1
      (by decide!) (by decide!),
    by decide!⟩

/-- C3, amended: for every simple (non-self-intersecting) polygon and every point,
`isPointInPolygon` returns `true` exactly when the winding number of the polygon around the
point is non-zero, provided that on every edge that straddles the row of the point the
crossing `x` the code computes lies on the same side of `point.x` as the exact crossing.
This proviso holds when the point and the vertices have integer coordinates of magnitude
at most `32768`, and it holds in exact arithmetic. -/
theorem isPointInPolygonR_iff_winding (rnd : ℚ → ℚ) (vertices : List Vertex)
    (point : Vertex) (hs : SimplePolygon vertices) :
    ((∀ e ∈ polygonEdges vertices, straddles e.1 e.2 point.y = true →
        (point.x < computedCrossingX rnd e.1 e.2 point ↔
          point.x < crossingX e.1 e.2 point.y)) →
      (isPointInPolygonR rnd point vertices = true ↔ windingNumber point vertices ≠ 0)) ∧
      (PixelVertex point → PixelVertices vertices →
        (isPointInPolygonR roundDouble point vertices = true ↔
          windingNumber point vertices ≠ 0)) ∧
      (isPointInPolygonR id point vertices = true ↔ windingNumber point vertices ≠ 0) := by
  have key : ∀ r : ℚ → ℚ, computedCrossings r point vertices = rayCrossings point vertices →
      (isPointInPolygonR r point vertices = true ↔ windingNumber point vertices ≠ 0) := by
    intro r hr
    rw [isPointInPolygonR_eq_odd, hr, decide_eq_true_eq]
    obtain ⟨k, hk⟩ := winding_parity point vertices
    obtain ⟨h1, h2⟩ := winding_bound hs point
    omega
  exact ⟨fun h => key rnd (computedCrossings_eq_of_agree rnd point vertices h),
    fun hp hvs => key roundDouble (isPointInPolygonR_pixel roundDouble roundDouble_near
      roundDouble_intCast point vertices hp hvs).1,
    key id (computedCrossings_id point vertices)⟩

theorem isPointInPolygonR_iff_winding_witness :
    SimplePolygon slimTriangle ∧ PixelVertex ⟨3, 3⟩ ∧ PixelVertices slimTriangle ∧
      (isPointInPolygonR roundDouble ⟨3, 3⟩ slimTriangle = true ↔
        windingNumber ⟨3, 3⟩ slimTriangle ≠ 0) ∧
      isPointInPolygonR roundDouble ⟨3, 3⟩ slimTriangle = true :=
  ⟨slimTriangle_simple, by decide!, by decide!,
    (isPointInPolygonR_iff_winding roundDouble slimTriangle ⟨3, 3⟩ slimTriangle_simple).2.1
      (by decide!) (by decide!),
    by decide!⟩

/-! ## Degenerate polygons as the code fills them -/

/-- C12, amended: for a polygon whose vertices all lie on one line, with arithmetic rounded
by any `rnd`, `fillPolygon` draws nothing and completes when no edge joins two different `y`
(the line is horizontal, or there is at most one vertex).  When the vertices have integer
coordinates of magnitude at most `32768`, `fillPolygon` completes in the double arithmetic
of the code and every span it draws is at most one pixel long.  In exact arithmetic it
completes when the vertices have integer `y`, and every span it draws is empty
(`startX = endX`). -/
theorem fillPolygon_degenerate (polygon : Polygon)
    (hc : CollinearVertices polygon.vertices) :
    ((∀ e ∈ polygonEdges polygon.vertices, e.1.y = e.2.y) →
        ∀ rnd : ℚ → ℚ, fillPolygonR rnd polygon = ⟨[], true⟩) ∧
      (PixelVertices polygon.vertices →
        (fillPolygonR roundDouble polygon).ok = true ∧
          SpansSatisfy polygon.fillColor (fun _ startX endX => |endX - startX| ≤ 1)
            (fillPolygonR roundDouble polygon).cmds) ∧
      (IntegerRows polygon.vertices → (fillPolygonR id polygon).ok = true) ∧
      SpansSatisfy polygon.fillColor (fun _ startX endX => startX = endX)
        (fillPolygonR id polygon).cmds := by
  refine ⟨fun h rnd => fillPolygonR_horizontal rnd h, fun hp => ⟨?_, ?_⟩, fun h => ?_, ?_⟩
  · exact fillPolygonR_ok_of_integer roundDouble roundDouble_intCast
      (fun v hv => (hp v hv).2.1) (fun v hv => (hp v hv).2.2.2)
  · exact fillPolygonR_collinear_spans roundDouble roundDouble_near roundDouble_intCast hc hp
  · rw [fillPolygonR_id]
    exact fillPolygon_ok_of_integer h
  · rw [fillPolygonR_id]
    exact collinear_spans hc

theorem fillPolygon_degenerate_witness :
    CollinearVertices steepLine.vertices ∧ PixelVertices steepLine.vertices ∧
      (fillPolygonR roundDouble steepLine).ok = true ∧
      SpansSatisfy steepLine.fillColor (fun _ startX endX => |endX - startX| ≤ 1)
        (fillPolygonR roundDouble steepLine).cmds :=
  ⟨⟨6, -1, 0, Or.inl (by norm_num), by decide!⟩, by decide!,
    ((fillPolygon_degenerate steepLine ⟨6, -1, 0, Or.inl (by norm_num), by decide!⟩).2.1
      (by decide!)).1,
    ((fillPolygon_degenerate steepLine ⟨6, -1, 0, Or.inl (by norm_num), by decide!⟩).2.1
      (by decide!)).2⟩

end FillPoly
